import Mathlib

/-!
# Verification of the memdb indexed in-memory store

This development gives a shallow embedding of the `memdb` package (an
embeddable, in-memory, ordered, indexed object store) and proves properties
of its operations.  The embedding follows the current variant of the Go
sources: `store.go` (the variant defining `Storer`, `happening` and
per-wrap `Stats`), `index.go` / the index variant with `All` and `FieldKey`,
`wrap.go` (the `Stats`-carrying variant), `ageexpirer.go` together with the
later variant of `ageExpirer.IsExpired` that substitutes zero timestamps,
and `ageexpirer_requireall.go`.

Modelling conventions:
* `time.Time` and `time.Duration` are modelled as `Int` (nanoseconds);
  Go's `t.IsZero()` becomes `t = 0` and `now.Sub(t)` becomes `now - t`.
* Items are an opaque type parameter `α`; the host callbacks (comparator,
  fielder, expirer, the `%#v` representation used by `Unsure`) are fields of
  a configuration record, mirroring the resolution chains of `Store.Less`,
  `Store.GetField` and `Store.IsExpired`.
* Go maps are modelled as association lists; where the source iterates a Go
  map whose order is unspecified (`s.indexes`), the model iterates in index
  creation order (`Index.n` order), one of the orders Go may produce.
* Go pointers to `wrap` objects are modelled by giving each wrap a unique
  numeric `uid` (the source generates a random 12-character UID; only its
  uniqueness is relevant).  A mutation through a pointer is modelled by
  rewriting every occurrence of that uid in the state.
* The `happens` channel is modelled as the list of happenings sent so far,
  in send order.  The persistence collaborator is absent (`persister = nil`
  in the source), so the error results of `Put`/`Delete` are always `nil`.
-/

namespace Memdb

/-- `Stats` from `wrap.go`: access statistics of a stored item.  The `w`
back-pointer and mutex of the source are concurrency plumbing with no
sequential content and are omitted. -/
structure Stats where
  created : Int
  accessed : Int
  modified : Int
  reads : Nat
  writes : Nat
  size : Nat
deriving DecidableEq, Repr

/-- The zero value of `Stats` (fresh Go struct). -/
def Stats.zero : Stats := ⟨0, 0, 0, 0, 0, 0⟩

/-- `Stats.read` from `wrap.go`: mark an access at time `t`. -/
def Stats.readAt (s : Stats) (t : Int) : Stats :=
  { s with accessed := t, reads := s.reads + 1 }

/-- `Stats.written` from `wrap.go`: mark a write at time `t`. -/
def Stats.writtenAt (s : Stats) (t : Int) : Stats :=
  { s with modified := t, writes := s.writes + 1 }

/-- `ExpireBool` from `indexer.go`: ternary result of an `ExpireFunc`. -/
inductive ExpireBool where
  | expireFalse
  | expireTrue
  | expireNull
deriving DecidableEq, Repr

open ExpireBool

/-- An `ExpireFunc` from `indexer.go`, specialised to an item type `α`. -/
def ExpireFunc (α : Type) := α → Int → Stats → ExpireBool

/-- The configuration record of `AgeExpirer` / `AgeExpirerRequireAll`
(fields `cTime`, `mTime`, `aTime` and the predicate list `cb`). -/
structure AgeExpirer (α : Type) where
  cTime : Int
  mTime : Int
  aTime : Int
  cb : List (ExpireFunc α)

/-- `ageExpirer.IsExpired` (the "any" built-in), from the later variant of
`ageexpirer.go`: predicates first (first non-null decides), then the zero
substitutions (`modified`→`created`, `accessed`→`modified`), then any
configured threshold strictly exceeded yields true. -/
def AgeExpirer.isExpired (ae : AgeExpirer α) (a : α) (now : Int) (stats : Stats) : Bool :=
  match ae.cb.find? (fun cb => cb a now stats != expireNull) with
  | some cb => cb a now stats == expireTrue
  | none =>
    let cTime := stats.created
    let mTime := if stats.modified = 0 then cTime else stats.modified
    let aTime := if stats.accessed = 0 then mTime else stats.accessed
    if ae.cTime ≠ 0 ∧ now - cTime > ae.cTime then true
    else if ae.aTime ≠ 0 ∧ now - aTime > ae.aTime then true
    else if ae.mTime ≠ 0 ∧ now - mTime > ae.mTime then true
    else false

/-- One step of the predicate loop of `ageExpirerRequireAll.IsExpired`:
null leaves the decision alone, false resets it, true sets it. -/
def ExpireBool.apply (acc : Bool) : ExpireBool → Bool
  | expireFalse => false
  | expireTrue => true
  | expireNull => acc

/-- `ageExpirerRequireAll.IsExpired` (the "all" built-in), from
`ageexpirer_requireall.go`: zero substitutions, then `expired` starts true
and each configured threshold not yet reached resets it; finally every
predicate is applied in order (null ignored, false resets, true sets). -/
def AgeExpirer.isExpiredAll (ae : AgeExpirer α) (a : α) (now : Int) (stats : Stats) : Bool :=
  let cTime := stats.created
  let mTime := if stats.modified = 0 then cTime else stats.modified
  let aTime := if stats.accessed = 0 then mTime else stats.accessed
  let e0 := true
  let e1 := if ae.cTime ≠ 0 ∧ now - cTime < ae.cTime then false else e0
  let e2 := if ae.aTime ≠ 0 ∧ now - aTime < ae.aTime then false else e1
  let e3 := if ae.mTime ≠ 0 ∧ now - mTime < ae.mTime then false else e2
  ae.cb.foldl (fun acc cb => ExpireBool.apply acc (cb a now stats)) e3

/-! ### Specification-side reformulations of the two expirers

These restate the sentences of the specification about the built-in
expirers; the claim theorems below prove them equal to the source
functions. -/

/-- The modified timestamp with the zero substitution of the spec
("if `modified` is zero, treat it as `created`"). -/
def Stats.effModified (st : Stats) : Int :=
  if st.modified = 0 then st.created else st.modified

/-- The accessed timestamp with the zero substitution of the spec
("if `accessed` is zero, treat it as `modified`"). -/
def Stats.effAccessed (st : Stats) : Int :=
  if st.accessed = 0 then st.effModified else st.accessed

/-- Spec: "some configured (non-zero) threshold is exceeded by `now` minus
the corresponding stat timestamp". -/
def AgeExpirer.someThresholdExceeded (ae : AgeExpirer α) (now : Int) (st : Stats) : Prop :=
  (ae.cTime ≠ 0 ∧ now - st.created > ae.cTime) ∨
  (ae.aTime ≠ 0 ∧ now - st.effAccessed > ae.aTime) ∨
  (ae.mTime ≠ 0 ∧ now - st.effModified > ae.mTime)

instance (ae : AgeExpirer α) (now : Int) (st : Stats) :
    Decidable (ae.someThresholdExceeded now st) := by
  unfold AgeExpirer.someThresholdExceeded; infer_instance

/-- Spec: every configured (non-zero) threshold agrees the item is expired
(for the "all" variant the source keeps `expired = true` exactly when
`now - t < threshold` fails, i.e. `now - t ≥ threshold`). -/
def AgeExpirer.allThresholdsAgree (ae : AgeExpirer α) (now : Int) (st : Stats) : Prop :=
  (ae.cTime ≠ 0 → now - st.created ≥ ae.cTime) ∧
  (ae.aTime ≠ 0 → now - st.effAccessed ≥ ae.aTime) ∧
  (ae.mTime ≠ 0 → now - st.effModified ≥ ae.mTime)

instance (ae : AgeExpirer α) (now : Int) (st : Stats) :
    Decidable (ae.allThresholdsAgree now st) := by
  unfold AgeExpirer.allThresholdsAgree; infer_instance

/-- The ordered results of the predicate list on a given input. -/
def AgeExpirer.cbResults (ae : AgeExpirer α) (a : α) (now : Int) (st : Stats) :
    List ExpireBool :=
  ae.cb.map (fun cb => cb a now st)

/-- The first non-null predicate result, if any (spec, "any" variant:
"Predicates are evaluated first in order; the first non-null decides"). -/
def firstNonNull (rs : List ExpireBool) : Option ExpireBool :=
  rs.find? (· != expireNull)

/-- The last non-null predicate result, if any.  For the "all" variant,
applying the predicates in order (null ignored, false resets the decision
to false, true sets it to true) leaves exactly the last non-null result
standing. -/
def lastNonNull (rs : List ExpireBool) : Option ExpireBool :=
  firstNonNull rs.reverse

/-- The behaviour the specification ascribes to the "any" expirer. -/
def AgeExpirer.specAny (ae : AgeExpirer α) (a : α) (now : Int) (st : Stats) : Prop :=
  match firstNonNull (ae.cbResults a now st) with
  | some v => v = expireTrue
  | none => ae.someThresholdExceeded now st

/-- The behaviour the specification ascribes to the "all" expirer: the last
non-null predicate overrides; with no non-null predicate, all configured
time thresholds must agree. -/
def AgeExpirer.specAll (ae : AgeExpirer α) (a : α) (now : Int) (st : Stats) : Prop :=
  match lastNonNull (ae.cbResults a now st) with
  | some v => v = expireTrue
  | none => ae.allThresholdsAgree now st

theorem firstNonNull_cbResults (ae : AgeExpirer α) (a : α) (now : Int) (st : Stats) :
    firstNonNull (ae.cbResults a now st) =
      (ae.cb.find? (fun cb => cb a now st != expireNull)).map (fun cb => cb a now st) := by
  unfold firstNonNull AgeExpirer.cbResults
  rw [List.find?_map]
  rfl

theorem foldl_apply_eq_lastNonNull (rs : List ExpireBool) (acc : Bool) :
    rs.foldl ExpireBool.apply acc =
      match lastNonNull rs with
      | some v => v == expireTrue
      | none => acc := by
  induction rs generalizing acc with
  | nil => rfl
  | cons r rs ih =>
    simp only [List.foldl_cons, ih, lastNonNull, firstNonNull, List.reverse_cons,
      List.find?_append]
    cases h : rs.reverse.find? (· != expireNull) with
    | some v => simp [h]
    | none =>
      cases r <;> simp [h, ExpireBool.apply]

/-- **C5.** The "any" `AgeExpirer` evaluates its predicates in order and the
first non-null result decides; otherwise it expires the item iff some
configured (non-zero) threshold is exceeded by `now` minus the
corresponding stat timestamp, a zero modified timestamp being treated as
created and a zero accessed timestamp as modified. -/
theorem ageExpirer_any_correct (ae : AgeExpirer α) (a : α) (now : Int) (st : Stats) :
    ae.isExpired a now st = true ↔ ae.specAny a now st := by
  unfold AgeExpirer.specAny
  rw [firstNonNull_cbResults]
  simp only [AgeExpirer.isExpired]
  cases h : ae.cb.find? (fun cb => cb a now st != expireNull) with
  | some cb =>
    simp only [h, Option.map_some']
    cases hc : cb a now st <;> simp [hc]
  | none =>
    simp only [h, Option.map_none']
    simp only [AgeExpirer.someThresholdExceeded, Stats.effAccessed, Stats.effModified,
      gt_iff_lt]
    split_ifs <;> simp_all

/-- **C6.** The "all" `AgeExpirerRequireAll` expires an item iff the last
non-null predicate result is true, or, when every predicate returns null,
iff every configured (non-zero) threshold agrees the item is expired
(zero modified treated as created, zero accessed as modified); a false
predicate resets the decision to false and a true predicate sets it to
true even when a time check disagreed. -/
theorem ageExpirer_all_correct (ae : AgeExpirer α) (a : α) (now : Int) (st : Stats) :
    ae.isExpiredAll a now st = true ↔ ae.specAll a now st := by
  unfold AgeExpirer.specAll
  have hf : ∀ e : Bool, ae.cb.foldl (fun acc cb => ExpireBool.apply acc (cb a now st)) e =
      match lastNonNull (ae.cbResults a now st) with
      | some v => v == expireTrue
      | none => e := by
    intro e
    have hm := List.foldl_map (fun cb : ExpireFunc α => cb a now st) ExpireBool.apply ae.cb e
    calc ae.cb.foldl (fun acc cb => ExpireBool.apply acc (cb a now st)) e
        = (ae.cbResults a now st).foldl ExpireBool.apply e := hm.symm
      _ = _ := foldl_apply_eq_lastNonNull _ _
  simp only [AgeExpirer.isExpiredAll, hf]
  cases h : lastNonNull (ae.cbResults a now st) with
  | some v =>
    simp only [h]
    cases v <;> simp
  | none =>
    simp only [h]
    simp only [AgeExpirer.allThresholdsAgree, Stats.effAccessed, Stats.effModified]
    split_ifs <;> simp_all

/-! ## The store model

The embedding of `Store` from `store.go` (the current variant, with
`Storer`, `happening`, per-wrap `Stats` and `Index` descriptors). -/

/-- The reserved compound-key separator, byte `0x00` (`"\000"` in the Go
source). -/
def sep : String := String.mk [Char.ofNat 0]

/-- `strings.Join(parts, "\000")`. -/
def joinKeys (parts : List String) : String := String.intercalate sep parts

/-- The resolved host configuration of a store.  `comparator`,
`indexableLess`, `primaryKey` and `goRepr` are the four stages of
`Store.Less`; `getField` is the resolved `Store.GetField` chain (explicit
fielder, `Indexable` capability, or the reflective default — no claim
distinguishes the stages); `expirer` is the resolved `Store.IsExpired`
chain (`fun _ _ _ => false` is the "never expire" default). -/
structure StoreConfig (α : Type) where
  comparator : Option (α → α → Bool)
  indexableLess : Option (α → α → Bool)
  primaryKey : List String
  getField : α → String → String
  goRepr : α → String
  expirer : α → Int → Stats → Bool
  reversed : Bool

/-- `Store.getFieldsValue`: the compound value of `fields` on `item`. -/
def StoreConfig.getFieldsValue (c : StoreConfig α) (item : α) (fields : List String) : String :=
  joinKeys (fields.map (c.getField item))

/-- The comparator-resolution chain of `Store.Less` before the `reversed`
negation: explicit comparator, `Indexable.Less` capability, primary-key
string comparison, `Unsure` (comparison of the `%#v` representations). -/
def StoreConfig.baseLess (c : StoreConfig α) (a b : α) : Bool :=
  match c.comparator with
  | some f => f a b
  | none =>
    match c.indexableLess with
    | some f => f a b
    | none =>
      if c.primaryKey.length > 0 then
        decide (c.getFieldsValue a c.primaryKey < c.getFieldsValue b c.primaryKey)
      else
        decide (c.goRepr a < c.goRepr b)

/-- `Store.Less`: the resolved ordering; if `reversed` is set the final
boolean is negated. -/
def StoreConfig.less (c : StoreConfig α) (a b : α) : Bool :=
  if c.reversed then !(c.baseLess a b) else c.baseLess a b

/-- `wrap` from `wrap.go`: uid (pointer identity / persistence key), the
item reference, the per-index compound-key snapshot `values`, and stats. -/
structure Wrap (α : Type) where
  uid : Nat
  item : α
  values : List String
  stats : Stats
deriving DecidableEq

/-- `Event` from the happening/event source: the five event kinds. -/
inductive Event where
  | insert
  | update
  | remove
  | expiry
  | access
deriving DecidableEq, Repr

/-- A `happening` record sent on the `happens` channel. -/
structure Happening (α : Type) where
  event : Event
  old : Option α
  new : Option α
  stats : Stats
deriving DecidableEq

/-- `Index` descriptor: creation position `n`, canonical `id` (fields
joined by the separator), field list, and the `unique` mark. -/
structure IndexDescr where
  n : Nat
  id : String
  fields : List String
  unique : Bool
deriving DecidableEq, Repr

/-- The store state: configuration, the ordered tree (`backing`, kept in
ascending `Store.Less` order), the index descriptors (`indexes`, in
creation order — the source iterates this Go map in unspecified order, the
model uses `Index.n` order), the two-level index map (`index`), the
current-index marker used by `Unique`, the `used` flag, a counter backing
fresh wrap uids, whether a persister is attached, and the list of
happenings sent so far. -/
structure Store (α : Type) where
  cfg : StoreConfig α
  backing : List (Wrap α)
  indexes : List IndexDescr
  index : List (String × List (String × List (Wrap α)))
  cIndex : Option String
  used : Bool
  nextUid : Nat
  hasPersister : Bool
  happens : List (Happening α)

/-- Association-list lookup, modelling Go map indexing `m[k]`. -/
def alGet (k : String) : List (String × β) → Option β
  | [] => none
  | (k', v) :: rest => if k' = k then some v else alGet k rest

/-- Association-list update, modelling Go map assignment `m[k] = v`. -/
def alSet (k : String) (v : β) : List (String × β) → List (String × β)
  | [] => [(k, v)]
  | (k', v') :: rest => if k' = k then (k, v) :: rest else (k', v') :: alSet k v rest

/-- The bucket of an index under a compound key (a missing inner map,
missing key, or Go `nil` slice all read as the empty bucket). -/
def Store.bucketOf (s : Store α) (id key : String) : List (Wrap α) :=
  match alGet id s.index with
  | none => []
  | some inner => (alGet key inner).getD []

/-- Write one bucket of one index (creating the inner map if needed, as
`addToIndex` does). -/
def Store.setBucket (s : Store α) (id key : String) (b : List (Wrap α)) : Store α :=
  { s with index := alSet id (alSet key b ((alGet id s.index).getD [])) s.index }

/-! ### The ordered tree

`google/btree` holds the wraps sorted by `wrap.Less` (which delegates to
`Store.Less` on the items); the model is the in-order list of wraps.  Two
probes are equal iff neither is less than the other. -/

/-- `btree.Get`: find the element equal to the probe. -/
def treeGet (less : α → α → Bool) (probe : α) : List (Wrap α) → Option (Wrap α)
  | [] => none
  | w :: ws =>
    if less w.item probe then treeGet less probe ws
    else if less probe w.item then none
    else some w

/-- `btree.ReplaceOrInsert`: insert the wrap at its position, replacing
and returning an equal element if present. -/
def treeInsert (less : α → α → Bool) (w : Wrap α) :
    List (Wrap α) → List (Wrap α) × Option (Wrap α)
  | [] => ([w], none)
  | x :: xs =>
    if less x.item w.item then
      let r := treeInsert less w xs
      (x :: r.1, r.2)
    else if less w.item x.item then (w :: x :: xs, none)
    else (w :: xs, some x)

/-- `btree.Delete`: remove and return the element equal to the probe. -/
def treeDelete (less : α → α → Bool) (probe : α) :
    List (Wrap α) → List (Wrap α) × Option (Wrap α)
  | [] => ([], none)
  | x :: xs =>
    if less x.item probe then
      let r := treeDelete less probe xs
      (x :: r.1, r.2)
    else if less probe x.item then (x :: xs, none)
    else (xs, some x)

/-! ### Store operations -/

/-- Overwrite the stats of the wrap object `wuid` wherever it is
referenced (tree and index buckets) — the model of a mutation through the
shared `*wrap` pointer. -/
def Store.touchWrap (s : Store α) (wuid : Nat) (st : Stats) : Store α :=
  let f := fun (w : Wrap α) => if w.uid = wuid then { w with stats := st } else w
  { s with
    backing := s.backing.map f
    index := s.index.map (fun e => (e.1, e.2.map (fun kb => (kb.1, kb.2.map f)))) }

/-- Send a happening on the `happens` channel. -/
def Store.send (s : Store α) (h : Happening α) : Store α :=
  { s with happens := s.happens ++ [h] }

/-- `Store.wrapIt`: build a wrap for an item — fresh uid, the compound-key
snapshot for every index (slot `Index.n`), stats with `Created` and
`Modified` set to now. -/
def Store.wrapIt (s : Store α) (item : α) (now : Int) : Wrap α :=
  { uid := s.nextUid
    item := item
    values := s.indexes.map (fun d => s.cfg.getFieldsValue item d.fields)
    stats := { created := now, accessed := 0, modified := now, reads := 0, writes := 0,
               size := 0 } }

/-- `Store.rmFromIndex`: remove the wrap object `wuid` from one bucket.
The Go loop removes the first pointer-equal entry by moving the last entry
into its slot and truncating (`index[key] = nil` when it was the only
entry — the key stays in the map with an empty bucket). -/
def Store.rmFromIndex (s : Store α) (indexID key : String) (wuid : Nat) : Store α :=
  match alGet indexID s.index with
  | none => s
  | some inner =>
    match alGet key inner with
    | none => s
    | some ws =>
      match ws.findIdx? (fun w => w.uid == wuid), ws.getLast? with
      | some i, some z => s.setBucket indexID key ((ws.set i z).dropLast)
      | _, _ => s

/-- `Store.rm`: delete the element equal to `probe` from the tree and,
when found, from every index under its recorded key snapshot.  The
persister is absent, so the error result is always `nil` and is omitted. -/
def Store.rmWrap (s : Store α) (probe : α) : Store α × Option (Wrap α) :=
  let r := treeDelete s.cfg.less probe s.backing
  match r.2 with
  | none => ({ s with backing := r.1 }, none)
  | some w =>
    let s1 := { s with backing := r.1 }
    let s2 := s.indexes.foldl
      (fun acc d => acc.rmFromIndex d.id (w.values.getD d.n "") w.uid) s1
    (s2, some w)

/-- The eviction loop inside `Store.addToIndex`: each prior occupant of a
unique bucket is `rm`-ed from the whole store and, when actually removed,
an Update happening pairing it with the incoming item is sent; `emitted`
records whether any happening was sent. -/
def Store.evictLoop (w : Wrap α) : List (Wrap α) → Store α → Store α × Bool
  | [], s => (s, false)
  | bw :: rest, s =>
    let r := s.rmWrap bw.item
    match r.2 with
    | some x =>
      let s2 := r.1.send ⟨Event.update, some x.item, some w.item, w.stats⟩
      ((Store.evictLoop w rest s2).1, true)
    | none => Store.evictLoop w rest r.1

/-- `Store.addToIndex`: append the wrap to the bucket of its compound key;
on a unique index with a non-empty bucket, first evict every prior
occupant from the whole store. -/
def Store.addToIndex (s : Store α) (indexID key : String) (w : Wrap α) : Store α × Bool :=
  match s.indexes.find? (fun d => d.id == indexID) with
  | none => (s, false)
  | some d =>
    let ws := s.bucketOf indexID key
    if d.unique && !ws.isEmpty then
      let r := Store.evictLoop w ws s
      (r.1.setBucket indexID key [w], r.2)
    else
      (s.setBucket indexID key (ws ++ [w]), false)

/-- The per-index loop of `Store.addWrap`.  Note that the Go source
*assigns* `emitted = s.addToIndex(…)` on every iteration, so only the
last iteration's value survives; the model reproduces this. -/
def Store.addWrapLoop (w : Wrap α) (ow : Option (Wrap α)) :
    List IndexDescr → Store α → Bool → Store α × Bool
  | [], s, em => (s, em)
  | d :: rest, s, _em =>
    let s1 := match ow with
      | some o => s.rmFromIndex d.id (o.values.getD d.n "") o.uid
      | none => s
    let r := s1.addToIndex d.id (w.values.getD d.n "") w
    Store.addWrapLoop w ow rest r.1 r.2

/-- The result of `Store.addWrap`: the replaced wrap, the `none` sentinel
(an eviction happening was already sent), or Go `nil`. -/
inductive AddResult (α : Type) where
  | replaced (ow : Wrap α)
  | evicted
  | fresh

/-- `Store.addWrap`: mark the store used, insert-or-replace into the tree,
copy a replaced wrap's stats into the new wrap and mark it written (the
source mutates `w.stats` through the pointer after insertion; the model
rewrites the tree copy), then run the per-index loop.  Returns the final
state, the new wrap (with its final stats) and the tri-valued result. -/
def Store.addWrap (s : Store α) (w0 : Wrap α) (now : Int) :
    Store α × Wrap α × AddResult α :=
  let s0 := { s with used := true }
  let r := treeInsert s0.cfg.less w0 s0.backing
  let st1 := match r.2 with
    | some o => o.stats
    | none => w0.stats
  let w := { w0 with stats := st1.writtenAt now }
  let t2 := r.1.map (fun x => if x.uid = w0.uid then w else x)
  let lp := Store.addWrapLoop w r.2 s0.indexes { s0 with backing := t2 } false
  match r.2 with
  | some o => (lp.1, w, .replaced o)
  | none => if lp.2 then (lp.1, w, .evicted) else (lp.1, w, .fresh)

/-- `Store.Put`: add the item; emit Insert when nothing was replaced,
Update (old and new) when an equal item was replaced, and nothing when the
eviction step already emitted.  Returns the replaced item, if any, and the
error (always `nil`: the persister is absent). -/
def Store.put (s : Store α) (item : α) (now : Int) : Store α × Option α × Option String :=
  let w0 := s.wrapIt item now
  let s0 := { s with nextUid := s.nextUid + 1 }
  let r := s0.addWrap w0 now
  match r.2.2 with
  | .replaced o =>
    ((r.1.send ⟨Event.update, some o.item, some item, r.2.1.stats⟩), some o.item, none)
  | .evicted => (r.1, none, none)
  | .fresh =>
    ((r.1.send ⟨Event.insert, none, some item, r.2.1.stats⟩), none, none)

/-- `Store.Delete`: remove the element equal to the probe; emit Remove
when something was removed.  The error is always `nil`. -/
def Store.delete (s : Store α) (probe : α) : Store α × Option α × Option String :=
  let r := s.rmWrap probe
  match r.2 with
  | some w => ((r.1.send ⟨Event.remove, some w.item, none, w.stats⟩), some w.item, none)
  | none => (r.1, none, none)

/-- `Store.Expire`: collect the expired wraps by an ascend over the tree,
then remove each and emit Expiry; returns the number collected. -/
def Store.expire (s : Store α) (now : Int) : Store α × Nat :=
  let rmList := s.backing.filter (fun w => s.cfg.expirer w.item now w.stats)
  let s2 := rmList.foldl (fun acc w =>
    let r := acc.rmWrap w.item
    match r.2 with
    | some o => r.1.send ⟨Event.expiry, some o.item, none, o.stats⟩
    | none => r.1) s
  (s2, rmList.length)

/-- `Store.Get`: look the probe up in the tree; on a hit, mark the wrap
read, send an Access happening, and return the stored item reference. -/
def Store.get (s : Store α) (probe : α) (now : Int) : Store α × Option α :=
  match treeGet s.cfg.less probe s.backing with
  | none => (s, none)
  | some w =>
    let st := w.stats.readAt now
    ((s.touchWrap w.uid st).send ⟨Event.access, some w.item, some w.item, st⟩, some w.item)

/-- `Store.In`: find the index descriptor for a field list.  (The Go
method returns a typed-nil `*Index` inside a non-nil interface when the
index is missing; `none` models that nil receiver.) -/
def Store.inIdx (s : Store α) (fields : List String) : Option IndexDescr :=
  s.indexes.find? (fun d => d.id == joinKeys fields)

/-- `Index.Lookup` (via `Index.find`): `nil` when the index does not
exist, the key arity mismatches, the inner map or key is absent, or the
bucket is the Go nil slice; otherwise mark every bucket member read and
return the copied item list.  No happening is sent. -/
def Store.lookup (s : Store α) (fields keys : List String) (now : Int) :
    Store α × Option (List α) :=
  match s.inIdx fields with
  | none => (s, none)
  | some d =>
    if keys.length ≠ d.fields.length then (s, none)
    else
      match alGet d.id s.index with
      | none => (s, none)
      | some inner =>
        match alGet (joinKeys keys) inner with
        | none => (s, none)
        | some ws =>
          if ws.isEmpty then (s, none)
          else
            (ws.foldl (fun acc x => acc.touchWrap x.uid (x.stats.readAt now)) s,
             some (ws.map (·.item)))

/-- `Index.One`: the first bucket member, marked read; no happening. -/
def Store.one (s : Store α) (fields keys : List String) (now : Int) :
    Store α × Option α :=
  match s.inIdx fields with
  | none => (s, none)
  | some d =>
    if keys.length ≠ d.fields.length then (s, none)
    else
      match (alGet d.id s.index).bind (alGet (joinKeys keys)) with
      | none => (s, none)
      | some ws =>
        match ws with
        | [] => (s, none)
        | x :: _ => (s.touchWrap x.uid (x.stats.readAt now), some x.item)

/-- `Store.Keys`: the distinct keys of an index.  `In` returns a typed-nil
`*Index` inside a non-nil interface when the index is missing, so the
`f == nil` guard in the source never fires and `f._id()` falls back to
`""`; the result is the key list of the inner map, `nil` when there is
none. -/
def Store.keys (s : Store α) (fields : List String) : Option (List String) :=
  let fid := match s.inIdx fields with
    | some d => d.id
    | none => ""
  match alGet fid s.index with
  | none => none
  | some inner => some (inner.map (·.1))

/-- `Store.Len`. -/
def Store.lenStore (s : Store α) : Nat := s.backing.length

/-! ### Configuration operations

Each pre-use configuration method panics when the store is in use; the
panic is modelled as `Except.error` carrying the panic message, and the
store state is only present in the `ok` branch (a Go panic aborts the
caller before any mutation). -/

/-- A fresh store (`NewStore` / `Init`). -/
def newStore (cfg : StoreConfig α) : Store α :=
  { cfg := cfg, backing := [], indexes := [], index := [], cIndex := none,
    used := false, nextUid := 0, hasPersister := false, happens := [] }

/-- `Store.CreateIndex`: panics on an in-use store; otherwise records the
descriptor (position `n` is the map size before insertion) and makes it
current. -/
def Store.createIndex (s : Store α) (fields : List String) : Except String (Store α) :=
  if s.used then .error "Cannot create index on in-use store"
  else
    let id := joinKeys fields
    let d : IndexDescr := { n := s.indexes.length, id := id, fields := fields,
                            unique := false }
    let ixs := if (s.indexes.find? (·.id == id)).isSome
      then s.indexes.map (fun e => if e.id == id then d else e)
      else s.indexes ++ [d]
    .ok { s with indexes := ixs, cIndex := some id }

/-- `Store.Unique`: panics on an in-use store; otherwise marks the current
index unique (no-op when there is none). -/
def Store.uniqueIdx (s : Store α) : Except String (Store α) :=
  if s.used then .error "Cannot create index on in-use store"
  else
    match s.cIndex with
    | none => .ok s
    | some cid =>
      let ixs := s.indexes.map (fun d => if d.id == cid then { d with unique := true } else d)
      .ok { s with indexes := ixs }

/-- `Store.PrimaryKey`: panics on an in-use store; otherwise records the
primary key, creates its index and marks it unique. -/
def Store.primaryKeyOp (s : Store α) (fields : List String) : Except String (Store α) :=
  if s.used then .error "Cannot change primary key on in-use store"
  else
    let s1 := { s with cfg := { s.cfg with primaryKey := fields } }
    match s1.createIndex fields with
    | .error e => .error e
    | .ok s2 =>
      let ixs := s2.indexes.map
        (fun d => if d.id == joinKeys fields then { d with unique := true } else d)
      .ok { s2 with indexes := ixs }

/-- `Store.Reversed`: panics on an in-use store; otherwise sets the
`reversed` flag (default `true` when no argument is supplied). -/
def Store.reversedOp (s : Store α) (order : Option Bool) : Except String (Store α) :=
  if s.used then .error "Cannot change store order on in-use store"
  else .ok { s with cfg := { s.cfg with reversed := order.getD true } }

/-- `Store.Persistent`: panics on an in-use store; otherwise marks the
store used, attaches the persister and bulk-loads the persisted records
through `wrapIt`/`addWrap` (no Insert happenings are sent; eviction
happenings can be). -/
def Store.persistent (s : Store α) (records : List α) (now : Int) :
    Except String (Store α) :=
  if s.used then .error "Cannot make persist on in-use store"
  else
    let s0 := { s with used := true, hasPersister := true }
    .ok (records.foldl (fun acc item =>
      let w0 := acc.wrapIt item now
      (({ acc with nextUid := acc.nextUid + 1 }).addWrap w0 now).1) s0)

/-! ### Operation sequences -/

/-- A data operation: the mutations quantified over by the reachability
claims. -/
inductive Op (α : Type) where
  | put (x : α) (now : Int)
  | del (x : α)
  | expire (now : Int)

/-- One data operation applied to the store. -/
def Store.step (s : Store α) (op : Op α) : Store α :=
  match op with
  | .put x now => (s.put x now).1
  | .del x => (s.delete x).1
  | .expire now => (s.expire now).1

/-- A sequence of data operations. -/
def Store.run (s : Store α) (ops : List (Op α)) : Store α :=
  ops.foldl Store.step s

/-- Index setup: a `CreateIndex` (plus optional `Unique`) for each entry,
on a fresh store (where these configuration calls cannot panic). -/
def Store.setupIndexes (s : Store α) (setup : List (List String × Bool)) : Store α :=
  setup.foldl (fun acc p =>
    match acc.createIndex p.1 with
    | .ok s1 =>
      if p.2 then
        match s1.uniqueIdx with
        | .ok s2 => s2
        | .error _ => s1
      else s1
    | .error _ => acc) s

/-! ### Concrete fixtures

A small concrete configuration over `Nat` items used by counterexamples
and witnesses: an explicit comparator (numeric order), and a fielder whose
field `"u"` is the constant `"a"` (so distinct items collide there) and
whose other fields distinguish the items. -/

/-- Numeric comparator for concrete stores. -/
def natLess (a b : Nat) : Bool := decide (a < b)

/-- Concrete configuration over `Nat` items. -/
def natCfg : StoreConfig Nat :=
  { comparator := some natLess
    indexableLess := none
    primaryKey := []
    getField := fun n f => if f = "u" then "a" else if n % 2 = 1 then "g" else "h"
    goRepr := fun _ => ""
    expirer := fun _ _ _ => false
    reversed := false }

/-! ## Association-list lemmas -/

theorem alGet_alSet_self (k : String) (v : β) (l : List (String × β)) :
    alGet k (alSet k v l) = some v := by
  induction l with
  | nil => simp [alGet, alSet]
  | cons e rest ih =>
    by_cases h : e.1 = k <;> simp [alGet, alSet, h, ih]

theorem alGet_alSet_ne (k k' : String) (v : β) (l : List (String × β)) (h : k' ≠ k) :
    alGet k' (alSet k v l) = alGet k' l := by
  induction l with
  | nil => simp [alGet, alSet, Ne.symm h]
  | cons e rest ih =>
    by_cases he : e.1 = k
    · simp [alGet, alSet, he, Ne.symm h]
    · by_cases he' : e.1 = k' <;> simp [alGet, alSet, he, he', h, ih]

theorem alSet_keys_of_get_some (k : String) (v v0 : β) (l : List (String × β))
    (h : alGet k l = some v0) :
    (alSet k v l).map Prod.fst = l.map Prod.fst := by
  induction l with
  | nil => simp [alGet] at h
  | cons e rest ih =>
    by_cases he : e.1 = k
    · simp [alSet, he]
    · simp [alGet, he] at h
      simp [alSet, he, ih h]

/-! ## C10: `Keys` and deletion

`rmFromIndex` empties buckets but never removes a key from the inner map
(`index[key] = nil` keeps the key), so `Keys` is invariant under `Delete`. -/

/-- The key list of one index's inner map, as `Keys` reads it. -/
def Store.innerKeys (s : Store α) (fid : String) : Option (List String) :=
  (alGet fid s.index).map (fun inner => inner.map Prod.fst)

theorem keys_eq_innerKeys (s : Store α) (fields : List String) :
    s.keys fields = s.innerKeys (match s.inIdx fields with
      | some d => d.id
      | none => "") := by
  unfold Store.keys Store.innerKeys
  cases s.inIdx fields <;> simp <;> cases alGet _ s.index <;> simp

theorem rmFromIndex_innerKeys (s : Store α) (iid key : String) (wuid : Nat) (fid : String) :
    (s.rmFromIndex iid key wuid).innerKeys fid = s.innerKeys fid := by
  unfold Store.rmFromIndex
  cases hI : alGet iid s.index with
  | none => rfl
  | some inner =>
    simp only
    cases hK : alGet key inner with
    | none => rfl
    | some ws =>
      simp only
      cases hF : ws.findIdx? (fun w => w.uid == wuid) with
      | none => rfl
      | some i =>
        cases hL : ws.getLast? with
        | none => rfl
        | some z =>
          simp only
          unfold Store.innerKeys Store.setBucket
          by_cases hfid : fid = iid
          · subst hfid
            simp only [hI, alGet_alSet_self, Option.map_some', Option.getD]
            simp [alSet_keys_of_get_some _ _ _ _ hK]
          · simp [alGet_alSet_ne _ _ _ _ hfid]

theorem rmFromIndex_indexes (s : Store α) (iid key : String) (wuid : Nat) :
    (s.rmFromIndex iid key wuid).indexes = s.indexes := by
  unfold Store.rmFromIndex
  cases alGet iid s.index with
  | none => rfl
  | some inner =>
    simp only
    cases alGet key inner with
    | none => rfl
    | some ws =>
      simp only
      cases ws.findIdx? (fun w => w.uid == wuid) <;> cases ws.getLast? <;> rfl

theorem foldl_rmFromIndex_innerKeys (ds : List IndexDescr) (w : Wrap α) (s0 : Store α)
    (fid : String) :
    (ds.foldl (fun acc d => acc.rmFromIndex d.id (w.values.getD d.n "") w.uid) s0).innerKeys
        fid = s0.innerKeys fid := by
  induction ds generalizing s0 with
  | nil => rfl
  | cons d rest ih => rw [List.foldl_cons, ih, rmFromIndex_innerKeys]

theorem foldl_rmFromIndex_indexes (ds : List IndexDescr) (w : Wrap α) (s0 : Store α) :
    (ds.foldl (fun acc d => acc.rmFromIndex d.id (w.values.getD d.n "") w.uid) s0).indexes =
      s0.indexes := by
  induction ds generalizing s0 with
  | nil => rfl
  | cons d rest ih => rw [List.foldl_cons, ih, rmFromIndex_indexes]

theorem rmWrap_innerKeys (s : Store α) (probe : α) (fid : String) :
    ((s.rmWrap probe).1).innerKeys fid = s.innerKeys fid := by
  simp only [Store.rmWrap]
  split
  · rfl
  · simp only [foldl_rmFromIndex_innerKeys]
    rfl

theorem rmWrap_indexes (s : Store α) (probe : α) :
    ((s.rmWrap probe).1).indexes = s.indexes := by
  simp only [Store.rmWrap]
  split
  · rfl
  · simp only [foldl_rmFromIndex_indexes]

/-- **C10 (counterexample).** The claim says a compound key no longer
appears in `Keys` once the last item carrying it is deleted.  In the store
below the single item (key `"a"` in index `"u"`) has been deleted — the
tree is empty and the lookup finds nothing — yet `Keys` still returns
`"a"`: `rmFromIndex` sets the bucket to `nil` without deleting the map
key. -/
theorem keys_after_delete_stale :
    (let s := ((((newStore natCfg).setupIndexes [(["u"], false)]).put 5 10).1.delete 5).1
     s.keys ["u"] = some ["a"] ∧ s.backing = [] ∧ (s.lookup ["u"] ["a"] 20).2 = none) := by
  decide

/-- **C10 (amended).** `Keys` of an existing index returns the distinct
compound keys present in the index's internal map, and `Delete` never
removes a key from that map (it only empties the bucket), so `Keys` is
unchanged by any deletion — in particular the key of a deleted last item
still appears. -/
theorem keys_delete_invariant (s : Store α) (probe : α) (fields : List String) :
    ((s.delete probe).1).keys fields = s.keys fields := by
  have hidx : ((s.delete probe).1).indexes = s.indexes := by
    simp only [Store.delete]
    split
    · simpa [Store.send] using rmWrap_indexes s probe
    · exact rmWrap_indexes s probe
  have hik : ∀ fid, ((s.delete probe).1).innerKeys fid = s.innerKeys fid := by
    intro fid
    simp only [Store.delete]
    split
    · simpa [Store.send, Store.innerKeys] using rmWrap_innerKeys s probe fid
    · exact rmWrap_innerKeys s probe fid
  rw [keys_eq_innerKeys, keys_eq_innerKeys]
  rw [hik]
  have : ((s.delete probe).1).inIdx fields = s.inIdx fields := by
    unfold Store.inIdx
    rw [hidx]
  rw [this]

/-- **C9.** Every configuration operation invoked once `used` is true
terminates with the unrecoverable panic error; the panic precedes any
mutation, so no state is produced (no index descriptor added, no flag
changed, no persistence attached). -/
theorem config_after_use_rejected (s : Store α) (h : s.used = true)
    (fields : List String) (order : Option Bool) (records : List α) (now : Int) :
    s.createIndex fields = .error "Cannot create index on in-use store" ∧
    s.uniqueIdx = .error "Cannot create index on in-use store" ∧
    s.primaryKeyOp fields = .error "Cannot change primary key on in-use store" ∧
    s.reversedOp order = .error "Cannot change store order on in-use store" ∧
    s.persistent records now = .error "Cannot make persist on in-use store" := by
  refine ⟨?_, ?_, ?_, ?_, ?_⟩ <;>
    simp [Store.createIndex, Store.uniqueIdx, Store.primaryKeyOp, Store.reversedOp,
      Store.persistent, h]

/-- Witness for C9: a store becomes used by its first `Put`, after which
`CreateIndex` (and the other configuration operations) are rejected. -/
theorem config_after_use_rejected_witness :
    (((newStore natCfg).put 1 5).1).used = true ∧
    (((newStore natCfg).put 1 5).1).createIndex ["u"] =
      .error "Cannot create index on in-use store" := by
  refine ⟨by decide, ?_⟩
  exact (config_after_use_rejected (((newStore natCfg).put 1 5).1) (by decide)
    ["u"] none [] 0).1

/-! ## C8: the `Lookup` contract -/

/-- The structural shape of the index maps: index ids, keys, and the wrap
objects (by uid) of each bucket — everything except the mutable stats. -/
def Store.indexShape (s : Store α) : List (String × List (String × List Nat)) :=
  s.index.map (fun e => (e.1, e.2.map (fun kb => (kb.1, kb.2.map (·.uid)))))

/-- The tree contents by uid. -/
def Store.backingShape (s : Store α) : List Nat :=
  s.backing.map (·.uid)

theorem touch_uid (w : Wrap α) (u : Nat) (st : Stats) :
    (if w.uid = u then { w with stats := st } else w).uid = w.uid := by
  split <;> rfl

theorem touchWrap_indexShape (s : Store α) (u : Nat) (st : Stats) :
    (s.touchWrap u st).indexShape = s.indexShape := by
  simp [Store.touchWrap, Store.indexShape, List.map_map, Function.comp_def, touch_uid]

theorem touchWrap_backingShape (s : Store α) (u : Nat) (st : Stats) :
    (s.touchWrap u st).backingShape = s.backingShape := by
  simp [Store.touchWrap, Store.backingShape, List.map_map, Function.comp_def, touch_uid]

theorem touchWrap_indexes (s : Store α) (u : Nat) (st : Stats) :
    (s.touchWrap u st).indexes = s.indexes := rfl

theorem foldl_touchWrap_indexShape (ws : List (Wrap α)) (s : Store α) (now : Int) :
    (ws.foldl (fun acc x => acc.touchWrap x.uid (x.stats.readAt now)) s).indexShape =
      s.indexShape := by
  induction ws generalizing s with
  | nil => rfl
  | cons x rest ih => rw [List.foldl_cons, ih, touchWrap_indexShape]

theorem foldl_touchWrap_backingShape (ws : List (Wrap α)) (s : Store α) (now : Int) :
    (ws.foldl (fun acc x => acc.touchWrap x.uid (x.stats.readAt now)) s).backingShape =
      s.backingShape := by
  induction ws generalizing s with
  | nil => rfl
  | cons x rest ih => rw [List.foldl_cons, ih, touchWrap_backingShape]

theorem foldl_touchWrap_indexes (ws : List (Wrap α)) (s : Store α) (now : Int) :
    (ws.foldl (fun acc x => acc.touchWrap x.uid (x.stats.readAt now)) s).indexes =
      s.indexes := by
  induction ws generalizing s with
  | nil => rfl
  | cons x rest ih => rw [List.foldl_cons, ih, touchWrap_indexes]

/-- **C8.** `in(fields…).lookup(keys…)` returns `nil` iff the index does
not exist, the key arity is wrong, or the bucket of the joined compound
key holds no wraps (absent inner map, absent key, or the `nil` slice an
emptied bucket leaves behind); otherwise it returns the copied item list
of the bucket; and in every case it neither fails (the model is a total
function) nor mutates the index structure or tree (only per-wrap stats
change). -/
theorem index_lookup_contract (s : Store α) (fields keys : List String) (now : Int) :
    ((s.lookup fields keys now).2 = none ↔
      s.inIdx fields = none ∨
      (∃ d, s.inIdx fields = some d ∧
        (keys.length ≠ d.fields.length ∨ s.bucketOf d.id (joinKeys keys) = []))) ∧
    (∀ items, (s.lookup fields keys now).2 = some items →
      ∃ d, s.inIdx fields = some d ∧ keys.length = d.fields.length ∧
        items = (s.bucketOf d.id (joinKeys keys)).map (·.item)) ∧
    ((s.lookup fields keys now).1.indexes = s.indexes ∧
      (s.lookup fields keys now).1.indexShape = s.indexShape ∧
      (s.lookup fields keys now).1.backingShape = s.backingShape) := by
  unfold Store.lookup
  cases hIn : s.inIdx fields with
  | none => simp
  | some d =>
    simp only
    by_cases harr : keys.length ≠ d.fields.length
    · simp only [if_pos harr]
      refine ⟨?_, by simp, by simp⟩
      simp only [true_iff]
      exact Or.inr ⟨d, rfl, Or.inl harr⟩
    · simp only [if_neg harr]
      push_neg at harr
      cases hI : alGet d.id s.index with
      | none =>
        refine ⟨?_, by simp, by simp⟩
        simp only [true_iff]
        refine Or.inr ⟨d, rfl, Or.inr ?_⟩
        simp [Store.bucketOf, hI]
      | some inner =>
        simp only
        cases hK : alGet (joinKeys keys) inner with
        | none =>
          refine ⟨?_, by simp, by simp⟩
          simp only [true_iff]
          refine Or.inr ⟨d, rfl, Or.inr ?_⟩
          simp [Store.bucketOf, hI, hK]
        | some ws =>
          simp only
          by_cases hws : ws.isEmpty
          · simp only [if_pos hws]
            refine ⟨?_, by simp, by simp⟩
            simp only [true_iff]
            refine Or.inr ⟨d, rfl, Or.inr ?_⟩
            simp only [Store.bucketOf, hI, hK, Option.getD]
            exact List.isEmpty_iff.mp hws
          · simp only [if_neg hws]
            refine ⟨?_, ?_, ?_⟩
            · refine iff_of_false (by simp) ?_
              rintro (h | ⟨d', hd', h1 | h2⟩)
              · exact Option.noConfusion h
              · injection hd' with hdd
                subst hdd
                exact h1 harr
              · injection hd' with hdd
                subst hdd
                rw [show s.bucketOf d.id (joinKeys keys) = ws by
                  simp [Store.bucketOf, hI, hK]] at h2
                simp [h2] at hws
            · intro items hit
              simp only [Option.some.injEq] at hit
              refine ⟨d, rfl, harr, ?_⟩
              simp [Store.bucketOf, hI, hK, ← hit]
            · exact ⟨foldl_touchWrap_indexes _ _ _, foldl_touchWrap_indexShape _ _ _,
                foldl_touchWrap_backingShape _ _ _⟩

/-! ## Strict weak orders and the sorted tree

The host contract (§6 of the spec) requires `less` to be a strict weak
ordering; the tree lemmas below hold under that hypothesis. -/

section SWO

variable {α : Type} {less : α → α → Bool} {a b c : α} {l : List (Wrap α)} {x y : Wrap α}

/-- A boolean strict weak order: irreflexive, transitive, and with
transitive complement (equivalently, transitive incomparability). -/
structure IsSWO (less : α → α → Bool) : Prop where
  irrefl : ∀ a, less a a = false
  lt_trans : ∀ a b c, less a b = true → less b c = true → less a c = true
  neg_trans : ∀ a b c, less a b = false → less b c = false → less a c = false

/-- Equivalence of two items: neither is less than the other (the btree
notion of equality). -/
def beqv (less : α → α → Bool) (a b : α) : Prop :=
  less a b = false ∧ less b a = false

theorem beqv_refl (hswo : IsSWO less) (a : α) : beqv less a a :=
  ⟨hswo.irrefl a, hswo.irrefl a⟩

theorem beqv_symm (h : beqv less a b) : beqv less b a := ⟨h.2, h.1⟩

theorem beqv_trans (hswo : IsSWO less) (h1 : beqv less a b) (h2 : beqv less b c) :
    beqv less a c :=
  ⟨hswo.neg_trans a b c h1.1 h2.1, hswo.neg_trans c b a h2.2 h1.2⟩

/-- `a < b` and `b ≈ c` give `a < c`. -/
theorem lt_of_lt_beqv (hswo : IsSWO less) (h1 : less a b = true) (h2 : beqv less b c) :
    less a c = true := by
  by_contra hac
  have hac' : less a c = false := by
    cases h : less a c
    · rfl
    · exact absurd h hac
  have := hswo.neg_trans a c b hac' h2.2
  rw [h1] at this
  exact Bool.noConfusion this

/-- `a ≈ b` and `b < c` give `a < c`. -/
theorem lt_of_beqv_lt (hswo : IsSWO less) (h1 : beqv less a b) (h2 : less b c = true) :
    less a c = true := by
  by_contra hac
  have hac' : less a c = false := by
    cases h : less a c
    · rfl
    · exact absurd h hac
  have := hswo.neg_trans b a c h1.2 hac'
  rw [h2] at this
  exact Bool.noConfusion this

/-- `a < b` excludes `a ≈ b`. -/
theorem not_beqv_of_lt (h : less a b = true) : ¬ beqv less a b := by
  intro hc
  rw [hc.1] at h
  exact Bool.noConfusion h

/-- The sortedness invariant of the backing tree. -/
def TreeSorted (less : α → α → Bool) (l : List (Wrap α)) : Prop :=
  l.Pairwise (fun u v => less u.item v.item = true)

theorem treeSorted_nil : TreeSorted less ([] : List (Wrap α)) := List.Pairwise.nil

/-- A sorted tree holds at most one element of each equivalence class. -/
theorem treeSorted_unique (hs : TreeSorted less l) (hx : x ∈ l) (hy : y ∈ l)
    (he : beqv less x.item y.item) : x = y := by
  by_contra hne
  have hS : l.Pairwise
      (fun u v : Wrap α => less u.item v.item = true ∨ less v.item u.item = true) :=
    hs.imp (fun h => Or.inl h)
  have hsym : Symmetric
      (fun u v : Wrap α => less u.item v.item = true ∨ less v.item u.item = true) :=
    fun _ _ h => h.symm
  rcases List.Pairwise.forall hsym hS hx hy hne with h | h
  · rw [he.1] at h
    exact Bool.noConfusion h
  · rw [he.2] at h
    exact Bool.noConfusion h

/-- **C3 (failing input).** With a unique index `"u"` created before a
non-unique index `"g"`, putting an item that collides in `"u"` with a
stored, comparator-different item emits the eviction Update *and then an
extra Insert*: `addWrap` overwrites `emitted` with the result of the last
index processed (`emitted = s.addToIndex(…)` in a loop), so the eviction
on the earlier index is forgotten and `Put` emits Insert as if no event
had been sent.  The claim (and the spec's step 6) say no additional
Insert/Update may follow the eviction Update. -/
theorem put_unique_conflict_double_event :
    (((((newStore natCfg).setupIndexes [(["u"], true), (["g"], false)]).put 1 100).1.put
          2 200).1).happens.map (fun h => (h.event, h.old, h.new)) =
      [(Event.insert, none, some 1), (Event.update, some 1, some 2),
       (Event.insert, none, some 2)] := by
  decide

/-- **C7 (failing input).** `Index.Lookup` surfaces the bucket's item and
updates its stats (`accessed`/`reads`), but sends no Access happening —
while `Store.Get` on the same store does.  So index reads surface items
without emitting the per-item Access event the claim requires. -/
theorem lookup_surfaces_without_access_event :
    (let s1 := (((newStore natCfg).setupIndexes [(["u"], false)]).put 5 10).1
     let r := s1.lookup ["u"] ["a"] 30
     r.2 = some [5] ∧ r.1.happens = s1.happens ∧
       (r.1.bucketOf "u" "a").map (fun w => (w.stats.accessed, w.stats.reads)) = [(30, 1)] ∧
       ((s1.get 5 30).1).happens.map (·.event) = s1.happens.map (·.event) ++ [Event.access]) := by
  decide

theorem bool_eq_false {b : Bool} (h : ¬ b = true) : b = false := by
  cases b <;> simp_all

/-- `treeGet` returns only an equal member. -/
theorem treeGet_some (h : treeGet less probe l = some x) :
    x ∈ l ∧ beqv less x.item probe := by
  induction l with
  | nil => simp [treeGet] at h
  | cons y ys ih =>
    unfold treeGet at h
    by_cases h1 : less y.item probe = true
    · rw [if_pos h1] at h
      have := ih h
      exact ⟨List.mem_cons_of_mem _ this.1, this.2⟩
    · rw [if_neg h1] at h
      by_cases h2 : less probe y.item = true
      · rw [if_pos h2] at h
        exact absurd h (by simp)
      · rw [if_neg h2] at h
        injection h with hw
        subst hw
        exact ⟨List.mem_cons_self _ _, bool_eq_false h1, bool_eq_false h2⟩

/-- On a sorted tree, `treeGet` finds the member equal to the probe. -/
theorem treeGet_complete (hswo : IsSWO less) (hs : TreeSorted less l)
    (hw : x ∈ l) (he : beqv less x.item probe) : treeGet less probe l = some x := by
  induction l with
  | nil => cases hw
  | cons y ys ih =>
    rw [TreeSorted, List.pairwise_cons] at hs
    unfold treeGet
    rcases List.mem_cons.mp hw with rfl | hw'
    · rw [if_neg (by rw [he.1]; simp), if_neg (by rw [he.2]; simp)]
    · have hy : less y.item probe = true :=
        lt_of_lt_beqv hswo (hs.1 x hw') he
      rw [if_pos hy]
      exact ih hs.2 hw'

/-- Decomposition of a non-replacing `treeInsert`. -/
theorem treeInsert_none (h : treeInsert less w l = (t, none)) :
    ∃ A B, l = A ++ B ∧ t = A ++ w :: B ∧ (∀ a ∈ A, less a.item w.item = true) ∧
      (∀ b, B.head? = some b → less w.item b.item = true) := by
  induction l generalizing t with
  | nil =>
    simp [treeInsert] at h
    exact ⟨[], [], by simp, by simp [← h], by simp, by simp⟩
  | cons y ys ih =>
    unfold treeInsert at h
    by_cases h1 : less y.item w.item = true
    · rw [if_pos h1] at h
      simp only [Prod.mk.injEq] at h
      obtain ⟨ht, hr⟩ := h
      obtain ⟨A, B, hl, ht', hA, hB⟩ := ih (t := (treeInsert less w ys).1)
        (by rw [← hr])
      refine ⟨y :: A, B, by simp [hl], ?_, ?_, hB⟩
      · rw [← ht, ht']
        simp
      · intro a ha
        rcases List.mem_cons.mp ha with rfl | ha'
        · exact h1
        · exact hA a ha'
    · rw [if_neg h1] at h
      by_cases h2 : less w.item y.item = true
      · rw [if_pos h2] at h
        simp only [Prod.mk.injEq] at h
        refine ⟨[], y :: ys, by simp, by simp [← h.1], by simp, ?_⟩
        intro b hb
        simp at hb
        subst hb
        exact h2
      · rw [if_neg h2] at h
        simp at h

/-- Decomposition of a replacing `treeInsert`. -/
theorem treeInsert_some (h : treeInsert less w l = (t, some o)) :
    ∃ A B, l = A ++ o :: B ∧ t = A ++ w :: B ∧ (∀ a ∈ A, less a.item w.item = true) ∧
      beqv less o.item w.item := by
  induction l generalizing t with
  | nil => simp [treeInsert] at h
  | cons y ys ih =>
    unfold treeInsert at h
    by_cases h1 : less y.item w.item = true
    · rw [if_pos h1] at h
      simp only [Prod.mk.injEq] at h
      obtain ⟨ht, hr⟩ := h
      obtain ⟨A, B, hl, ht', hA, hB⟩ := ih (t := (treeInsert less w ys).1)
        (by rw [← hr])
      refine ⟨y :: A, B, by simp [hl], ?_, ?_, hB⟩
      · rw [← ht, ht']
        simp
      · intro a ha
        rcases List.mem_cons.mp ha with rfl | ha'
        · exact h1
        · exact hA a ha'
    · rw [if_neg h1] at h
      by_cases h2 : less w.item y.item = true
      · rw [if_pos h2] at h
        simp at h
      · rw [if_neg h2] at h
        simp only [Prod.mk.injEq] at h
        obtain ⟨ht, ho⟩ := h
        injection ho with ho'
        subst ho'
        exact ⟨[], ys, by simp, by simp [← ht],
          by simp, bool_eq_false h1, bool_eq_false h2⟩

/-- A non-deleting `treeDelete` leaves the list unchanged. -/
theorem treeDelete_none (h : treeDelete less probe l = (t, none)) : t = l := by
  induction l generalizing t with
  | nil =>
    simp [treeDelete] at h
    subst h
    rfl
  | cons y ys ih =>
    unfold treeDelete at h
    by_cases h1 : less y.item probe = true
    · rw [if_pos h1] at h
      simp only [Prod.mk.injEq] at h
      obtain ⟨ht, hr⟩ := h
      have := ih (t := (treeDelete less probe ys).1) (by rw [← hr])
      rw [← ht, this]
    · rw [if_neg h1] at h
      by_cases h2 : less probe y.item = true
      · rw [if_pos h2] at h
        simp only [Prod.mk.injEq] at h
        exact h.1.symm
      · rw [if_neg h2] at h
        simp at h

/-- On a sorted tree, a non-deleting `treeDelete` means no member is equal
to the probe. -/
theorem treeDelete_none_not_mem (hswo : IsSWO less) (hs : TreeSorted less l)
    (h : treeDelete less probe l = (t, none)) :
    ∀ y ∈ l, ¬ beqv less y.item probe := by
  induction l generalizing t with
  | nil => simp
  | cons y ys ih =>
    rw [TreeSorted, List.pairwise_cons] at hs
    unfold treeDelete at h
    by_cases h1 : less y.item probe = true
    · rw [if_pos h1] at h
      simp only [Prod.mk.injEq] at h
      intro z hz
      rcases List.mem_cons.mp hz with rfl | hz'
      · exact fun hc => not_beqv_of_lt h1 hc
      · exact ih hs.2 (t := (treeDelete less probe ys).1) (by rw [← h.2]) z hz'
    · rw [if_neg h1] at h
      by_cases h2 : less probe y.item = true
      · intro z hz hc
        rcases List.mem_cons.mp hz with rfl | hz'
        · rw [hc.2] at h2
          exact Bool.noConfusion h2
        · have hyz : less y.item z.item = true := hs.1 z hz'
          have : less probe z.item = true := hswo.lt_trans _ _ _ h2 hyz
          rw [hc.2] at this
          exact Bool.noConfusion this
      · rw [if_neg h2] at h
        simp at h

/-- Decomposition of a deleting `treeDelete`. -/
theorem treeDelete_some (h : treeDelete less probe l = (t, some o)) :
    ∃ A B, l = A ++ o :: B ∧ t = A ++ B ∧ (∀ a ∈ A, less a.item probe = true) ∧
      beqv less o.item probe := by
  induction l generalizing t with
  | nil => simp [treeDelete] at h
  | cons y ys ih =>
    unfold treeDelete at h
    by_cases h1 : less y.item probe = true
    · rw [if_pos h1] at h
      simp only [Prod.mk.injEq] at h
      obtain ⟨ht, hr⟩ := h
      obtain ⟨A, B, hl, ht', hA, hB⟩ := ih (t := (treeDelete less probe ys).1)
        (by rw [← hr])
      refine ⟨y :: A, B, by simp [hl], ?_, ?_, hB⟩
      · rw [← ht, ht']
        simp
      · intro a ha
        rcases List.mem_cons.mp ha with rfl | ha'
        · exact h1
        · exact hA a ha'
    · rw [if_neg h1] at h
      by_cases h2 : less probe y.item = true
      · rw [if_pos h2] at h
        simp at h
      · rw [if_neg h2] at h
        simp only [Prod.mk.injEq] at h
        obtain ⟨ht, ho⟩ := h
        injection ho with ho'
        subst ho'
        exact ⟨[], ys, by simp, by simp [← ht],
          by simp, bool_eq_false h1, bool_eq_false h2⟩

/-- Sortedness after a non-replacing insert. -/
theorem treeInsert_none_sorted (hswo : IsSWO less) (hs : TreeSorted less l)
    (h : treeInsert less w l = (t, none)) : TreeSorted less t := by
  obtain ⟨A, B, hl, ht, hA, hB⟩ := treeInsert_none h
  subst hl
  subst ht
  rw [TreeSorted, List.pairwise_append] at hs ⊢
  obtain ⟨hsA, hsB, hAB⟩ := hs
  refine ⟨hsA, ?_, ?_⟩
  · rw [List.pairwise_cons]
    refine ⟨?_, hsB⟩
    intro b hb
    cases B with
    | nil => cases hb
    | cons hd tl =>
      have hwhd : less w.item hd.item = true := hB hd rfl
      rcases List.mem_cons.mp hb with rfl | hb'
      · exact hwhd
      · rw [List.pairwise_cons] at hsB
        exact hswo.lt_trans _ _ _ hwhd (hsB.1 b hb')
  · intro a ha b hb
    rcases List.mem_cons.mp hb with rfl | hb'
    · exact hA a ha
    · exact hAB a ha b hb'

/-- Sortedness after a replacing insert. -/
theorem treeInsert_some_sorted (hswo : IsSWO less) (hs : TreeSorted less l)
    (h : treeInsert less w l = (t, some o)) : TreeSorted less t := by
  obtain ⟨A, B, hl, ht, hA, hB⟩ := treeInsert_some h
  subst hl
  subst ht
  rw [TreeSorted, List.pairwise_append] at hs ⊢
  obtain ⟨hsA, hsB, hAB⟩ := hs
  rw [List.pairwise_cons] at hsB
  refine ⟨hsA, ?_, ?_⟩
  · rw [List.pairwise_cons]
    exact ⟨fun b hb => lt_of_beqv_lt hswo (beqv_symm hB) (hsB.1 b hb), hsB.2⟩
  · intro a ha b hb
    rcases List.mem_cons.mp hb with rfl | hb'
    · exact hA a ha
    · exact hAB a ha b (List.mem_cons_of_mem _ hb')

/-- Sortedness after a delete. -/
theorem treeDelete_some_sorted (hs : TreeSorted less l)
    (h : treeDelete less probe l = (t, some o)) : TreeSorted less t := by
  obtain ⟨A, B, hl, ht, hA, hB⟩ := treeDelete_some h
  subst hl
  subst ht
  rw [TreeSorted, List.pairwise_append] at hs ⊢
  obtain ⟨hsA, hsB, hAB⟩ := hs
  rw [List.pairwise_cons] at hsB
  exact ⟨hsA, hsB.2, fun a ha b hb => hAB a ha b (List.mem_cons_of_mem _ hb)⟩

/-! ### The Go swap-remove of `rmFromIndex` -/

/-- The swap-remove (`wraps[i] = wraps[n-1]; wraps[:n-1]`) removes, up to
order, exactly the first match of `p` provided no later element matches. -/
theorem set_getLast_dropLast_perm (ws : List (Wrap α)) (p : Wrap α → Bool) (i : Nat)
    (z : Wrap α) (hF : ws.findIdx? p = some i) (hL : ws.getLast? = some z)
    (huniq : ∀ y ∈ ws.drop (i + 1), p y = false) :
    List.Perm ((ws.set i z).dropLast) (ws.filter (fun w => !(p w))) := by
  rw [List.findIdx?_eq_some_iff_findIdx_eq] at hF
  obtain ⟨hlen, hidx⟩ := hF
  have hm : p ws[i] = true := by
    subst hidx
    exact List.findIdx_getElem (w := hlen)
  have htake : ∀ t ∈ ws.take i, p t = false := by
    intro t ht
    rw [List.mem_take_iff_getElem] at ht
    obtain ⟨j, hj, hjt⟩ := ht
    have hj' : j < List.findIdx p ws := by omega
    rw [← hjt]
    exact List.not_of_lt_findIdx hj'
  have hws : ws = ws.take i ++ ws[i] :: ws.drop (i + 1) := by
    conv_lhs => rw [← List.take_append_drop i ws]
    rw [List.drop_eq_getElem_cons hlen]
  have hset : ws.set i z = ws.take i ++ z :: ws.drop (i + 1) :=
    List.set_eq_take_cons_drop z hlen
  have hfilter : ws.filter (fun w => !(p w)) = ws.take i ++ ws.drop (i + 1) := by
    conv_lhs => rw [hws]
    rw [List.filter_append, List.filter_cons]
    simp only [hm]
    rw [List.filter_eq_self.mpr (fun a ha => by rw [htake a ha]; rfl),
      List.filter_eq_self.mpr (fun a ha => by rw [huniq a ha]; rfl)]
    simp
  rw [hset, hfilter]
  by_cases hD : ws.drop (i + 1) = []
  · rw [hD]
    have : ws.take i ++ z :: ([] : List (Wrap α)) = ws.take i ++ [z] := rfl
    rw [this, List.dropLast_concat]
    simp
  · rw [List.dropLast_append_of_ne_nil _ (by simp : (z :: ws.drop (i + 1)) ≠ []),
      List.dropLast_cons_of_ne_nil hD]
    apply List.Perm.append_left
    have hzD : (ws.drop (i + 1)).getLast? = some z := by
      rw [List.getLast?_drop, if_neg (by
        intro hle
        exact hD (List.drop_eq_nil_of_le hle))]
      exact hL
    obtain ⟨ys, hys⟩ := List.getLast?_eq_some_iff.mp hzD
    rw [hys, List.dropLast_concat]
    exact (List.perm_append_singleton z ys).symm

/-- Specialisation to uid-removal from a bucket with unique uids. -/
theorem bucket_swapRemove_perm (ws : List (Wrap α)) (u : Nat)
    (hnd : (ws.map (·.uid)).Nodup) (i : Nat) (z : Wrap α)
    (hF : ws.findIdx? (fun w => w.uid == u) = some i) (hL : ws.getLast? = some z) :
    List.Perm ((ws.set i z).dropLast) (ws.filter (fun w => !(w.uid == u))) := by
  refine set_getLast_dropLast_perm ws _ i z hF hL ?_
  intro y hy
  have hFi := hF
  rw [List.findIdx?_eq_some_iff_findIdx_eq] at hFi
  obtain ⟨hlen, hidx⟩ := hFi
  have hm : (fun w : Wrap α => w.uid == u) ws[i] = true := by
    subst hidx
    exact List.findIdx_getElem (w := hlen)
  have hdropnd : ((ws.drop i).map (·.uid)).Nodup :=
    List.Nodup.sublist (List.Sublist.map _ (List.drop_sublist i ws)) hnd
  rw [List.drop_eq_getElem_cons hlen, List.map_cons, List.nodup_cons] at hdropnd
  by_contra hcon
  have hyu : y.uid = u := by
    have hb : (y.uid == u) = true := by
      cases h : (y.uid == u)
      · exact absurd h hcon
      · rfl
    simpa using hb
  have hiu : ws[i].uid = u := by simpa using hm
  exact hdropnd.1 (by
    rw [hiu, ← hyu]
    exact List.mem_map_of_mem _ hy)

/-! ### Further association-list lemmas -/

theorem alGet_mem {l : List (String × β)} (h : alGet k l = some v) : (k, v) ∈ l := by
  induction l with
  | nil => simp [alGet] at h
  | cons e rest ih =>
    unfold alGet at h
    by_cases he : e.1 = k
    · rw [if_pos he] at h
      injection h with h'
      subst h'
      have hke : (k, e.2) = e := by
        obtain ⟨e1, e2⟩ := e
        simp only at he
        simp [he]
      rw [hke]
      exact List.mem_cons_self _ _
    · rw [if_neg he] at h
      exact List.mem_cons_of_mem _ (ih h)

theorem alGet_of_mem_nodup {l : List (String × β)} (hm : (k, v) ∈ l)
    (hnd : (l.map Prod.fst).Nodup) : alGet k l = some v := by
  induction l with
  | nil => cases hm
  | cons e rest ih =>
    rw [List.map_cons, List.nodup_cons] at hnd
    rcases List.mem_cons.mp hm with rfl | hm'
    · simp [alGet]
    · unfold alGet
      by_cases he : e.1 = k
      · exfalso
        apply hnd.1
        rw [he]
        exact List.mem_map_of_mem _ hm'
      · rw [if_neg he]
        exact ih hm' hnd.2

theorem alGet_none_not_mem {l : List (String × β)} (h : alGet k l = none) :
    k ∉ l.map Prod.fst := by
  induction l with
  | nil => simp
  | cons e rest ih =>
    unfold alGet at h
    by_cases he : e.1 = k
    · rw [if_pos he] at h
      cases h
    · rw [if_neg he] at h
      simp only [List.map_cons, List.mem_cons]
      rintro (rfl | hmem)
      · exact he rfl
      · exact ih h hmem

theorem alSet_keys_of_get_none (k : String) (v : β) (l : List (String × β))
    (h : alGet k l = none) :
    (alSet k v l).map Prod.fst = l.map Prod.fst ++ [k] := by
  induction l with
  | nil => simp [alSet]
  | cons e rest ih =>
    unfold alGet at h
    by_cases he : e.1 = k
    · rw [if_pos he] at h
      cases h
    · rw [if_neg he] at h
      simp [alSet, he, ih h]

theorem alSet_keys_nodup (k : String) (v : β) (l : List (String × β))
    (hnd : (l.map Prod.fst).Nodup) : ((alSet k v l).map Prod.fst).Nodup := by
  cases h : alGet k l with
  | some v0 => rw [alSet_keys_of_get_some k v v0 l h]; exact hnd
  | none =>
    rw [alSet_keys_of_get_none k v l h]
    rw [List.nodup_append]
    exact ⟨hnd, List.nodup_singleton k, by
      intro a ha
      simp only [List.mem_singleton]
      rintro rfl
      exact alGet_none_not_mem h ha⟩

/-! ### `setBucket` and `rmFromIndex` characterisation -/

theorem bucketOf_setBucket_self (s : Store α) (iid key : String) (b : List (Wrap α)) :
    (s.setBucket iid key b).bucketOf iid key = b := by
  unfold Store.setBucket Store.bucketOf
  simp [alGet_alSet_self]

theorem bucketOf_setBucket_ne (s : Store α) (iid key iid' key' : String)
    (b : List (Wrap α)) (h : iid' ≠ iid ∨ key' ≠ key) :
    (s.setBucket iid key b).bucketOf iid' key' = s.bucketOf iid' key' := by
  unfold Store.setBucket Store.bucketOf
  by_cases hiid : iid' = iid
  · subst hiid
    have hkey : key' ≠ key := by
      rcases h with h | h
      · exact absurd rfl h
      · exact h
    simp only [alGet_alSet_self]
    rw [alGet_alSet_ne _ _ _ _ hkey]
    cases hI : alGet iid' s.index with
    | none => simp [alGet]
    | some inner => simp
  · rw [alGet_alSet_ne _ _ _ _ hiid]

theorem setBucket_backing (s : Store α) (iid key : String) (b : List (Wrap α)) :
    (s.setBucket iid key b).backing = s.backing := rfl

theorem setBucket_indexes (s : Store α) (iid key : String) (b : List (Wrap α)) :
    (s.setBucket iid key b).indexes = s.indexes := rfl

/-- `rmFromIndex` changes at most the addressed bucket. -/
theorem rmFromIndex_bucketOf_ne (s : Store α) (iid key : String) (u : Nat)
    (iid' key' : String) (h : iid' ≠ iid ∨ key' ≠ key) :
    (s.rmFromIndex iid key u).bucketOf iid' key' = s.bucketOf iid' key' := by
  unfold Store.rmFromIndex
  cases hI : alGet iid s.index with
  | none => rfl
  | some inner =>
    simp only
    cases hK : alGet key inner with
    | none => rfl
    | some ws =>
      simp only
      cases hF : ws.findIdx? (fun w => w.uid == u) with
      | none => rfl
      | some i =>
        cases hL : ws.getLast? with
        | none => rfl
        | some z => exact bucketOf_setBucket_ne s iid key iid' key' _ h

/-- `rmFromIndex` on the addressed bucket removes, up to order, exactly
the wrap with the given uid (unique in the bucket). -/
theorem rmFromIndex_bucketOf_self (s : Store α) (iid key : String) (u : Nat)
    (hnd : ((s.bucketOf iid key).map (·.uid)).Nodup) :
    List.Perm ((s.rmFromIndex iid key u).bucketOf iid key)
      ((s.bucketOf iid key).filter (fun w => !(w.uid == u))) := by
  unfold Store.rmFromIndex
  cases hI : alGet iid s.index with
  | none =>
    simp only [Store.bucketOf, hI]
    rfl
  | some inner =>
    simp only
    cases hK : alGet key inner with
    | none =>
      simp only [Store.bucketOf, hI, hK]
      rfl
    | some ws =>
      simp only
      have hbw : s.bucketOf iid key = ws := by
        simp [Store.bucketOf, hI, hK]
      cases hF : ws.findIdx? (fun w => w.uid == u) with
      | none =>
        rw [hbw]
        rw [List.filter_eq_self.mpr ?_]
        · intro a ha
          have := List.findIdx?_eq_none_iff.mp hF a ha
          simp only [this]
          rfl
      | some i =>
        cases hL : ws.getLast? with
        | none =>
          exfalso
          rw [List.getLast?_eq_none_iff] at hL
          subst hL
          simp [List.findIdx?] at hF
        | some z =>
          rw [bucketOf_setBucket_self, hbw]
          rw [hbw] at hnd
          exact bucket_swapRemove_perm ws u hnd i z hF hL

theorem rmFromIndex_backing (s : Store α) (iid key : String) (u : Nat) :
    (s.rmFromIndex iid key u).backing = s.backing := by
  unfold Store.rmFromIndex
  cases alGet iid s.index with
  | none => rfl
  | some inner =>
    simp only
    cases alGet key inner with
    | none => rfl
    | some ws =>
      simp only
      cases ws.findIdx? (fun w => w.uid == u) <;> cases ws.getLast? <;> rfl

theorem rmFromIndex_cfg (s : Store α) (iid key : String) (u : Nat) :
    (s.rmFromIndex iid key u).cfg = s.cfg := by
  unfold Store.rmFromIndex
  cases alGet iid s.index with
  | none => rfl
  | some inner =>
    simp only
    cases alGet key inner with
    | none => rfl
    | some ws =>
      simp only
      cases ws.findIdx? (fun w => w.uid == u) <;> cases ws.getLast? <;> rfl

theorem rmFromIndex_happens (s : Store α) (iid key : String) (u : Nat) :
    (s.rmFromIndex iid key u).happens = s.happens := by
  unfold Store.rmFromIndex
  cases alGet iid s.index with
  | none => rfl
  | some inner =>
    simp only
    cases alGet key inner with
    | none => rfl
    | some ws =>
      simp only
      cases ws.findIdx? (fun w => w.uid == u) <;> cases ws.getLast? <;> rfl

theorem rmFromIndex_nextUid (s : Store α) (iid key : String) (u : Nat) :
    (s.rmFromIndex iid key u).nextUid = s.nextUid := by
  unfold Store.rmFromIndex
  cases alGet iid s.index with
  | none => rfl
  | some inner =>
    simp only
    cases alGet key inner with
    | none => rfl
    | some ws =>
      simp only
      cases ws.findIdx? (fun w => w.uid == u) <;> cases ws.getLast? <;> rfl

theorem mem_alSet {l : List (String × β)} {e : String × β}
    (h : e ∈ alSet k v l) : e = (k, v) ∨ e ∈ l := by
  induction l with
  | nil => simpa [alSet] using h
  | cons e0 rest ih =>
    unfold alSet at h
    by_cases he : e0.1 = k
    · rw [if_pos he] at h
      rcases List.mem_cons.mp h with rfl | h'
      · exact Or.inl rfl
      · exact Or.inr (List.mem_cons_of_mem _ h')
    · rw [if_neg he] at h
      rcases List.mem_cons.mp h with rfl | h'
      · exact Or.inr (List.mem_cons_self _ _)
      · rcases ih h' with h'' | h''
        · exact Or.inl h''
        · exact Or.inr (List.mem_cons_of_mem _ h'')

/-! ### The working store invariant

The invariant maintained by `Put`, `Delete` and `Expire` from which the
reachability claims follow. -/

/-- The store invariant: well-formed index descriptors, a sorted tree of
uid-distinct wraps with full key snapshots, and index buckets that hold
exactly the tree wraps under their snapshot keys. -/
structure Inv (s : Store α) : Prop where
  wfIdx : s.indexes.map (·.n) = List.range s.indexes.length
  idsNodup : (s.indexes.map (·.id)).Nodup
  sorted : TreeSorted s.cfg.less s.backing
  uidNodup : (s.backing.map (·.uid)).Nodup
  uidBound : ∀ w ∈ s.backing, w.uid < s.nextUid
  valLen : ∀ w ∈ s.backing, w.values.length = s.indexes.length
  main : ∀ iid key y, y ∈ s.bucketOf iid key ↔
    (y ∈ s.backing ∧ ∃ d ∈ s.indexes, d.id = iid ∧ y.values.getD d.n "" = key)
  bnodup : ∀ iid key, ((s.bucketOf iid key).map (·.uid)).Nodup
  outerNodup : (s.index.map Prod.fst).Nodup
  innerNodup : ∀ e ∈ s.index, (e.2.map Prod.fst).Nodup

/-- Wraps of the backing tree are determined by their uid. -/
theorem Inv.uid_inj (hinv : Inv s) {x y : Wrap α} (hx : x ∈ s.backing)
    (hy : y ∈ s.backing) (h : x.uid = y.uid) : x = y :=
  List.inj_on_of_nodup_map hinv.uidNodup hx hy h

theorem setBucket_outerNodup (s : Store α) (iid key : String) (b : List (Wrap α))
    (h : (s.index.map Prod.fst).Nodup) :
    ((s.setBucket iid key b).index.map Prod.fst).Nodup :=
  alSet_keys_nodup _ _ _ h

theorem setBucket_innerNodup (s : Store α) (iid key : String) (b : List (Wrap α))
    (houter : ∀ e ∈ s.index, (e.2.map Prod.fst).Nodup) :
    ∀ e ∈ (s.setBucket iid key b).index, (e.2.map Prod.fst).Nodup := by
  intro e he
  rcases mem_alSet he with rfl | he'
  · apply alSet_keys_nodup
    cases hI : alGet iid s.index with
    | none => simp
    | some inner => simpa using houter _ (alGet_mem hI)
  · exact houter e he'

theorem rmFromIndex_outerNodup (s : Store α) (iid key : String) (u : Nat)
    (h : (s.index.map Prod.fst).Nodup) :
    ((s.rmFromIndex iid key u).index.map Prod.fst).Nodup := by
  unfold Store.rmFromIndex
  cases alGet iid s.index with
  | none => exact h
  | some inner =>
    simp only
    cases alGet key inner with
    | none => exact h
    | some ws =>
      simp only
      cases ws.findIdx? (fun w => w.uid == u) with
      | none => exact h
      | some i =>
        cases ws.getLast? with
        | none => exact h
        | some z => exact setBucket_outerNodup s iid key _ h

theorem rmFromIndex_innerNodup (s : Store α) (iid key : String) (u : Nat)
    (h : ∀ e ∈ s.index, (e.2.map Prod.fst).Nodup) :
    ∀ e ∈ (s.rmFromIndex iid key u).index, (e.2.map Prod.fst).Nodup := by
  unfold Store.rmFromIndex
  cases alGet iid s.index with
  | none => exact h
  | some inner =>
    simp only
    cases alGet key inner with
    | none => exact h
    | some ws =>
      simp only
      cases ws.findIdx? (fun w => w.uid == u) with
      | none => exact h
      | some i =>
        cases ws.getLast? with
        | none => exact h
        | some z => exact setBucket_innerNodup s iid key _ h

/-- The uid-filter fold: removing a uid from every index bucket under the
snapshot keys filters the uid out of every bucket, provided the uid occurs
only in buckets the fold addresses. -/
theorem foldl_rmFromIndex_bucket_perm (ds : List IndexDescr) (u : Nat)
    (vals : List String) (s0 : Store α)
    (hnd : ∀ iid key, ((s0.bucketOf iid key).map (·.uid)).Nodup)
    (hocc : ∀ iid key, (∃ y ∈ s0.bucketOf iid key, y.uid = u) →
      ∃ d ∈ ds, d.id = iid ∧ key = vals.getD d.n "") :
    ∀ iid key,
      List.Perm
        ((ds.foldl (fun acc d => acc.rmFromIndex d.id (vals.getD d.n "") u)
          s0).bucketOf iid key)
        ((s0.bucketOf iid key).filter (fun w => !(w.uid == u))) := by
  induction ds generalizing s0 with
  | nil =>
    intro iid key
    simp only [List.foldl_nil]
    rw [List.filter_eq_self.mpr ?_]
    intro y hy
    by_contra hc
    have hyu : y.uid = u := by
      have hb : (y.uid == u) = true := by
        cases hbb : (y.uid == u)
        · exact absurd (by rw [hbb]; rfl) hc
        · rfl
      simpa using hb
    exact absurd (hocc iid key ⟨y, hy, hyu⟩) (by simp)
  | cons d0 rest ih =>
    intro iid key
    rw [List.foldl_cons]
    have hnd1 : ∀ iid key,
        (((s0.rmFromIndex d0.id (vals.getD d0.n "") u).bucketOf iid key).map
          (·.uid)).Nodup := by
      intro iid' key'
      by_cases hsame : iid' = d0.id ∧ key' = vals.getD d0.n ""
      · obtain ⟨h1, h2⟩ := hsame
        subst h1
        subst h2
        have hp := rmFromIndex_bucketOf_self s0 d0.id (vals.getD d0.n "") u (hnd d0.id (vals.getD d0.n ""))
        rw [List.Perm.nodup_iff (hp.map _)]
        exact List.Nodup.sublist (List.Sublist.map _ (List.filter_sublist _)) (hnd _ _)
      · rw [rmFromIndex_bucketOf_ne s0 _ _ u iid' key' (by tauto)]
        exact hnd _ _
    have hocc1 : ∀ iid key,
        (∃ y ∈ (s0.rmFromIndex d0.id (vals.getD d0.n "") u).bucketOf iid key,
          y.uid = u) →
        ∃ d ∈ rest, d.id = iid ∧ key = vals.getD d.n "" := by
      rintro iid' key' ⟨y, hy, hyu⟩
      by_cases hsame : iid' = d0.id ∧ key' = vals.getD d0.n ""
      · obtain ⟨h1, h2⟩ := hsame
        subst h1
        subst h2
        exfalso
        have hp := rmFromIndex_bucketOf_self s0 d0.id (vals.getD d0.n "") u (hnd d0.id (vals.getD d0.n ""))
        have hy' := (hp.mem_iff).mp hy
        rw [List.mem_filter] at hy'
        simp [hyu] at hy'
      · rw [rmFromIndex_bucketOf_ne s0 _ _ u iid' key' (by tauto)] at hy
        rcases hocc iid' key' ⟨y, hy, hyu⟩ with ⟨d, hd, hdid, hdkey⟩
        rcases List.mem_cons.mp hd with rfl | hd'
        · exact absurd ⟨hdid.symm, hdkey⟩ hsame
        · exact ⟨d, hd', hdid, hdkey⟩
    have hfin := ih (s0.rmFromIndex d0.id (vals.getD d0.n "") u) hnd1 hocc1 iid key
    by_cases hsame : iid = d0.id ∧ key = vals.getD d0.n ""
    · obtain ⟨h1, h2⟩ := hsame
      subst h1
      subst h2
      have hp := rmFromIndex_bucketOf_self s0 d0.id (vals.getD d0.n "") u (hnd d0.id (vals.getD d0.n ""))
      refine hfin.trans ((hp.filter _).trans ?_)
      rw [List.filter_eq_self.mpr ?_]
      intro y hy
      exact (List.mem_filter.mp hy).2
    · rw [rmFromIndex_bucketOf_ne s0 _ _ u iid key (by tauto)] at hfin
      exact hfin

theorem foldl_rmFromIndex_backing (ds : List IndexDescr) (w : Wrap α) (s0 : Store α) :
    (ds.foldl (fun acc d => acc.rmFromIndex d.id (w.values.getD d.n "") w.uid)
      s0).backing = s0.backing := by
  induction ds generalizing s0 with
  | nil => rfl
  | cons d rest ih => rw [List.foldl_cons, ih, rmFromIndex_backing]

theorem foldl_rmFromIndex_cfg (ds : List IndexDescr) (w : Wrap α) (s0 : Store α) :
    (ds.foldl (fun acc d => acc.rmFromIndex d.id (w.values.getD d.n "") w.uid)
      s0).cfg = s0.cfg := by
  induction ds generalizing s0 with
  | nil => rfl
  | cons d rest ih => rw [List.foldl_cons, ih, rmFromIndex_cfg]

theorem foldl_rmFromIndex_happens (ds : List IndexDescr) (w : Wrap α) (s0 : Store α) :
    (ds.foldl (fun acc d => acc.rmFromIndex d.id (w.values.getD d.n "") w.uid)
      s0).happens = s0.happens := by
  induction ds generalizing s0 with
  | nil => rfl
  | cons d rest ih => rw [List.foldl_cons, ih, rmFromIndex_happens]

theorem foldl_rmFromIndex_nextUid (ds : List IndexDescr) (w : Wrap α) (s0 : Store α) :
    (ds.foldl (fun acc d => acc.rmFromIndex d.id (w.values.getD d.n "") w.uid)
      s0).nextUid = s0.nextUid := by
  induction ds generalizing s0 with
  | nil => rfl
  | cons d rest ih => rw [List.foldl_cons, ih, rmFromIndex_nextUid]

theorem foldl_rmFromIndex_outerNodup (ds : List IndexDescr) (w : Wrap α) (s0 : Store α)
    (h : (s0.index.map Prod.fst).Nodup) :
    ((ds.foldl (fun acc d => acc.rmFromIndex d.id (w.values.getD d.n "") w.uid)
      s0).index.map Prod.fst).Nodup := by
  induction ds generalizing s0 with
  | nil => exact h
  | cons d rest ih => exact ih _ (rmFromIndex_outerNodup _ _ _ _ h)

theorem foldl_rmFromIndex_innerNodup (ds : List IndexDescr) (w : Wrap α) (s0 : Store α)
    (h : ∀ e ∈ s0.index, (e.2.map Prod.fst).Nodup) :
    ∀ e ∈ (ds.foldl (fun acc d => acc.rmFromIndex d.id (w.values.getD d.n "") w.uid)
      s0).index, (e.2.map Prod.fst).Nodup := by
  induction ds generalizing s0 with
  | nil => exact h
  | cons d rest ih => exact ih _ (rmFromIndex_innerNodup _ _ _ _ h)

/-- A uid-distinct split has no other copy of the middle element. -/
theorem nodup_split_not_mem {A B : List (Wrap α)} {o : Wrap α}
    (hnd : (((A ++ o :: B).map (·.uid))).Nodup) : o ∉ A ∧ o ∉ B := by
  rw [List.map_append, List.map_cons, List.nodup_append] at hnd
  obtain ⟨_, hcons, hdisj⟩ := hnd
  rw [List.nodup_cons] at hcons
  constructor
  · intro hA
    exact hdisj (List.mem_map_of_mem _ hA) (List.mem_cons_self _ _)
  · intro hB
    exact hcons.1 (List.mem_map_of_mem _ hB)

/-- `rmWrap` with no hit leaves the store unchanged (and, on a sorted
tree, witnesses that no stored item equals the probe). -/
theorem rmWrap_none_eq (s : Store α) (probe : α) (h : (s.rmWrap probe).2 = none) :
    (s.rmWrap probe).1 = s := by
  simp only [Store.rmWrap] at h ⊢
  cases hR : (treeDelete s.cfg.less probe s.backing).2 with
  | some o =>
    rw [hR] at h
    simp at h
  | none =>
    simp only [hR]
    have ht := treeDelete_none (l := s.backing)
      (t := (treeDelete s.cfg.less probe s.backing).1) (by rw [← hR])
    rw [ht]

/-- Characterisation of a successful `rmWrap` from its minimal premises
(these hold both at invariant states and at the intermediate states of
`addWrap`'s index loop): the returned wrap was a stored wrap equal to the
probe; the tree loses exactly it; every index bucket loses exactly its
uid. -/
theorem rmWrap_some_char_min (s : Store α) (probe : α) (o : Wrap α)
    (hsorted : TreeSorted s.cfg.less s.backing)
    (huid : (s.backing.map (·.uid)).Nodup)
    (hbnd : ∀ iid key, ((s.bucketOf iid key).map (·.uid)).Nodup)
    (hocc : ∀ iid key, (∃ y ∈ s.bucketOf iid key, y.uid = o.uid) →
      ∃ d ∈ s.indexes, d.id = iid ∧ key = o.values.getD d.n "")
    (h : (s.rmWrap probe).2 = some o) :
    o ∈ s.backing ∧ beqv s.cfg.less o.item probe ∧
    TreeSorted s.cfg.less (s.rmWrap probe).1.backing ∧
    (∀ y, y ∈ (s.rmWrap probe).1.backing ↔ y ∈ s.backing ∧ y ≠ o) ∧
    List.Sublist (s.rmWrap probe).1.backing s.backing ∧
    (∀ iid key, List.Perm ((s.rmWrap probe).1.bucketOf iid key)
      ((s.bucketOf iid key).filter (fun w => !(w.uid == o.uid)))) := by
  have hR2 : (treeDelete s.cfg.less probe s.backing).2 = some o := by
    simp only [Store.rmWrap] at h
    cases hR : (treeDelete s.cfg.less probe s.backing).2 with
    | none => rw [hR] at h; simp at h
    | some o' =>
      rw [hR] at h
      simp only at h
      injection h with h'
      rw [h']
  have hpair : treeDelete s.cfg.less probe s.backing =
      ((treeDelete s.cfg.less probe s.backing).1, some o) := by
    rw [← hR2]
  obtain ⟨A, B, hl, ht, hA, hB⟩ := treeDelete_some hpair
  have hmem : o ∈ s.backing := by
    rw [hl]
    exact List.mem_append_right A (List.mem_cons_self _ _)
  have hsplit := nodup_split_not_mem (A := A) (B := B) (o := o) (hl ▸ huid)
  have hfin1 : (s.rmWrap probe).1 =
      s.indexes.foldl (fun acc d => acc.rmFromIndex d.id (o.values.getD d.n "") o.uid)
        { s with backing := (treeDelete s.cfg.less probe s.backing).1 } := by
    simp only [Store.rmWrap, hR2]
  have hback : (s.rmWrap probe).1.backing = A ++ B := by
    rw [hfin1, foldl_rmFromIndex_backing]
    exact ht
  refine ⟨hmem, hB, ?_, ?_, ?_, ?_⟩
  · have hsor := treeDelete_some_sorted hsorted hpair
    rw [TreeSorted] at hsor ⊢
    rw [hback]
    rw [ht] at hsor
    exact hsor
  · intro y
    rw [hback, hl]
    simp only [List.mem_append, List.mem_cons]
    constructor
    · rintro (hy | hy)
      · exact ⟨Or.inl hy, fun hyo => hsplit.1 (hyo ▸ hy)⟩
      · exact ⟨Or.inr (Or.inr hy), fun hyo => hsplit.2 (hyo ▸ hy)⟩
    · rintro ⟨hy | hy | hy, hne⟩
      · exact Or.inl hy
      · exact absurd hy hne
      · exact Or.inr hy
  · rw [hback, hl]
    exact List.Sublist.append_left (List.sublist_cons_self o B) A
  · intro iid key
    have hb1 : ∀ iid key,
        ({ s with backing := (treeDelete s.cfg.less probe s.backing).1 } :
          Store α).bucketOf iid key = s.bucketOf iid key := fun _ _ => rfl
    have happ := foldl_rmFromIndex_bucket_perm s.indexes o.uid o.values
      { s with backing := (treeDelete s.cfg.less probe s.backing).1 }
      (fun iid key => by rw [hb1]; exact hbnd iid key)
      ?_ iid key
    · rw [hfin1]
      rw [hb1] at happ
      exact happ
    · intro iid' key' hex
      rw [hb1] at hex
      exact hocc iid' key' hex

/-- The invariant-state form of the `rmWrap` characterisation. -/
theorem rmWrap_some_char (s : Store α) (probe : α) (o : Wrap α)
    (hinv : Inv s) (h : (s.rmWrap probe).2 = some o) :
    o ∈ s.backing ∧ beqv s.cfg.less o.item probe ∧
    TreeSorted s.cfg.less (s.rmWrap probe).1.backing ∧
    (∀ y, y ∈ (s.rmWrap probe).1.backing ↔ y ∈ s.backing ∧ y ≠ o) ∧
    List.Sublist (s.rmWrap probe).1.backing s.backing ∧
    (∀ iid key, List.Perm ((s.rmWrap probe).1.bucketOf iid key)
      ((s.bucketOf iid key).filter (fun w => !(w.uid == o.uid)))) := by
  have hmem : o ∈ s.backing := by
    have hR2 : (treeDelete s.cfg.less probe s.backing).2 = some o := by
      simp only [Store.rmWrap] at h
      cases hR : (treeDelete s.cfg.less probe s.backing).2 with
      | none => rw [hR] at h; simp at h
      | some o' =>
        rw [hR] at h
        simp only at h
        injection h with h'
        rw [h']
    obtain ⟨A, B, hl, _, _, _⟩ := treeDelete_some (t := (treeDelete s.cfg.less probe s.backing).1) (by rw [← hR2])
    rw [hl]
    exact List.mem_append_right A (List.mem_cons_self _ _)
  refine rmWrap_some_char_min s probe o hinv.sorted hinv.uidNodup hinv.bnodup ?_ h
  intro iid key ⟨y, hy, hyu⟩
  obtain ⟨hyback, d, hd, hdid, hdkey⟩ := (hinv.main iid key y).mp hy
  have hyo : y = o := hinv.uid_inj hyback hmem hyu
  subst hyo
  exact ⟨d, hd, hdid, hdkey.symm⟩

theorem rmWrap_cfg (s : Store α) (probe : α) : (s.rmWrap probe).1.cfg = s.cfg := by
  simp only [Store.rmWrap]
  split
  · rfl
  · simp only [foldl_rmFromIndex_cfg]

theorem rmWrap_nextUid (s : Store α) (probe : α) :
    (s.rmWrap probe).1.nextUid = s.nextUid := by
  simp only [Store.rmWrap]
  split
  · rfl
  · simp only [foldl_rmFromIndex_nextUid]

theorem rmWrap_happens (s : Store α) (probe : α) :
    (s.rmWrap probe).1.happens = s.happens := by
  simp only [Store.rmWrap]
  split
  · rfl
  · simp only [foldl_rmFromIndex_happens]

theorem rmFromIndex_used (s : Store α) (iid key : String) (u : Nat) :
    (s.rmFromIndex iid key u).used = s.used := by
  unfold Store.rmFromIndex
  cases alGet iid s.index with
  | none => rfl
  | some inner =>
    simp only
    cases alGet key inner with
    | none => rfl
    | some ws =>
      simp only
      cases ws.findIdx? (fun w => w.uid == u) <;> cases ws.getLast? <;> rfl

theorem foldl_rmFromIndex_used (ds : List IndexDescr) (w : Wrap α) (s0 : Store α) :
    (ds.foldl (fun acc d => acc.rmFromIndex d.id (w.values.getD d.n "") w.uid)
      s0).used = s0.used := by
  induction ds generalizing s0 with
  | nil => rfl
  | cons d rest ih => rw [List.foldl_cons, ih, rmFromIndex_used]

theorem rmWrap_used (s : Store α) (probe : α) :
    (s.rmWrap probe).1.used = s.used := by
  simp only [Store.rmWrap]
  split
  · rfl
  · simp only [foldl_rmFromIndex_used]

theorem rmWrap_outerNodup (s : Store α) (probe : α)
    (h : (s.index.map Prod.fst).Nodup) :
    ((s.rmWrap probe).1.index.map Prod.fst).Nodup := by
  simp only [Store.rmWrap]
  split
  · exact h
  · exact foldl_rmFromIndex_outerNodup _ _ _ h

theorem rmWrap_innerNodup (s : Store α) (probe : α)
    (h : ∀ e ∈ s.index, (e.2.map Prod.fst).Nodup) :
    ∀ e ∈ (s.rmWrap probe).1.index, (e.2.map Prod.fst).Nodup := by
  simp only [Store.rmWrap]
  split
  · exact h
  · exact foldl_rmFromIndex_innerNodup _ _ _ h

/-- `rmWrap` preserves the store invariant. -/
theorem rmWrap_inv (s : Store α) (probe : α) (hinv : Inv s) :
    Inv (s.rmWrap probe).1 := by
  cases hR : (s.rmWrap probe).2 with
  | none =>
    rw [rmWrap_none_eq s probe hR]
    exact hinv
  | some o =>
    obtain ⟨hmem, hbe, hsor, hmemiff, hsub, hbpm⟩ := rmWrap_some_char s probe o hinv hR
    refine {
      wfIdx := by rw [rmWrap_indexes]; exact hinv.wfIdx
      idsNodup := by rw [rmWrap_indexes]; exact hinv.idsNodup
      sorted := by
        have hc : (s.rmWrap probe).1.cfg = s.cfg := rmWrap_cfg s probe
        rw [TreeSorted, hc]
        exact hsor
      uidNodup := List.Nodup.sublist (hsub.map _) hinv.uidNodup
      uidBound := by
        intro w hw
        rw [rmWrap_nextUid]
        exact hinv.uidBound w ((hmemiff w).mp hw).1
      valLen := by
        intro w hw
        rw [rmWrap_indexes]
        exact hinv.valLen w ((hmemiff w).mp hw).1
      main := by
        intro iid key y
        rw [rmWrap_indexes]
        constructor
        · intro hy
          have hy' := (hbpm iid key).mem_iff.mp hy
          rw [List.mem_filter] at hy'
          obtain ⟨hyb, hyu⟩ := hy'
          obtain ⟨hyback, hex⟩ := (hinv.main iid key y).mp hyb
          refine ⟨(hmemiff y).mpr ⟨hyback, ?_⟩, hex⟩
          intro hyo
          subst hyo
          simp at hyu
        · rintro ⟨hy, hex⟩
          have hyback := ((hmemiff y).mp hy).1
          have hyne := ((hmemiff y).mp hy).2
          rw [(hbpm iid key).mem_iff, List.mem_filter]
          refine ⟨(hinv.main iid key y).mpr ⟨hyback, hex⟩, ?_⟩
          by_contra hc
          have hc' : y.uid = o.uid := by
            cases hcc : (y.uid == o.uid)
            · rw [hcc] at hc
              exact absurd rfl hc
            · simpa using hcc
          exact hyne (hinv.uid_inj hyback hmem hc')
      bnodup := by
        intro iid key
        rw [List.Perm.nodup_iff ((hbpm iid key).map _)]
        exact List.Nodup.sublist (List.Sublist.map _ (List.filter_sublist _))
          (hinv.bnodup iid key)
      outerNodup := rmWrap_outerNodup s probe hinv.outerNodup
      innerNodup := rmWrap_innerNodup s probe hinv.innerNodup }

theorem rmWrap_snd (s : Store α) (probe : α) :
    (s.rmWrap probe).2 = (treeDelete s.cfg.less probe s.backing).2 := by
  simp only [Store.rmWrap]
  cases (treeDelete s.cfg.less probe s.backing).2 <;> rfl

theorem send_bucketOf (s : Store α) (h : Happening α) (iid key : String) :
    (s.send h).bucketOf iid key = s.bucketOf iid key := rfl

/-- The eviction loop of `addToIndex`: each target (a list of distinct
wraps stored in the tree whose uids occur in buckets only under their own
snapshot keys) is removed from the tree and from every bucket, and an
Update happening pairing it with the incoming item is sent, in order. -/
theorem evictLoop_char (w : Wrap α) (targets : List (Wrap α)) (s : Store α)
    (hswo : IsSWO s.cfg.less)
    (hsorted : TreeSorted s.cfg.less s.backing)
    (huid : (s.backing.map (·.uid)).Nodup)
    (hbnd : ∀ iid key, ((s.bucketOf iid key).map (·.uid)).Nodup)
    (hsub : ∀ bw ∈ targets, bw ∈ s.backing)
    (hnd : targets.Nodup)
    (hocc : ∀ bw ∈ targets, ∀ iid key, (∃ y ∈ s.bucketOf iid key, y.uid = bw.uid) →
      ∃ d ∈ s.indexes, d.id = iid ∧ key = bw.values.getD d.n "") :
    (Store.evictLoop w targets s).1.cfg = s.cfg ∧
    (Store.evictLoop w targets s).1.indexes = s.indexes ∧
    (Store.evictLoop w targets s).1.nextUid = s.nextUid ∧
    (Store.evictLoop w targets s).1.used = s.used ∧
    List.Sublist (Store.evictLoop w targets s).1.backing s.backing ∧
    (∀ y, y ∈ (Store.evictLoop w targets s).1.backing ↔
      y ∈ s.backing ∧ y ∉ targets) ∧
    (∀ iid key, List.Perm ((Store.evictLoop w targets s).1.bucketOf iid key)
      ((s.bucketOf iid key).filter
        (fun y => targets.all (fun bw => !(y.uid == bw.uid))))) ∧
    (Store.evictLoop w targets s).1.happens =
      s.happens ++ targets.map
        (fun bw => ⟨Event.update, some bw.item, some w.item, w.stats⟩) ∧
    (Store.evictLoop w targets s).2 = !targets.isEmpty ∧
    ((s.index.map Prod.fst).Nodup →
      ((Store.evictLoop w targets s).1.index.map Prod.fst).Nodup) ∧
    ((∀ e ∈ s.index, (e.2.map Prod.fst).Nodup) →
      ∀ e ∈ (Store.evictLoop w targets s).1.index, (e.2.map Prod.fst).Nodup) := by
  induction targets generalizing s with
  | nil =>
    refine ⟨rfl, rfl, rfl, rfl, List.Sublist.refl _, by simp [Store.evictLoop], ?_,
      by simp [Store.evictLoop], rfl, fun h => h, fun h => h⟩
    intro iid key
    simp only [Store.evictLoop, List.all_nil]
    rw [List.filter_eq_self.mpr (fun a _ => rfl)]
  | cons bw rest ih =>
    have hbwmem : bw ∈ s.backing := hsub bw (List.mem_cons_self _ _)
    cases hR : (s.rmWrap bw.item).2 with
    | none =>
      exfalso
      rw [rmWrap_snd] at hR
      have hpair : treeDelete s.cfg.less bw.item s.backing =
          ((treeDelete s.cfg.less bw.item s.backing).1, none) := by rw [← hR]
      exact treeDelete_none_not_mem hswo hsorted hpair bw hbwmem (beqv_refl hswo _)
    | some o =>
      -- the removed wrap is `bw` itself
      have ho : o = bw := by
        rw [rmWrap_snd] at hR
        have hpair : treeDelete s.cfg.less bw.item s.backing =
            ((treeDelete s.cfg.less bw.item s.backing).1, some o) := by rw [← hR]
        obtain ⟨A, B, hl, _, _, hbe⟩ := treeDelete_some hpair
        have homem : o ∈ s.backing := by
          rw [hl]
          exact List.mem_append_right A (List.mem_cons_self _ _)
        exact treeSorted_unique hsorted homem hbwmem hbe
      subst ho
      obtain ⟨_, _, hsor1, hmem1, hsub1, hbkt1⟩ :=
        rmWrap_some_char_min s o.item o hsorted huid hbnd
          (hocc o (List.mem_cons_self _ _)) hR
      -- the state after removal and event
      have hnd1 : rest.Nodup := (List.nodup_cons.mp hnd).2
      have hnotin : o ∉ rest := (List.nodup_cons.mp hnd).1
      have hcfg1 : (s.rmWrap o.item).1.cfg = s.cfg := rmWrap_cfg s o.item
      -- premises for the tail
      have hswo2 : IsSWO ((s.rmWrap o.item).1.send
          ⟨Event.update, some o.item, some w.item, w.stats⟩).cfg.less := by
        show IsSWO (s.rmWrap o.item).1.cfg.less
        rw [hcfg1]
        exact hswo
      have hsorted2 : TreeSorted ((s.rmWrap o.item).1.send
          ⟨Event.update, some o.item, some w.item, w.stats⟩).cfg.less
          ((s.rmWrap o.item).1.send
            ⟨Event.update, some o.item, some w.item, w.stats⟩).backing := by
        show TreeSorted (s.rmWrap o.item).1.cfg.less (s.rmWrap o.item).1.backing
        rw [TreeSorted, hcfg1]
        exact hsor1
      have huid2 : (((s.rmWrap o.item).1.send
          ⟨Event.update, some o.item, some w.item, w.stats⟩).backing.map
            (·.uid)).Nodup := by
        show ((s.rmWrap o.item).1.backing.map (·.uid)).Nodup
        exact List.Nodup.sublist (hsub1.map _) huid
      have hbnd2 : ∀ iid key, ((((s.rmWrap o.item).1.send
          ⟨Event.update, some o.item, some w.item, w.stats⟩).bucketOf iid
            key).map (·.uid)).Nodup := by
        intro iid key
        rw [send_bucketOf]
        rw [List.Perm.nodup_iff ((hbkt1 iid key).map _)]
        exact List.Nodup.sublist (List.Sublist.map _ (List.filter_sublist _))
          (hbnd iid key)
      have hsub2 : ∀ bw' ∈ rest, bw' ∈ ((s.rmWrap o.item).1.send
          ⟨Event.update, some o.item, some w.item, w.stats⟩).backing := by
        intro bw' hbw'
        show bw' ∈ (s.rmWrap o.item).1.backing
        refine (hmem1 bw').mpr ⟨hsub bw' (List.mem_cons_of_mem _ hbw'), ?_⟩
        intro he
        subst he
        exact hnotin hbw'
      have hocc2 : ∀ bw' ∈ rest, ∀ iid key,
          (∃ y ∈ ((s.rmWrap o.item).1.send
            ⟨Event.update, some o.item, some w.item, w.stats⟩).bucketOf iid key,
              y.uid = bw'.uid) →
          ∃ d ∈ ((s.rmWrap o.item).1.send
            ⟨Event.update, some o.item, some w.item, w.stats⟩).indexes,
              d.id = iid ∧ key = bw'.values.getD d.n "" := by
        rintro bw' hbw' iid key ⟨y, hy, hyu⟩
        rw [send_bucketOf] at hy
        have hy' := (List.Perm.mem_iff (hbkt1 iid key)).mp hy
        rw [List.mem_filter] at hy'
        have hidx : ((s.rmWrap o.item).1.send
            ⟨Event.update, some o.item, some w.item, w.stats⟩).indexes =
              s.indexes := by
          show (s.rmWrap o.item).1.indexes = s.indexes
          exact rmWrap_indexes s o.item
        rw [hidx]
        exact hocc bw' (List.mem_cons_of_mem _ hbw') iid key ⟨y, hy'.1, hyu⟩
      have ihr := ih ((s.rmWrap o.item).1.send
        ⟨Event.update, some o.item, some w.item, w.stats⟩) hswo2 hsorted2
        huid2 hbnd2 hsub2 hnd1 hocc2
      obtain ⟨icfg, iidx, inuid, iused, isub, imem, ibkt, ihap, iflag, iout, iinn⟩ := ihr
      -- unfold one loop step
      have hstep : Store.evictLoop w (o :: rest) s =
          ((Store.evictLoop w rest ((s.rmWrap o.item).1.send
            ⟨Event.update, some o.item, some w.item, w.stats⟩)).1, true) := by
        simp only [Store.evictLoop, hR]
      rw [hstep]
      simp only
      have hsend : ∀ (P : Store α → Prop),
          P ((s.rmWrap o.item).1.send
            ⟨Event.update, some o.item, some w.item, w.stats⟩) →
          P ((s.rmWrap o.item).1.send
            ⟨Event.update, some o.item, some w.item, w.stats⟩) := fun _ h => h
      refine ⟨?_, ?_, ?_, ?_, ?_, ?_, ?_, ?_, by simp, ?_, ?_⟩
      · rw [icfg]
        exact hcfg1
      · rw [iidx]
        exact rmWrap_indexes s o.item
      · rw [inuid]
        exact rmWrap_nextUid s o.item
      · rw [iused]
        exact rmWrap_used s o.item
      · exact isub.trans hsub1
      · intro y
        rw [imem y]
        show y ∈ (s.rmWrap o.item).1.backing ∧ y ∉ rest ↔ _
        rw [hmem1 y]
        constructor
        · rintro ⟨⟨hyb, hyo⟩, hyr⟩
          refine ⟨hyb, ?_⟩
          intro hc
          rcases List.mem_cons.mp hc with rfl | hc'
          · exact hyo rfl
          · exact hyr hc'
        · rintro ⟨hyb, hyc⟩
          exact ⟨⟨hyb, fun he => hyc (he ▸ List.mem_cons_self _ _)⟩,
            fun hr => hyc (List.mem_cons_of_mem _ hr)⟩
      · intro iid key
        refine (ibkt iid key).trans ?_
        rw [send_bucketOf]
        refine ((hbkt1 iid key).filter _).trans ?_
        rw [List.filter_filter]
        apply List.Perm.of_eq
        apply List.filter_congr
        intro y _
        rw [List.all_cons]
        rw [Bool.and_comm]
      · rw [ihap]
        show (s.rmWrap o.item).1.happens ++ _ ++ _ = _
        rw [rmWrap_happens]
        simp [Store.send]
      · intro hOut
        apply iout
        show (((s.rmWrap o.item).1.index).map Prod.fst).Nodup
        exact rmWrap_outerNodup s o.item hOut
      · intro hInn
        apply iinn
        show ∀ e ∈ (s.rmWrap o.item).1.index, (e.2.map Prod.fst).Nodup
        exact rmWrap_innerNodup s o.item hInn

theorem find_by_id (IX : List IndexDescr) (d : IndexDescr) (hd : d ∈ IX)
    (hnd : (IX.map (·.id)).Nodup) : IX.find? (fun e => e.id == d.id) = some d := by
  induction IX with
  | nil => cases hd
  | cons e rest ih =>
    rw [List.map_cons, List.nodup_cons] at hnd
    rcases List.mem_cons.mp hd with rfl | hd'
    · simp [List.find?]
    · rw [List.find?_cons]
      have hne : (e.id == d.id) = false := by
        by_contra hc
        have : e.id = d.id := by
          cases hcc : (e.id == d.id)
          · exact absurd hcc hc
          · simpa using hcc
        exact hnd.1 (this ▸ List.mem_map_of_mem _ hd')
      rw [hne]
      exact ih hd' hnd.2

/-- Characterisation of `addToIndex` when the descriptor exists: on a
unique index with a non-empty bucket every prior occupant is evicted from
the whole store with an Update happening, and the bucket becomes `[w]`;
otherwise `w` is appended to the bucket. -/
theorem addToIndex_char (s : Store α) (d : IndexDescr) (key : String) (w : Wrap α)
    (hfind : s.indexes.find? (fun e => e.id == d.id) = some d)
    (hswo : IsSWO s.cfg.less)
    (hsorted : TreeSorted s.cfg.less s.backing)
    (huid : (s.backing.map (·.uid)).Nodup)
    (hbnd : ∀ iid k, ((s.bucketOf iid k).map (·.uid)).Nodup)
    (hws_sub : ∀ y ∈ s.bucketOf d.id key, y ∈ s.backing)
    (hocc : ∀ bw ∈ s.bucketOf d.id key, ∀ iid k,
      (∃ y ∈ s.bucketOf iid k, y.uid = bw.uid) →
      ∃ e ∈ s.indexes, e.id = iid ∧ k = bw.values.getD e.n "") :
    (letI ws := s.bucketOf d.id key
     letI E := if d.unique && !ws.isEmpty then ws else []
     letI r := s.addToIndex d.id key w
     r.1.cfg = s.cfg ∧ r.1.indexes = s.indexes ∧ r.1.nextUid = s.nextUid ∧
     r.1.used = s.used ∧
     List.Sublist r.1.backing s.backing ∧
     (∀ y, y ∈ r.1.backing ↔ y ∈ s.backing ∧ y ∉ E) ∧
     (∀ y, y ∈ r.1.bucketOf d.id key ↔ y = w ∨ (y ∈ ws ∧ y ∉ E)) ∧
     (∀ iid k, iid ≠ d.id ∨ k ≠ key →
       List.Perm (r.1.bucketOf iid k)
         ((s.bucketOf iid k).filter (fun y => E.all (fun e => !(y.uid == e.uid))))) ∧
     r.1.bucketOf d.id key =
       (if d.unique && !ws.isEmpty then [] else ws) ++ [w] ∧
     r.1.happens = s.happens ++ E.map
       (fun bw => ⟨Event.update, some bw.item, some w.item, w.stats⟩) ∧
     r.2 = (d.unique && !ws.isEmpty) ∧
     ((s.index.map Prod.fst).Nodup → (r.1.index.map Prod.fst).Nodup) ∧
     ((∀ e ∈ s.index, (e.2.map Prod.fst).Nodup) →
       ∀ e ∈ r.1.index, (e.2.map Prod.fst).Nodup)) := by
  have hr : s.addToIndex d.id key w =
      (letI ws := s.bucketOf d.id key
       if d.unique && !ws.isEmpty then
         letI rr := Store.evictLoop w ws s
         (rr.1.setBucket d.id key [w], rr.2)
       else (s.setBucket d.id key (ws ++ [w]), false)) := by
    unfold Store.addToIndex
    rw [hfind]
  by_cases hcase : d.unique && !(s.bucketOf d.id key).isEmpty
  · -- unique branch with a non-empty bucket: evict everything
    have hel := evictLoop_char w (s.bucketOf d.id key) s hswo hsorted huid hbnd
      hws_sub (List.Nodup.of_map _ (hbnd d.id key)) hocc
    obtain ⟨ecfg, eidx, enuid, eused, esub, emem, ebkt, ehap, eflag, eout, einn⟩ := hel
    rw [hr]
    simp only [if_pos hcase]
    refine ⟨ecfg, eidx, enuid, eused, esub, ?_, ?_, ?_, ?_, ?_, ?_, ?_, ?_⟩
    · intro y
      exact emem y
    · intro y
      rw [bucketOf_setBucket_self]
      simp only [List.mem_singleton]
      constructor
      · intro hy
        exact Or.inl hy
      · rintro (rfl | ⟨hy1, hy2⟩)
        · rfl
        · exact absurd hy1 hy2
    · intro iid k hne
      rw [bucketOf_setBucket_ne _ _ _ _ _ _ hne]
      exact ebkt iid k
    · rw [bucketOf_setBucket_self]
      rfl
    · show (Store.evictLoop w (s.bucketOf d.id key) s).1.happens = _
      rw [ehap]
    · show (Store.evictLoop w (s.bucketOf d.id key) s).2 = _
      rw [eflag, hcase]
      cases hE : (s.bucketOf d.id key).isEmpty
      · rfl
      · exfalso
        rw [hE] at hcase
        simp at hcase
    · intro h
      exact setBucket_outerNodup _ _ _ _ (eout h)
    · intro h
      exact setBucket_innerNodup _ _ _ _ (einn h)
  · -- plain append
    rw [hr]
    simp only [if_neg hcase]
    refine ⟨rfl, rfl, rfl, rfl, List.Sublist.refl _, ?_, ?_, ?_, ?_, ?_, ?_, ?_, ?_⟩
    · intro y
      rw [setBucket_backing]
      simp
    · intro y
      rw [bucketOf_setBucket_self]
      simp only [List.mem_append, List.mem_singleton, List.not_mem_nil,
        not_false_iff, and_true]
      tauto
    · intro iid k hne
      rw [bucketOf_setBucket_ne _ _ _ _ _ _ hne]
      simp only [List.all_nil]
      rw [List.filter_eq_self.mpr (fun a _ => rfl)]
    · rw [bucketOf_setBucket_self]
    · simp [Store.setBucket]
    · exact (Bool.eq_false_iff.mpr hcase).symm
    · intro h
      exact setBucket_outerNodup _ _ _ _ h
    · intro h
      exact setBucket_innerNodup _ _ _ _ h

/-- Mid-loop bucket contents during `addWrapLoop`: descriptors in `done`
have been re-indexed against the current tree, while descriptors in
`pend` still hold the pre-put bucket contents (the old tree wraps,
possibly including the replaced wrap `ow`). -/
def LoopMain (s : Store α) (done pend : List IndexDescr) (w : Wrap α)
    (ow : Option (Wrap α)) : Prop :=
  ∀ iid key y, y ∈ s.bucketOf iid key ↔
    ∃ d, ((d ∈ done ∧ y ∈ s.backing) ∨
          (d ∈ pend ∧ ((y ∈ s.backing ∧ y.uid ≠ w.uid) ∨ ow = some y))) ∧
      d.id = iid ∧ y.values.getD d.n "" = key

/-- A stored wrap is evicted by the index loop for `w` iff some pending
unique index assigns it the same compound key as `w`. -/
def EvictedBy (ds : List IndexDescr) (w y : Wrap α) : Prop :=
  y.uid ≠ w.uid ∧ ∃ d ∈ ds, d.unique = true ∧
    y.values.getD d.n "" = w.values.getD d.n ""

theorem nodup_uid_of_perm_filter {l l' : List (Wrap α)} (p : Wrap α → Bool)
    (hperm : List.Perm l' (l.filter p)) (h : (l.map (·.uid)).Nodup) :
    (l'.map (·.uid)).Nodup := by
  have h2 : ((l.filter p).map (·.uid)).Nodup :=
    List.Nodup.sublist (List.Sublist.map _ (List.filter_sublist _)) h
  exact ((hperm.map (·.uid)).nodup_iff).mpr h2

/-- The `ow`-removal step at the head of the `addWrapLoop` body: it
removes `ow` (and nothing else) from the head descriptor's buckets, so
those buckets are left holding exactly the old tree wraps under their
snapshot keys. -/
theorem stepA_char (s : Store α) (d : IndexDescr) (done rest : List IndexDescr)
    (w : Wrap α) (ow : Option (Wrap α))
    (hsplit : s.indexes = done ++ d :: rest)
    (hids : (s.indexes.map (·.id)).Nodup)
    (hmain : LoopMain s done (d :: rest) w ow)
    (hbnd : ∀ iid k, ((s.bucketOf iid k).map (·.uid)).Nodup)
    (how : ∀ o, ow = some o → (∀ y ∈ s.backing, y.uid ≠ o.uid) ∧ o.uid ≠ w.uid) :
    (letI s1 := match ow with
      | some o => s.rmFromIndex d.id (o.values.getD d.n "") o.uid
      | none => s
     s1.backing = s.backing ∧ s1.cfg = s.cfg ∧ s1.indexes = s.indexes ∧
     s1.happens = s.happens ∧ s1.nextUid = s.nextUid ∧ s1.used = s.used ∧
     (∀ k y, y ∈ s1.bucketOf d.id k ↔
       (y ∈ s.backing ∧ y.uid ≠ w.uid ∧ y.values.getD d.n "" = k)) ∧
     (∀ iid k, iid ≠ d.id → s1.bucketOf iid k = s.bucketOf iid k) ∧
     (∀ iid k, ((s1.bucketOf iid k).map (·.uid)).Nodup) ∧
     ((s.index.map Prod.fst).Nodup → (s1.index.map Prod.fst).Nodup) ∧
     ((∀ e ∈ s.index, (e.2.map Prod.fst).Nodup) →
       ∀ e ∈ s1.index, (e.2.map Prod.fst).Nodup)) := by
  have hdmem : d ∈ s.indexes := by
    rw [hsplit]
    exact List.mem_append_right _ (List.mem_cons_self _ _)
  have huniqd : ∀ e ∈ s.indexes, e.id = d.id → e = d := fun e he hid =>
    List.inj_on_of_nodup_map hids he hdmem hid
  have hids' : ((done ++ d :: rest).map (·.id)).Nodup := by
    rw [← hsplit]
    exact hids
  have hdnotdone : d ∉ done := by
    intro hc
    rw [List.map_append, List.nodup_append] at hids'
    exact hids'.2.2 (List.mem_map_of_mem _ hc)
      (List.mem_map_of_mem _ (List.mem_cons_self _ _))
  have hbase : ∀ k y, y ∈ s.bucketOf d.id k ↔
      (((y ∈ s.backing ∧ y.uid ≠ w.uid) ∨ ow = some y) ∧
        y.values.getD d.n "" = k) := by
    intro k y
    rw [hmain d.id k y]
    constructor
    · rintro ⟨d', hcase, hid, hkey⟩
      have hd'mem : d' ∈ s.indexes := by
        rw [hsplit]
        rcases hcase with ⟨hmem, _⟩ | ⟨hmem, _⟩
        · exact List.mem_append_left _ hmem
        · exact List.mem_append_right _ hmem
      have hdd : d' = d := huniqd d' hd'mem hid
      subst hdd
      rcases hcase with ⟨hmem, _⟩ | ⟨_, hy⟩
      · exact absurd hmem hdnotdone
      · exact ⟨hy, hkey⟩
    · rintro ⟨hy, hkey⟩
      exact ⟨d, Or.inr ⟨List.mem_cons_self _ _, hy⟩, rfl, hkey⟩
  cases ow with
  | none =>
    refine ⟨rfl, rfl, rfl, rfl, rfl, rfl, ?_, fun _ _ _ => rfl, hbnd,
      fun h => h, fun h => h⟩
    intro k y
    rw [hbase k y]
    constructor
    · rintro ⟨hl | hl, hk⟩
      · exact ⟨hl.1, hl.2, hk⟩
      · cases hl
    · rintro ⟨h1, h2, h3⟩
      exact ⟨Or.inl ⟨h1, h2⟩, h3⟩
  | some o =>
    obtain ⟨hob, houid⟩ := how o rfl
    refine ⟨rmFromIndex_backing _ _ _ _, rmFromIndex_cfg _ _ _ _,
      rmFromIndex_indexes _ _ _ _, rmFromIndex_happens _ _ _ _,
      rmFromIndex_nextUid _ _ _ _, rmFromIndex_used _ _ _ _, ?_, ?_, ?_, ?_, ?_⟩
    · intro k y
      by_cases hk : k = o.values.getD d.n ""
      · subst hk
        have hperm := rmFromIndex_bucketOf_self s d.id (o.values.getD d.n "")
          o.uid (hbnd d.id (o.values.getD d.n ""))
        rw [hperm.mem_iff, List.mem_filter]
        rw [hbase]
        constructor
        · rintro ⟨⟨hl | hl, hk'⟩, hu⟩
          · exact ⟨hl.1, hl.2, hk'⟩
          · exfalso
            cases hl
            simp at hu
        · rintro ⟨h1, h2, h3⟩
          refine ⟨⟨Or.inl ⟨h1, h2⟩, h3⟩, ?_⟩
          have := hob y h1
          simp [this]
      · rw [rmFromIndex_bucketOf_ne s d.id (o.values.getD d.n "") o.uid d.id k
          (Or.inr hk)]
        rw [hbase k y]
        constructor
        · rintro ⟨hl | hl, hk'⟩
          · exact ⟨hl.1, hl.2, hk'⟩
          · exfalso
            cases hl
            exact hk hk'.symm
        · rintro ⟨h1, h2, h3⟩
          exact ⟨Or.inl ⟨h1, h2⟩, h3⟩
    · intro iid k hne
      exact rmFromIndex_bucketOf_ne s d.id (o.values.getD d.n "") o.uid iid k
        (Or.inl hne)
    · intro iid k
      by_cases h1 : iid = d.id
      · subst h1
        by_cases h2 : k = o.values.getD d.n ""
        · subst h2
          have hperm := rmFromIndex_bucketOf_self s d.id (o.values.getD d.n "")
            o.uid (hbnd d.id (o.values.getD d.n ""))
          exact nodup_uid_of_perm_filter _ hperm (hbnd d.id _)
        · rw [rmFromIndex_bucketOf_ne s d.id (o.values.getD d.n "") o.uid d.id k
            (Or.inr h2)]
          exact hbnd d.id k
      · rw [rmFromIndex_bucketOf_ne s d.id (o.values.getD d.n "") o.uid iid k
          (Or.inl h1)]
        exact hbnd iid k
    · intro h
      exact rmFromIndex_outerNodup _ _ _ _ h
    · intro h
      exact rmFromIndex_innerNodup _ _ _ _ h

/-- Characterisation of the per-index loop of `addWrap`: starting from a
state whose pending buckets hold the pre-put contents, the loop removes
the replaced wrap from its buckets, appends `w` everywhere, evicts
exactly the wraps sharing a unique compound key with `w`, emits an
Update happening for each eviction, and restores the full bucket/tree
correspondence. -/
theorem addWrapLoop_char (w : Wrap α) (ow : Option (Wrap α))
    (pend : List IndexDescr) (s : Store α) (em : Bool) (done : List IndexDescr)
    (hswo : IsSWO s.cfg.less)
    (hsorted : TreeSorted s.cfg.less s.backing)
    (huid : (s.backing.map (·.uid)).Nodup)
    (hw : w ∈ s.backing)
    (hsplit : s.indexes = done ++ pend)
    (hids : (s.indexes.map (·.id)).Nodup)
    (hmain : LoopMain s done pend w ow)
    (hbnd : ∀ iid k, ((s.bucketOf iid k).map (·.uid)).Nodup)
    (houter : (s.index.map Prod.fst).Nodup)
    (hinner : ∀ e ∈ s.index, (e.2.map Prod.fst).Nodup)
    (how : ∀ o, ow = some o → (∀ y ∈ s.backing, y.uid ≠ o.uid) ∧ o.uid ≠ w.uid) :
    (Store.addWrapLoop w ow pend s em).1.cfg = s.cfg ∧
    (Store.addWrapLoop w ow pend s em).1.indexes = s.indexes ∧
    (Store.addWrapLoop w ow pend s em).1.nextUid = s.nextUid ∧
    (Store.addWrapLoop w ow pend s em).1.used = s.used ∧
    TreeSorted s.cfg.less (Store.addWrapLoop w ow pend s em).1.backing ∧
    ((Store.addWrapLoop w ow pend s em).1.backing.map (·.uid)).Nodup ∧
    (∀ y, y ∈ (Store.addWrapLoop w ow pend s em).1.backing ↔
      y ∈ s.backing ∧ ¬ EvictedBy pend w y) ∧
    LoopMain (Store.addWrapLoop w ow pend s em).1 (done ++ pend) [] w ow ∧
    (∃ extra, (Store.addWrapLoop w ow pend s em).1.happens = s.happens ++ extra ∧
      ∀ y ∈ s.backing, EvictedBy pend w y →
        (⟨Event.update, some y.item, some w.item, w.stats⟩ : Happening α) ∈ extra) ∧
    (∀ iid k,
      (((Store.addWrapLoop w ow pend s em).1.bucketOf iid k).map (·.uid)).Nodup) ∧
    ((Store.addWrapLoop w ow pend s em).1.index.map Prod.fst).Nodup ∧
    (∀ e ∈ (Store.addWrapLoop w ow pend s em).1.index,
      (e.2.map Prod.fst).Nodup) := by
  revert hswo hsorted huid hw hsplit hids hmain hbnd houter hinner how
  induction pend generalizing s em done with
  | nil =>
    intro hswo hsorted huid hw hsplit hids hmain hbnd houter hinner how
    simp only [Store.addWrapLoop]
    refine ⟨trivial, trivial, trivial, trivial, hsorted, huid, ?_, ?_,
      ⟨[], by simp, ?_⟩, hbnd, houter, hinner⟩
    · intro y
      constructor
      · intro hy
        refine ⟨hy, ?_⟩
        rintro ⟨-, d, hd, -⟩
        cases hd
      · exact fun h => h.1
    · rw [List.append_nil]
      exact hmain
    · rintro y - ⟨-, d, hd, -⟩
      cases hd
  | cons d rest ih =>
    intro hswo hsorted huid hw hsplit hids hmain hbnd houter hinner how
    have hdmem : d ∈ s.indexes := by
      rw [hsplit]
      exact List.mem_append_right _ (List.mem_cons_self _ _)
    have huniqd : ∀ e ∈ s.indexes, e.id = d.id → e = d := fun e he hid =>
      List.inj_on_of_nodup_map hids he hdmem hid
    have hids2 : ((done ++ d :: rest).map (·.id)).Nodup := by
      rw [← hsplit]
      exact hids
    have hdnotdone : d ∉ done := by
      intro hc
      rw [List.map_append, List.nodup_append] at hids2
      exact hids2.2.2 (List.mem_map_of_mem _ hc)
        (List.mem_map_of_mem _ (List.mem_cons_self _ _))
    have hdnotrest : d ∉ rest := by
      intro hc
      rw [List.map_append, List.nodup_append, List.map_cons, List.nodup_cons] at hids2
      exact hids2.2.1.1 (List.mem_map_of_mem _ hc)
    obtain ⟨B1, B2, B3, B4, B5, B6, hI, hII, hIII, Aout, Ainn⟩ :=
      stepA_char s d done rest w ow hsplit hids hmain hbnd how
    simp only [Store.addWrapLoop]
    -- abstract the state after the `ow` removal step
    have MAIN : ∀ S1 : Store α,
        S1.backing = s.backing → S1.cfg = s.cfg → S1.indexes = s.indexes →
        S1.happens = s.happens → S1.nextUid = s.nextUid → S1.used = s.used →
        (∀ k y, y ∈ S1.bucketOf d.id k ↔
          (y ∈ s.backing ∧ y.uid ≠ w.uid ∧ y.values.getD d.n "" = k)) →
        (∀ iid k, iid ≠ d.id → S1.bucketOf iid k = s.bucketOf iid k) →
        (∀ iid k, ((S1.bucketOf iid k).map (·.uid)).Nodup) →
        (S1.index.map Prod.fst).Nodup →
        (∀ e ∈ S1.index, (e.2.map Prod.fst).Nodup) →
        ((Store.addWrapLoop w ow rest
            (S1.addToIndex d.id (w.values.getD d.n "") w).1
            (S1.addToIndex d.id (w.values.getD d.n "") w).2).1.cfg = s.cfg ∧
         (Store.addWrapLoop w ow rest
            (S1.addToIndex d.id (w.values.getD d.n "") w).1
            (S1.addToIndex d.id (w.values.getD d.n "") w).2).1.indexes = s.indexes ∧
         (Store.addWrapLoop w ow rest
            (S1.addToIndex d.id (w.values.getD d.n "") w).1
            (S1.addToIndex d.id (w.values.getD d.n "") w).2).1.nextUid = s.nextUid ∧
         (Store.addWrapLoop w ow rest
            (S1.addToIndex d.id (w.values.getD d.n "") w).1
            (S1.addToIndex d.id (w.values.getD d.n "") w).2).1.used = s.used ∧
         TreeSorted s.cfg.less (Store.addWrapLoop w ow rest
            (S1.addToIndex d.id (w.values.getD d.n "") w).1
            (S1.addToIndex d.id (w.values.getD d.n "") w).2).1.backing ∧
         ((Store.addWrapLoop w ow rest
            (S1.addToIndex d.id (w.values.getD d.n "") w).1
            (S1.addToIndex d.id (w.values.getD d.n "") w).2).1.backing.map
              (·.uid)).Nodup ∧
         (∀ y, y ∈ (Store.addWrapLoop w ow rest
            (S1.addToIndex d.id (w.values.getD d.n "") w).1
            (S1.addToIndex d.id (w.values.getD d.n "") w).2).1.backing ↔
           y ∈ s.backing ∧ ¬ EvictedBy (d :: rest) w y) ∧
         LoopMain (Store.addWrapLoop w ow rest
            (S1.addToIndex d.id (w.values.getD d.n "") w).1
            (S1.addToIndex d.id (w.values.getD d.n "") w).2).1
           (done ++ d :: rest) [] w ow ∧
         (∃ extra, (Store.addWrapLoop w ow rest
            (S1.addToIndex d.id (w.values.getD d.n "") w).1
            (S1.addToIndex d.id (w.values.getD d.n "") w).2).1.happens =
              s.happens ++ extra ∧
           ∀ y ∈ s.backing, EvictedBy (d :: rest) w y →
             (⟨Event.update, some y.item, some w.item, w.stats⟩ : Happening α) ∈ extra) ∧
         (∀ iid k, (((Store.addWrapLoop w ow rest
            (S1.addToIndex d.id (w.values.getD d.n "") w).1
            (S1.addToIndex d.id (w.values.getD d.n "") w).2).1.bucketOf iid k).map
              (·.uid)).Nodup) ∧
         ((Store.addWrapLoop w ow rest
            (S1.addToIndex d.id (w.values.getD d.n "") w).1
            (S1.addToIndex d.id (w.values.getD d.n "") w).2).1.index.map
              Prod.fst).Nodup ∧
         (∀ e ∈ (Store.addWrapLoop w ow rest
            (S1.addToIndex d.id (w.values.getD d.n "") w).1
            (S1.addToIndex d.id (w.values.getD d.n "") w).2).1.index,
           (e.2.map Prod.fst).Nodup)) := by
      intro S1 B1 B2 B3 B4 B5 B6 hI hII hIII hout hinn
      have hswo1 : IsSWO S1.cfg.less := B2 ▸ hswo
      have hsorted1 : TreeSorted S1.cfg.less S1.backing := by
        rw [B1, B2]
        exact hsorted
      have huid1 : (S1.backing.map (·.uid)).Nodup := by
        rw [B1]
        exact huid
      have hfind1 : S1.indexes.find? (fun e => e.id == d.id) = some d := by
        rw [B3]
        exact find_by_id s.indexes d hdmem hids
      have hws1 : ∀ y ∈ S1.bucketOf d.id (w.values.getD d.n ""), y ∈ S1.backing := by
        intro y hy
        rw [B1]
        exact ((hI _ y).mp hy).1
      have hocc1 : ∀ bw ∈ S1.bucketOf d.id (w.values.getD d.n ""), ∀ iid k,
          (∃ y ∈ S1.bucketOf iid k, y.uid = bw.uid) →
          ∃ e ∈ S1.indexes, e.id = iid ∧ k = bw.values.getD e.n "" := by
        rintro bw hbw iid k ⟨y, hy, hyuid⟩
        obtain ⟨hbwb, hbwne, hbwk⟩ := (hI _ bw).mp hbw
        by_cases hiid : iid = d.id
        · subst hiid
          obtain ⟨hyb, hyne, hyk⟩ := (hI k y).mp hy
          have hye : y = bw := List.inj_on_of_nodup_map huid hyb hbwb hyuid
          subst hye
          refine ⟨d, ?_, rfl, hyk.symm⟩
          rw [B3]
          exact hdmem
        · rw [hII iid k hiid] at hy
          rcases (hmain iid k y).mp hy with ⟨d', hcase, hid, hkey⟩
          have hd'mem : d' ∈ s.indexes := by
            rw [hsplit]
            rcases hcase with ⟨hmem, -⟩ | ⟨hmem, -⟩
            · exact List.mem_append_left _ hmem
            · exact List.mem_append_right _ hmem
          have hfin : y = bw → ∃ e ∈ S1.indexes, e.id = iid ∧
              k = bw.values.getD e.n "" := by
            intro hye
            subst hye
            refine ⟨d', ?_, hid, hkey.symm⟩
            rw [B3]
            exact hd'mem
          rcases hcase with ⟨-, hyb⟩ | ⟨-, hy2⟩
          · exact hfin (List.inj_on_of_nodup_map huid hyb hbwb hyuid)
          · rcases hy2 with ⟨hyb, -⟩ | hyo
            · exact hfin (List.inj_on_of_nodup_map huid hyb hbwb hyuid)
            · exact absurd hyuid.symm ((how y hyo).1 bw hbwb)
      obtain ⟨T1, T2, T3, T4, T5, T6, T7, T8, T9, T10, T11, T12, T13⟩ :=
        addToIndex_char S1 d (w.values.getD d.n "") w hfind1 hswo1 hsorted1
          huid1 hIII hws1 hocc1
      -- facts about the state after `addToIndex`, in terms of the start state
      have C5 : ∀ y, y ∈ (S1.addToIndex d.id (w.values.getD d.n "") w).1.backing ↔
          y ∈ s.backing ∧ y ∉ (if d.unique && !(S1.bucketOf d.id
            (w.values.getD d.n "")).isEmpty then
              S1.bucketOf d.id (w.values.getD d.n "") else []) := by
        intro y
        rw [← B1]
        exact T6 y
      have C6 : ∀ y, y ∈ S1.bucketOf d.id (w.values.getD d.n "") ↔
          (y ∈ s.backing ∧ y.uid ≠ w.uid ∧
            y.values.getD d.n "" = w.values.getD d.n "") :=
        hI (w.values.getD d.n "")
      have C7 : ∀ y, y ∈ (if d.unique && !(S1.bucketOf d.id
            (w.values.getD d.n "")).isEmpty then
              S1.bucketOf d.id (w.values.getD d.n "") else []) ↔
          (d.unique = true ∧ y ∈ S1.bucketOf d.id (w.values.getD d.n "")) := by
        intro y
        by_cases hcond : (d.unique && !(S1.bucketOf d.id
            (w.values.getD d.n "")).isEmpty) = true
        · rw [if_pos hcond]
          have hu : d.unique = true := (Bool.and_eq_true _ _).mp hcond |>.1
          exact ⟨fun hy => ⟨hu, hy⟩, fun hy => hy.2⟩
        · rw [if_neg hcond]
          simp only [List.not_mem_nil, false_iff]
          rintro ⟨hu, hyws⟩
          apply hcond
          rw [hu]
          have hne : S1.bucketOf d.id (w.values.getD d.n "") ≠ [] :=
            List.ne_nil_of_mem hyws
          cases hE : (S1.bucketOf d.id (w.values.getD d.n "")).isEmpty
          · rfl
          · exact absurd (List.isEmpty_iff.mp hE) hne
      have hwE : w ∉ (if d.unique && !(S1.bucketOf d.id
            (w.values.getD d.n "")).isEmpty then
              S1.bucketOf d.id (w.values.getD d.n "") else []) := by
        intro hc
        exact (((C6 w).mp ((C7 w).mp hc).2).2.1) rfl
      have hEsub : ∀ e ∈ (if d.unique && !(S1.bucketOf d.id
            (w.values.getD d.n "")).isEmpty then
              S1.bucketOf d.id (w.values.getD d.n "") else []), e ∈ s.backing :=
        fun e he => ((C6 e).mp ((C7 e).mp he).2).1
      have hallE : ∀ (y : Wrap α) (l : List (Wrap α)),
          (l.all (fun e => !(y.uid == e.uid))) = true ↔ ∀ e ∈ l, y.uid ≠ e.uid := by
        intro y l
        rw [List.all_eq_true]
        constructor
        · intro h e he
          have := h e he
          simpa using this
        · intro h e he
          simpa using h e he
      have C9a : ∀ k, k ≠ w.values.getD d.n "" → ∀ y,
          (y ∈ (S1.addToIndex d.id (w.values.getD d.n "") w).1.bucketOf d.id k ↔
            (y ∈ s.backing ∧ y.uid ≠ w.uid ∧ y.values.getD d.n "" = k ∧
              ∀ e ∈ (if d.unique && !(S1.bucketOf d.id
                (w.values.getD d.n "")).isEmpty then
                  S1.bucketOf d.id (w.values.getD d.n "") else []),
                y.uid ≠ e.uid)) := by
        intro k hk y
        rw [(T8 d.id k (Or.inr hk)).mem_iff, List.mem_filter]
        rw [hI k y, hallE y]
        tauto
      have C9b : ∀ iid k, iid ≠ d.id → ∀ y,
          (y ∈ (S1.addToIndex d.id (w.values.getD d.n "") w).1.bucketOf iid k ↔
            (y ∈ s.bucketOf iid k ∧
              ∀ e ∈ (if d.unique && !(S1.bucketOf d.id
                (w.values.getD d.n "")).isEmpty then
                  S1.bucketOf d.id (w.values.getD d.n "") else []),
                y.uid ≠ e.uid)) := by
        intro iid k hiid y
        rw [(T8 iid k (Or.inl hiid)).mem_iff, List.mem_filter]
        rw [hII iid k hiid, hallE y]
      have C10 : (S1.addToIndex d.id (w.values.getD d.n "") w).1.happens =
          s.happens ++ (if d.unique && !(S1.bucketOf d.id
            (w.values.getD d.n "")).isEmpty then
              S1.bucketOf d.id (w.values.getD d.n "") else []).map
            (fun bw => ⟨Event.update, some bw.item, some w.item, w.stats⟩) := by
        rw [T10, B4]
      have C11 : ∀ iid k,
          (((S1.addToIndex d.id (w.values.getD d.n "") w).1.bucketOf iid k).map
            (·.uid)).Nodup := by
        intro iid k
        by_cases hiid : iid = d.id
        · subst hiid
          by_cases hk : k = w.values.getD d.n ""
          · subst hk
            rw [T9]
            by_cases hcond : (d.unique && !(S1.bucketOf d.id
                (w.values.getD d.n "")).isEmpty) = true
            · rw [if_pos hcond]
              simp
            · rw [if_neg hcond, List.map_append, List.nodup_append]
              refine ⟨hIII d.id _, by simp, ?_⟩
              intro u hu hu'
              simp only [List.map_cons, List.map_nil, List.mem_singleton] at hu'
              rcases List.mem_map.mp hu with ⟨y, hyws, hyu⟩
              exact ((hI _ y).mp hyws).2.1 (hyu.symm ▸ hu' ▸ rfl)
          · exact nodup_uid_of_perm_filter _ (T8 d.id k (Or.inr hk)) (hIII d.id k)
        · exact nodup_uid_of_perm_filter _ (T8 iid k (Or.inl hiid)) (hIII iid k)
      have C14 : TreeSorted s.cfg.less
          (S1.addToIndex d.id (w.values.getD d.n "") w).1.backing := by
        apply List.Pairwise.sublist T5
        rw [B1]
        exact hsorted
      have C15 : (((S1.addToIndex d.id (w.values.getD d.n "") w).1.backing).map
          (·.uid)).Nodup :=
        List.Nodup.sublist (T5.map (·.uid)) huid1
      -- the recursive call's premises at the post-`addToIndex` state
      have hw2 : w ∈ (S1.addToIndex d.id (w.values.getD d.n "") w).1.backing :=
        (C5 w).mpr ⟨hw, hwE⟩
      have hsplit2 : (S1.addToIndex d.id (w.values.getD d.n "") w).1.indexes =
          (done ++ [d]) ++ rest := by
        rw [T2, B3, hsplit, List.append_assoc, List.singleton_append]
      have hids3 : ((S1.addToIndex d.id (w.values.getD d.n "") w).1.indexes.map
          (·.id)).Nodup := by
        rw [T2, B3]
        exact hids
      have hmain2 : LoopMain (S1.addToIndex d.id (w.values.getD d.n "") w).1
          (done ++ [d]) rest w ow := by
        intro iid key y
        by_cases hiid : iid = d.id
        · subst hiid
          have hRHS : (∃ d', ((d' ∈ done ++ [d] ∧
                y ∈ (S1.addToIndex d.id (w.values.getD d.n "") w).1.backing) ∨
                (d' ∈ rest ∧ ((y ∈ (S1.addToIndex d.id
                  (w.values.getD d.n "") w).1.backing ∧ y.uid ≠ w.uid) ∨
                  ow = some y))) ∧
              d'.id = d.id ∧ y.values.getD d'.n "" = key) ↔
              (y ∈ (S1.addToIndex d.id (w.values.getD d.n "") w).1.backing ∧
                y.values.getD d.n "" = key) := by
            constructor
            · rintro ⟨d', hcase, hid, hkey⟩
              have hd'mem : d' ∈ s.indexes := by
                rw [hsplit]
                rcases hcase with ⟨hmem, -⟩ | ⟨hmem, -⟩
                · rcases List.mem_append.mp hmem with h | h
                  · exact List.mem_append_left _ h
                  · rw [List.mem_singleton] at h
                    subst h
                    exact List.mem_append_right _ (List.mem_cons_self _ _)
                · exact List.mem_append_right _ (List.mem_cons_of_mem _ hmem)
              have hdd : d' = d := huniqd d' hd'mem hid
              subst hdd
              rcases hcase with ⟨-, hy⟩ | ⟨hmem, -⟩
              · exact ⟨hy, hkey⟩
              · exact absurd hmem hdnotrest
            · rintro ⟨hyb, hk⟩
              exact ⟨d, Or.inl ⟨List.mem_append_right _ (List.mem_cons_self _ _),
                hyb⟩, rfl, hk⟩
          rw [hRHS]
          by_cases hkey : key = w.values.getD d.n ""
          · subst hkey
            rw [T7 y]
            constructor
            · rintro (rfl | ⟨hyws, hynE⟩)
              · exact ⟨hw2, rfl⟩
              · obtain ⟨hyb, hyne, hyk⟩ := (C6 y).mp hyws
                exact ⟨(C5 y).mpr ⟨hyb, hynE⟩, hyk⟩
            · rintro ⟨hyr, hyk⟩
              obtain ⟨hyb, hynE⟩ := (C5 y).mp hyr
              by_cases hyu : y.uid = w.uid
              · left
                exact List.inj_on_of_nodup_map huid hyb hw hyu
              · right
                exact ⟨(C6 y).mpr ⟨hyb, hyu, hyk⟩, hynE⟩
          · rw [C9a key hkey y]
            constructor
            · rintro ⟨hyb, hyne, hyk, hEfree⟩
              refine ⟨(C5 y).mpr ⟨hyb, ?_⟩, hyk⟩
              intro hyE
              exact (hEfree y hyE) rfl
            · rintro ⟨hyr, hyk⟩
              obtain ⟨hyb, hynE⟩ := (C5 y).mp hyr
              refine ⟨hyb, ?_, hyk, ?_⟩
              · intro hyu
                have hyw : y = w := List.inj_on_of_nodup_map huid hyb hw hyu
                subst hyw
                exact hkey hyk.symm
              · intro e heE hyu
                have heb : e ∈ s.backing := hEsub e heE
                have hye : y = e := List.inj_on_of_nodup_map huid hyb heb hyu
                exact hynE (hye ▸ heE)
        · rw [C9b iid key hiid y]
          constructor
          · rintro ⟨hmem, hEfree⟩
            rcases (hmain iid key y).mp hmem with ⟨d', hcase, hid, hkey⟩
            have hd'ne : d' ≠ d := fun h => hiid (by rw [← hid, h])
            refine ⟨d', ?_, hid, hkey⟩
            rcases hcase with ⟨hmem', hyb⟩ | ⟨hmem', hy2⟩
            · left
              refine ⟨List.mem_append_left _ hmem', (C5 y).mpr ⟨hyb, ?_⟩⟩
              intro hyE
              exact hEfree y hyE rfl
            · have hmem'' : d' ∈ rest := by
                rcases List.mem_cons.mp hmem' with h | h
                · exact absurd h hd'ne
                · exact h
              right
              refine ⟨hmem'', ?_⟩
              rcases hy2 with ⟨hyb, hyne⟩ | hyo
              · left
                refine ⟨(C5 y).mpr ⟨hyb, ?_⟩, hyne⟩
                intro hyE
                exact hEfree y hyE rfl
              · right
                exact hyo
          · rintro ⟨d', hcase, hid, hkey⟩
            have hd'ne : d' ≠ d := fun h => hiid (by rw [← hid, h])
            have hEfree : (((y ∈ s.backing) ∧
                y ∉ (if d.unique && !(S1.bucketOf d.id
                  (w.values.getD d.n "")).isEmpty then
                    S1.bucketOf d.id (w.values.getD d.n "") else [])) ∨
                ow = some y) →
                ∀ e ∈ (if d.unique && !(S1.bucketOf d.id
                  (w.values.getD d.n "")).isEmpty then
                    S1.bucketOf d.id (w.values.getD d.n "") else []),
                  y.uid ≠ e.uid := by
              rintro (⟨hyb, hynE⟩ | hyo) e heE hyu
              · exact hynE ((List.inj_on_of_nodup_map huid hyb (hEsub e heE)
                  hyu) ▸ heE)
              · exact ((how y hyo).1 e (hEsub e heE)) hyu.symm
            constructor
            · apply (hmain iid key y).mpr
              refine ⟨d', ?_, hid, hkey⟩
              rcases hcase with ⟨hmem', hyr⟩ | ⟨hmem', hy2⟩
              · have hmem'' : d' ∈ done := by
                  rcases List.mem_append.mp hmem' with h | h
                  · exact h
                  · rw [List.mem_singleton] at h
                    exact absurd h hd'ne
                left
                exact ⟨hmem'', ((C5 y).mp hyr).1⟩
              · right
                refine ⟨List.mem_cons_of_mem _ hmem', ?_⟩
                rcases hy2 with ⟨hyr, hyne⟩ | hyo
                · left
                  exact ⟨((C5 y).mp hyr).1, hyne⟩
                · right
                  exact hyo
            · rcases hcase with ⟨-, hyr⟩ | ⟨-, hy2⟩
              · exact hEfree (Or.inl ((C5 y).mp hyr))
              · rcases hy2 with ⟨hyr, -⟩ | hyo
                · exact hEfree (Or.inl ((C5 y).mp hyr))
                · exact hEfree (Or.inr hyo)
      have how2 : ∀ o, ow = some o →
          ((∀ y ∈ (S1.addToIndex d.id (w.values.getD d.n "") w).1.backing,
            y.uid ≠ o.uid) ∧ o.uid ≠ w.uid) := by
        intro o ho
        obtain ⟨h1, h2⟩ := how o ho
        exact ⟨fun y hy => h1 y ((C5 y).mp hy).1, h2⟩
      obtain ⟨F1, F2, F3, F4, F5, F6, F7, F8, F9, F10, F11, F12⟩ :=
        ih (S1.addToIndex d.id (w.values.getD d.n "") w).1
          (S1.addToIndex d.id (w.values.getD d.n "") w).2 (done ++ [d])
          (by rw [T1, B2]; exact hswo)
          (by rw [T1, B2]; exact C14)
          C15 hw2 hsplit2 hids3 hmain2 C11 (T12 hout) (T13 hinn) how2
      have hcfg2 : (S1.addToIndex d.id (w.values.getD d.n "") w).1.cfg = s.cfg := by
        rw [T1, B2]
      refine ⟨?_, ?_, ?_, ?_, ?_, F6, ?_, ?_, ?_, F10, F11, F12⟩
      · rw [F1, T1, B2]
      · rw [F2, T2, B3]
      · rw [F3, T3, B5]
      · rw [F4, T4, B6]
      · rw [hcfg2] at F5
        exact F5
      · -- final tree membership
        intro y
        rw [F7 y, C5 y]
        constructor
        · rintro ⟨⟨hyb, hynE⟩, hnEv⟩
          refine ⟨hyb, ?_⟩
          rintro ⟨hne, d', hd', hu, hk⟩
          rcases List.mem_cons.mp hd' with h | h
          · subst h
            exact hynE ((C7 y).mpr ⟨hu, (C6 y).mpr ⟨hyb, hne, hk⟩⟩)
          · exact hnEv ⟨hne, d', h, hu, hk⟩
        · rintro ⟨hyb, hnEv⟩
          have hynE : y ∉ (if d.unique && !(S1.bucketOf d.id
              (w.values.getD d.n "")).isEmpty then
                S1.bucketOf d.id (w.values.getD d.n "") else []) := by
            intro hyE
            obtain ⟨hu, hyws⟩ := (C7 y).mp hyE
            obtain ⟨-, hne, hk⟩ := (C6 y).mp hyws
            exact hnEv ⟨hne, d, List.mem_cons_self _ _, hu, hk⟩
          refine ⟨⟨hyb, hynE⟩, ?_⟩
          rintro ⟨hne, d', hd', hu, hk⟩
          exact hnEv ⟨hne, d', List.mem_cons_of_mem _ hd', hu, hk⟩
      · -- final bucket correspondence
        have : (done ++ [d]) ++ rest = done ++ d :: rest := by
          rw [List.append_assoc, List.singleton_append]
        rw [← this]
        exact F8
      · -- happenings
        obtain ⟨ex2, hL, cov2⟩ := F9
        refine ⟨(if d.unique && !(S1.bucketOf d.id
            (w.values.getD d.n "")).isEmpty then
              S1.bucketOf d.id (w.values.getD d.n "") else []).map
            (fun bw => ⟨Event.update, some bw.item, some w.item, w.stats⟩) ++ ex2,
          ?_, ?_⟩
        · rw [hL, C10, List.append_assoc]
        · rintro y hyb ⟨hne, d', hd', hu, hk⟩
          by_cases hyE : y ∈ (if d.unique && !(S1.bucketOf d.id
              (w.values.getD d.n "")).isEmpty then
                S1.bucketOf d.id (w.values.getD d.n "") else [])
          · exact List.mem_append_left _ (List.mem_map_of_mem _ hyE)
          · rcases List.mem_cons.mp hd' with h | h
            · subst h
              exact absurd ((C7 y).mpr ⟨hu, (C6 y).mpr ⟨hyb, hne, hk⟩⟩) hyE
            · refine List.mem_append_right _ ?_
              exact cov2 y ((C5 y).mpr ⟨hyb, hyE⟩) ⟨hne, d', h, hu, hk⟩
    exact MAIN _ B1 B2 B3 B4 B5 B6 hI hII hIII (Aout houter) (Ainn hinner)

theorem map_noop {l : List (Wrap α)} {f : Wrap α → Wrap α}
    (h : ∀ a ∈ l, f a = a) : l.map f = l := by
  induction l with
  | nil => rfl
  | cons x xs ih =>
    rw [List.map_cons, h x (List.mem_cons_self _ _),
      ih (fun a ha => h a (List.mem_cons_of_mem _ ha))]

theorem treeSorted_congr {l l' : List (Wrap α)}
    (h : l.map (·.item) = l'.map (·.item)) (hs : TreeSorted less l) :
    TreeSorted less l' := by
  rw [TreeSorted] at hs ⊢
  have h1 : (l.map (·.item)).Pairwise (fun a b => less a b = true) :=
    List.pairwise_map.mpr hs
  rw [h] at h1
  exact List.pairwise_map.mp h1

theorem if_pair {c : Bool} {a : Store α} {w : Wrap α} {x y : AddResult α} :
    (if c = true then (a, w, x) else (a, w, y)) =
    (a, w, if c = true then x else y) := by
  cases c <;> rfl

/-- Characterisation of `addWrap`: the new wrap is inserted into the tree
(replacing one comparator-equal wrap, if present), every index bucket
gains it under its snapshot key, unique-key conflicts are evicted from
the whole store with Update happenings, and the tree/bucket
correspondence of the invariant is restored. -/
theorem addWrap_char (s : Store α) (w0 : Wrap α) (now : Int)
    (hinv : Inv s) (hswo : IsSWO s.cfg.less)
    (hfresh : ∀ y ∈ s.backing, y.uid ≠ w0.uid) :
    (s.addWrap w0 now).2.1.uid = w0.uid ∧
    (s.addWrap w0 now).2.1.item = w0.item ∧
    (s.addWrap w0 now).2.1.values = w0.values ∧
    (s.addWrap w0 now).1.cfg = s.cfg ∧
    (s.addWrap w0 now).1.indexes = s.indexes ∧
    (s.addWrap w0 now).1.nextUid = s.nextUid ∧
    (s.addWrap w0 now).1.used = true ∧
    TreeSorted s.cfg.less (s.addWrap w0 now).1.backing ∧
    ((s.addWrap w0 now).1.backing.map (·.uid)).Nodup ∧
    (s.addWrap w0 now).2.1 ∈ (s.addWrap w0 now).1.backing ∧
    (∀ y, y ∈ (s.addWrap w0 now).1.backing ↔
      (y = (s.addWrap w0 now).2.1 ∨ (y ∈ s.backing ∧
        (∀ o, (s.addWrap w0 now).2.2 = AddResult.replaced o → y ≠ o) ∧
        ¬ EvictedBy s.indexes (s.addWrap w0 now).2.1 y))) ∧
    (∀ iid key y, y ∈ (s.addWrap w0 now).1.bucketOf iid key ↔
      (y ∈ (s.addWrap w0 now).1.backing ∧ ∃ d ∈ s.indexes, d.id = iid ∧
        y.values.getD d.n "" = key)) ∧
    (∃ extra, (s.addWrap w0 now).1.happens = s.happens ++ extra ∧
      ∀ y ∈ s.backing, EvictedBy s.indexes (s.addWrap w0 now).2.1 y →
        (∀ o, (s.addWrap w0 now).2.2 = AddResult.replaced o → y ≠ o) →
        (⟨Event.update, some y.item, some (s.addWrap w0 now).2.1.item,
          (s.addWrap w0 now).2.1.stats⟩ : Happening α) ∈ extra) ∧
    (∀ iid k, (((s.addWrap w0 now).1.bucketOf iid k).map (·.uid)).Nodup) ∧
    ((s.addWrap w0 now).1.index.map Prod.fst).Nodup ∧
    (∀ e ∈ (s.addWrap w0 now).1.index, (e.2.map Prod.fst).Nodup) ∧
    (∀ o, (s.addWrap w0 now).2.2 = AddResult.replaced o →
      (o ∈ s.backing ∧ beqv s.cfg.less o.item w0.item)) := by
  cases hR2 : (treeInsert s.cfg.less w0 s.backing).2 with
  | none =>
    obtain ⟨A, B, hl, ht, hA, hB⟩ :=
      treeInsert_none (show treeInsert s.cfg.less w0 s.backing =
        ((treeInsert s.cfg.less w0 s.backing).1, none) by rw [← hR2])
    have hABfresh : ∀ a ∈ A ++ B, a.uid ≠ w0.uid := by
      intro a ha
      refine hfresh a ?_
      rw [hl]
      exact ha
    have ht2 : (treeInsert s.cfg.less w0 s.backing).1.map
        (fun x => if x.uid = w0.uid then
          { w0 with stats := w0.stats.writtenAt now } else x) =
        A ++ { w0 with stats := w0.stats.writtenAt now } :: B := by
      have hmA : A.map (fun x => if x.uid = w0.uid then
          { w0 with stats := w0.stats.writtenAt now } else x) = A :=
        map_noop (fun a ha =>
          if_neg (hABfresh a (List.mem_append_left _ ha)))
      have hmB : B.map (fun x => if x.uid = w0.uid then
          { w0 with stats := w0.stats.writtenAt now } else x) = B :=
        map_noop (fun b hb =>
          if_neg (hABfresh b (List.mem_append_right _ hb)))
      rw [ht, List.map_append, List.map_cons, hmA, hmB, if_pos rfl]
    have hsorted1 : TreeSorted s.cfg.less (treeInsert s.cfg.less w0 s.backing).1 :=
      treeInsert_none_sorted hswo hinv.sorted
        (show treeInsert s.cfg.less w0 s.backing =
          ((treeInsert s.cfg.less w0 s.backing).1, none) by rw [← hR2])
    have hsorted2 : TreeSorted s.cfg.less
        (A ++ { w0 with stats := w0.stats.writtenAt now } :: B) := by
      refine treeSorted_congr ?_ hsorted1
      rw [ht]
      simp
    have huid2 : ((A ++ { w0 with stats := w0.stats.writtenAt now } :: B).map
        (·.uid)).Nodup := by
      have hb : ((A ++ B).map (·.uid)).Nodup := by
        rw [← hl]
        exact hinv.uidNodup
      rw [List.map_append, List.map_cons, List.nodup_middle, List.nodup_cons,
        ← List.map_append]
      refine ⟨?_, hb⟩
      intro hc
      rcases List.mem_map.mp hc with ⟨a, ha, hau⟩
      exact hABfresh a ha hau
    have hmem2 : ∀ y, y ∈ A ++ { w0 with stats := w0.stats.writtenAt now } :: B ↔
        (y = { w0 with stats := w0.stats.writtenAt now } ∨ y ∈ s.backing) := by
      intro y
      rw [hl]
      constructor
      · intro hy
        rcases List.mem_append.mp hy with h | h
        · exact Or.inr (List.mem_append_left _ h)
        · rcases List.mem_cons.mp h with rfl | h'
          · exact Or.inl rfl
          · exact Or.inr (List.mem_append_right _ h')
      · rintro (rfl | hy)
        · exact List.mem_append_right _ (List.mem_cons_self _ _)
        · rcases List.mem_append.mp hy with h | h
          · exact List.mem_append_left _ h
          · exact List.mem_append_right _ (List.mem_cons_of_mem _ h)
    have hout : s.addWrap w0 now =
        ((Store.addWrapLoop { w0 with stats := w0.stats.writtenAt now } none
            s.indexes { s with used := true, backing := A ++ { w0 with stats := w0.stats.writtenAt now } :: B }
            false).1,
         { w0 with stats := w0.stats.writtenAt now },
         if (Store.addWrapLoop { w0 with stats := w0.stats.writtenAt now } none
            s.indexes { s with used := true, backing := A ++ { w0 with stats := w0.stats.writtenAt now } :: B }
            false).2
         then AddResult.evicted else AddResult.fresh) := by
      unfold Store.addWrap
      dsimp only
      rw [hR2]
      dsimp only
      rw [ht2, if_pair]
    rw [hout]
    dsimp only
    have hmainL : LoopMain ({ s with used := true, backing := A ++ { w0 with stats := w0.stats.writtenAt now } :: B } : Store α)
        [] s.indexes { w0 with stats := w0.stats.writtenAt now } none := by
      intro iid key y
      have hbk : ({ s with used := true, backing := A ++ { w0 with stats := w0.stats.writtenAt now } :: B } :
            Store α).bucketOf iid key = s.bucketOf iid key := rfl
      rw [hbk, hinv.main iid key y]
      constructor
      · rintro ⟨hyb, d, hd, hid, hk⟩
        refine ⟨d, Or.inr ⟨hd, Or.inl ⟨?_, hfresh y hyb⟩⟩, hid, hk⟩
        exact (hmem2 y).mpr (Or.inr hyb)
      · rintro ⟨d, hcase, hid, hk⟩
        rcases hcase with ⟨hd, -⟩ | ⟨hd, hy2⟩
        · cases hd
        · rcases hy2 with ⟨hyt, hyu⟩ | ho
          · rcases (hmem2 y).mp hyt with rfl | hyb
            · exact absurd rfl hyu
            · exact ⟨hyb, d, hd, hid, hk⟩
          · cases ho
    obtain ⟨L1, L2, L3, L4, L5, L6, L7, L8, L9, L10, L11, L12⟩ :=
      addWrapLoop_char { w0 with stats := w0.stats.writtenAt now } none s.indexes
        { s with used := true, backing := A ++ { w0 with stats := w0.stats.writtenAt now } :: B }
        false [] hswo hsorted2 huid2
        (List.mem_append_right _ (List.mem_cons_self _ _))
        (List.nil_append _).symm hinv.idsNodup hmainL hinv.bnodup
        hinv.outerNodup hinv.innerNodup (fun o ho => nomatch ho)
    have hnotrep : ∀ (o : Wrap α) (b : Bool),
        ¬ ((if b then AddResult.evicted else AddResult.fresh) =
          AddResult.replaced o) := by
      intro o b ho
      cases b <;> simp at ho
    have hWmem : { w0 with stats := w0.stats.writtenAt now } ∈
        (Store.addWrapLoop { w0 with stats := w0.stats.writtenAt now } none
          s.indexes { s with used := true, backing := A ++ { w0 with stats := w0.stats.writtenAt now } :: B }
          false).1.backing := by
      refine (L7 _).mpr ⟨List.mem_append_right _ (List.mem_cons_self _ _), ?_⟩
      rintro ⟨hne, -⟩
      exact hne rfl
    refine ⟨rfl, rfl, rfl, L1, L2, L3, L4, L5, L6, hWmem, ?_, ?_, ?_, L10, L11, L12,
      fun o ho => absurd ho (hnotrep o _)⟩
    · intro y
      rw [L7 y]
      constructor
      · rintro ⟨hyt, hnE⟩
        rcases (hmem2 y).mp hyt with rfl | hyb
        · exact Or.inl rfl
        · exact Or.inr ⟨hyb, fun o ho => absurd ho (hnotrep o _), hnE⟩
      · rintro (rfl | ⟨hyb, -, hnE⟩)
        · exact ⟨List.mem_append_right _ (List.mem_cons_self _ _), by
            rintro ⟨hne, -⟩
            exact hne rfl⟩
        · exact ⟨(hmem2 y).mpr (Or.inr hyb), hnE⟩
    · intro iid key y
      rw [L8 iid key y]
      constructor
      · rintro ⟨d, hcase, hid, hk⟩
        rcases hcase with ⟨hd, hyb⟩ | ⟨hd, -⟩
        · rw [List.nil_append] at hd
          exact ⟨hyb, d, hd, hid, hk⟩
        · cases hd
      · rintro ⟨hyb, d, hd, hid, hk⟩
        refine ⟨d, Or.inl ⟨?_, hyb⟩, hid, hk⟩
        rw [List.nil_append]
        exact hd
    · obtain ⟨ex, hex, cov⟩ := L9
      refine ⟨ex, hex, ?_⟩
      intro y hyb hEv hrep
      exact cov y ((hmem2 y).mpr (Or.inr hyb)) hEv
  | some o =>
    obtain ⟨A, B, hl, ht, hA, hbe⟩ :=
      treeInsert_some (show treeInsert s.cfg.less w0 s.backing =
        ((treeInsert s.cfg.less w0 s.backing).1, some o) by rw [← hR2])
    have homem : o ∈ s.backing := by
      rw [hl]
      exact List.mem_append_right _ (List.mem_cons_self _ _)
    have hABsub : ∀ a ∈ A ++ B, a ∈ s.backing := by
      intro a ha
      rw [hl]
      rcases List.mem_append.mp ha with h | h
      · exact List.mem_append_left _ h
      · exact List.mem_append_right _ (List.mem_cons_of_mem _ h)
    have hABfresh : ∀ a ∈ A ++ B, a.uid ≠ w0.uid :=
      fun a ha => hfresh a (hABsub a ha)
    have houidAB : ∀ a ∈ A ++ B, a.uid ≠ o.uid := by
      have hb := hinv.uidNodup
      rw [hl, List.map_append, List.map_cons, List.nodup_middle,
        List.nodup_cons, ← List.map_append] at hb
      intro a ha hc
      exact hb.1 (hc ▸ List.mem_map_of_mem _ ha)
    have ht2 : (treeInsert s.cfg.less w0 s.backing).1.map
        (fun x => if x.uid = w0.uid then
          { w0 with stats := o.stats.writtenAt now } else x) =
        A ++ { w0 with stats := o.stats.writtenAt now } :: B := by
      have hmA : A.map (fun x => if x.uid = w0.uid then
          { w0 with stats := o.stats.writtenAt now } else x) = A :=
        map_noop (fun a ha =>
          if_neg (hABfresh a (List.mem_append_left _ ha)))
      have hmB : B.map (fun x => if x.uid = w0.uid then
          { w0 with stats := o.stats.writtenAt now } else x) = B :=
        map_noop (fun b hb =>
          if_neg (hABfresh b (List.mem_append_right _ hb)))
      rw [ht, List.map_append, List.map_cons, hmA, hmB, if_pos rfl]
    have hsorted1 : TreeSorted s.cfg.less (treeInsert s.cfg.less w0 s.backing).1 :=
      treeInsert_some_sorted hswo hinv.sorted
        (show treeInsert s.cfg.less w0 s.backing =
          ((treeInsert s.cfg.less w0 s.backing).1, some o) by rw [← hR2])
    have hsorted2 : TreeSorted s.cfg.less
        (A ++ { w0 with stats := o.stats.writtenAt now } :: B) := by
      refine treeSorted_congr ?_ hsorted1
      rw [ht]
      simp
    have huid2 : ((A ++ { w0 with stats := o.stats.writtenAt now } :: B).map
        (·.uid)).Nodup := by
      have hb := hinv.uidNodup
      rw [hl, List.map_append, List.map_cons, List.nodup_middle,
        List.nodup_cons, ← List.map_append] at hb
      rw [List.map_append, List.map_cons, List.nodup_middle, List.nodup_cons,
        ← List.map_append]
      refine ⟨?_, hb.2⟩
      intro hc
      rcases List.mem_map.mp hc with ⟨a, ha, hau⟩
      exact hABfresh a ha hau
    have hmem2 : ∀ y, y ∈ A ++ { w0 with stats := o.stats.writtenAt now } :: B ↔
        (y = { w0 with stats := o.stats.writtenAt now } ∨
          (y ∈ s.backing ∧ y ≠ o)) := by
      intro y
      constructor
      · intro hy
        rcases List.mem_append.mp hy with h | h
        · refine Or.inr ⟨hABsub y (List.mem_append_left _ h), ?_⟩
          intro hc
          exact houidAB y (List.mem_append_left _ h) (hc ▸ rfl)
        · rcases List.mem_cons.mp h with rfl | h'
          · exact Or.inl rfl
          · refine Or.inr ⟨hABsub y (List.mem_append_right _ h'), ?_⟩
            intro hc
            exact houidAB y (List.mem_append_right _ h') (hc ▸ rfl)
      · rintro (rfl | ⟨hyb, hyo⟩)
        · exact List.mem_append_right _ (List.mem_cons_self _ _)
        · rw [hl] at hyb
          rcases List.mem_append.mp hyb with h | h
          · exact List.mem_append_left _ h
          · rcases List.mem_cons.mp h with rfl | h'
            · exact absurd rfl hyo
            · exact List.mem_append_right _ (List.mem_cons_of_mem _ h')
    have hout : s.addWrap w0 now =
        ((Store.addWrapLoop { w0 with stats := o.stats.writtenAt now } (some o)
            s.indexes { s with used := true, backing := A ++ { w0 with stats := o.stats.writtenAt now } :: B }
            false).1,
         { w0 with stats := o.stats.writtenAt now },
         AddResult.replaced o) := by
      unfold Store.addWrap
      dsimp only
      rw [hR2]
      dsimp only
      rw [ht2]
    rw [hout]
    dsimp only
    have hmainL : LoopMain ({ s with used := true, backing := A ++ { w0 with stats := o.stats.writtenAt now } :: B } : Store α)
        [] s.indexes { w0 with stats := o.stats.writtenAt now } (some o) := by
      intro iid key y
      have hbk : ({ s with used := true, backing := A ++ { w0 with stats := o.stats.writtenAt now } :: B } :
            Store α).bucketOf iid key = s.bucketOf iid key := rfl
      rw [hbk, hinv.main iid key y]
      constructor
      · rintro ⟨hyb, d, hd, hid, hk⟩
        by_cases hyo : y = o
        · exact ⟨d, Or.inr ⟨hd, Or.inr (by rw [hyo])⟩, hid, hk⟩
        · exact ⟨d, Or.inr ⟨hd, Or.inl ⟨(hmem2 y).mpr (Or.inr ⟨hyb, hyo⟩),
            hfresh y hyb⟩⟩, hid, hk⟩
      · rintro ⟨d, hcase, hid, hk⟩
        rcases hcase with ⟨hd, -⟩ | ⟨hd, hy2⟩
        · cases hd
        · rcases hy2 with ⟨hyt, hyu⟩ | ho
          · rcases (hmem2 y).mp hyt with rfl | ⟨hyb, -⟩
            · exact absurd rfl hyu
            · exact ⟨hyb, d, hd, hid, hk⟩
          · injection ho with ho'
            subst ho'
            exact ⟨homem, d, hd, hid, hk⟩
    have howL : ∀ o', (some o : Option (Wrap α)) = some o' →
        ((∀ y ∈ ({ s with used := true, backing := A ++ { w0 with stats := o.stats.writtenAt now } :: B } :
            Store α).backing, y.uid ≠ o'.uid) ∧
          o'.uid ≠ ({ w0 with stats := o.stats.writtenAt now } : Wrap α).uid) := by
      intro o' ho'
      injection ho' with hh
      subst hh
      constructor
      · intro y hy
        rcases (hmem2 y).mp hy with rfl | ⟨hyb, hyo⟩
        · exact Ne.symm (hfresh o homem)
        · intro hc
          exact hyo (hinv.uid_inj hyb homem hc)
      · exact hfresh o homem
    obtain ⟨L1, L2, L3, L4, L5, L6, L7, L8, L9, L10, L11, L12⟩ :=
      addWrapLoop_char { w0 with stats := o.stats.writtenAt now } (some o)
        s.indexes { s with used := true, backing := A ++ { w0 with stats := o.stats.writtenAt now } :: B }
        false [] hswo hsorted2 huid2
        (List.mem_append_right _ (List.mem_cons_self _ _))
        (List.nil_append _).symm hinv.idsNodup hmainL hinv.bnodup
        hinv.outerNodup hinv.innerNodup howL
    have hrepiff : ∀ y : Wrap α,
        (∀ o', AddResult.replaced (α := α) o = AddResult.replaced o' → y ≠ o') ↔
        y ≠ o := by
      intro y
      constructor
      · intro h
        exact h o rfl
      · intro h o' ho'
        injection ho' with hh
        subst hh
        exact h
    have hWmem : { w0 with stats := o.stats.writtenAt now } ∈
        (Store.addWrapLoop { w0 with stats := o.stats.writtenAt now } (some o)
          s.indexes { s with used := true, backing := A ++ { w0 with stats := o.stats.writtenAt now } :: B }
          false).1.backing := by
      refine (L7 _).mpr ⟨List.mem_append_right _ (List.mem_cons_self _ _), ?_⟩
      rintro ⟨hne, -⟩
      exact hne rfl
    refine ⟨rfl, rfl, rfl, L1, L2, L3, L4, L5, L6, hWmem, ?_, ?_, ?_, L10, L11, L12,
      ?_⟩
    · intro y
      rw [L7 y]
      constructor
      · rintro ⟨hyt, hnE⟩
        rcases (hmem2 y).mp hyt with rfl | ⟨hyb, hyo⟩
        · exact Or.inl rfl
        · exact Or.inr ⟨hyb, (hrepiff y).mpr hyo, hnE⟩
      · rintro (rfl | ⟨hyb, hrep, hnE⟩)
        · exact ⟨List.mem_append_right _ (List.mem_cons_self _ _), by
            rintro ⟨hne, -⟩
            exact hne rfl⟩
        · exact ⟨(hmem2 y).mpr (Or.inr ⟨hyb, (hrepiff y).mp hrep⟩), hnE⟩
    · intro iid key y
      rw [L8 iid key y]
      constructor
      · rintro ⟨d, hcase, hid, hk⟩
        rcases hcase with ⟨hd, hyb⟩ | ⟨hd, -⟩
        · rw [List.nil_append] at hd
          exact ⟨hyb, d, hd, hid, hk⟩
        · cases hd
      · rintro ⟨hyb, d, hd, hid, hk⟩
        refine ⟨d, Or.inl ⟨?_, hyb⟩, hid, hk⟩
        rw [List.nil_append]
        exact hd
    · obtain ⟨ex, hex, cov⟩ := L9
      refine ⟨ex, hex, ?_⟩
      intro y hyb hEv hrep
      exact cov y ((hmem2 y).mpr (Or.inr ⟨hyb, (hrepiff y).mp hrep⟩)) hEv
    · intro o' ho'
      injection ho' with hh
      subst hh
      exact ⟨homem, hbe⟩

theorem send_cfg (s : Store α) (h : Happening α) : (s.send h).cfg = s.cfg := rfl

theorem evictLoop_cfg (w : Wrap α) (targets : List (Wrap α)) (s : Store α) :
    (Store.evictLoop w targets s).1.cfg = s.cfg := by
  induction targets generalizing s with
  | nil => rfl
  | cons bw rest ih =>
    unfold Store.evictLoop
    cases hR : (s.rmWrap bw.item).2 with
    | some x =>
      dsimp only
      rw [hR]
      dsimp only
      rw [ih, send_cfg, rmWrap_cfg]
    | none =>
      dsimp only
      rw [hR]
      dsimp only
      rw [ih, rmWrap_cfg]

theorem setBucket_cfg (s : Store α) (iid key : String) (b : List (Wrap α)) :
    (s.setBucket iid key b).cfg = s.cfg := rfl

theorem addToIndex_cfg (s : Store α) (iid key : String) (w : Wrap α) :
    (s.addToIndex iid key w).1.cfg = s.cfg := by
  unfold Store.addToIndex
  cases s.indexes.find? (fun d => d.id == iid) with
  | none => rfl
  | some d =>
    dsimp only
    by_cases hc : (d.unique && !(s.bucketOf iid key).isEmpty) = true
    · rw [if_pos hc]
      rw [setBucket_cfg, evictLoop_cfg]
    · rw [if_neg hc]
      rfl

theorem addWrapLoop_cfg (w : Wrap α) (ow : Option (Wrap α))
    (ds : List IndexDescr) (s : Store α) (em : Bool) :
    (Store.addWrapLoop w ow ds s em).1.cfg = s.cfg := by
  induction ds generalizing s em with
  | nil => rfl
  | cons d rest ih =>
    unfold Store.addWrapLoop
    dsimp only
    rw [ih, addToIndex_cfg]
    cases ow with
    | none => rfl
    | some o => exact rmFromIndex_cfg _ _ _ _

theorem addWrap_cfg (s : Store α) (w0 : Wrap α) (now : Int) :
    (s.addWrap w0 now).1.cfg = s.cfg := by
  unfold Store.addWrap
  dsimp only
  cases hx : (treeInsert s.cfg.less w0 s.backing).2 with
  | none =>
    dsimp only
    rw [if_pair]
    dsimp only
    rw [addWrapLoop_cfg]
  | some o =>
    dsimp only
    rw [addWrapLoop_cfg]

theorem put_cfg (s : Store α) (item : α) (now : Int) :
    (s.put item now).1.cfg = s.cfg := by
  unfold Store.put
  dsimp only
  cases hx : (({ s with nextUid := s.nextUid + 1 } : Store α).addWrap
      (s.wrapIt item now) now).2.2 with
  | replaced o =>
    dsimp only
    rw [send_cfg]
    exact addWrap_cfg _ _ _
  | evicted =>
    dsimp only
    exact addWrap_cfg _ _ _
  | fresh =>
    dsimp only
    rw [send_cfg]
    exact addWrap_cfg _ _ _

theorem delete_cfg (s : Store α) (probe : α) :
    (s.delete probe).1.cfg = s.cfg := by
  unfold Store.delete
  dsimp only
  cases hx : (s.rmWrap probe).2 with
  | some w =>
    dsimp only
    rw [send_cfg, rmWrap_cfg]
  | none =>
    dsimp only
    rw [rmWrap_cfg]

theorem foldl_rm_send_cfg (ws : List (Wrap α)) (s : Store α) :
    (ws.foldl (fun acc w =>
      match (acc.rmWrap w.item).2 with
      | some o => (acc.rmWrap w.item).1.send
          ⟨Event.expiry, some o.item, none, o.stats⟩
      | none => (acc.rmWrap w.item).1) s).cfg = s.cfg := by
  induction ws generalizing s with
  | nil => rfl
  | cons w rest ih =>
    rw [List.foldl_cons, ih]
    cases hR : (s.rmWrap w.item).2 with
    | some o =>
      dsimp only
      rw [send_cfg, rmWrap_cfg]
    | none =>
      dsimp only
      rw [rmWrap_cfg]

theorem expire_cfg (s : Store α) (now : Int) :
    (s.expire now).1.cfg = s.cfg := by
  unfold Store.expire
  dsimp only
  exact foldl_rm_send_cfg _ _

theorem step_cfg (s : Store α) (op : Op α) : (s.step op).cfg = s.cfg := by
  cases op with
  | put x now => exact put_cfg s x now
  | del x => exact delete_cfg s x
  | expire now => exact expire_cfg s now

/-- `send` touches only the happenings channel, so the invariant is
unaffected. -/
theorem send_inv (s : Store α) (h : Happening α) (hinv : Inv s) :
    Inv (s.send h) :=
  ⟨hinv.wfIdx, hinv.idsNodup, hinv.sorted, hinv.uidNodup, hinv.uidBound,
   hinv.valLen, hinv.main, hinv.bnodup, hinv.outerNodup, hinv.innerNodup⟩

/-- `addWrap` preserves the store invariant when the incoming wrap has a
fresh uid below the counter and a full key snapshot. -/
theorem addWrap_inv (s : Store α) (w0 : Wrap α) (now : Int)
    (hinv : Inv s) (hswo : IsSWO s.cfg.less)
    (hfresh : ∀ y ∈ s.backing, y.uid ≠ w0.uid)
    (hbound : w0.uid < s.nextUid)
    (hwlen : w0.values.length = s.indexes.length) :
    Inv (s.addWrap w0 now).1 := by
  obtain ⟨A1, A2, A3, A4, A5, A6, A7, A8, A9, A10, A11, A12, A13, A14, A15,
    A16, A17⟩ := addWrap_char s w0 now hinv hswo hfresh
  refine ⟨?_, ?_, ?_, A9, ?_, ?_, ?_, A14, A15, A16⟩
  · show (s.addWrap w0 now).1.indexes.map (·.n) = _
    rw [A5]
    exact hinv.wfIdx
  · show ((s.addWrap w0 now).1.indexes.map (·.id)).Nodup
    rw [A5]
    exact hinv.idsNodup
  · show TreeSorted (s.addWrap w0 now).1.cfg.less (s.addWrap w0 now).1.backing
    rw [A4]
    exact A8
  · intro y hy
    show y.uid < (s.addWrap w0 now).1.nextUid
    rw [A6]
    rcases (A11 y).mp hy with rfl | ⟨hyb, -, -⟩
    · rw [A1]
      exact hbound
    · exact hinv.uidBound y hyb
  · intro y hy
    show y.values.length = (s.addWrap w0 now).1.indexes.length
    rw [A5]
    rcases (A11 y).mp hy with rfl | ⟨hyb, -, -⟩
    · rw [A3]
      exact hwlen
    · exact hinv.valLen y hyb
  · intro iid key y
    show y ∈ (s.addWrap w0 now).1.bucketOf iid key ↔
      (y ∈ (s.addWrap w0 now).1.backing ∧
        ∃ d ∈ (s.addWrap w0 now).1.indexes, d.id = iid ∧
          y.values.getD d.n "" = key)
    rw [A5]
    exact A12 iid key y

theorem put_inv (s : Store α) (item : α) (now : Int) (hinv : Inv s)
    (hswo : IsSWO s.cfg.less) : Inv (s.put item now).1 := by
  have hinv0 : Inv ({ s with nextUid := s.nextUid + 1 } : Store α) :=
    ⟨hinv.wfIdx, hinv.idsNodup, hinv.sorted, hinv.uidNodup,
     fun w hw => Nat.lt_succ_of_lt (hinv.uidBound w hw),
     hinv.valLen, hinv.main, hinv.bnodup, hinv.outerNodup, hinv.innerNodup⟩
  have hAinv2 : Inv (({ s with nextUid := s.nextUid + 1 } : Store α).addWrap
      (s.wrapIt item now) now).1 := by
    refine addWrap_inv _ _ _ hinv0 hswo ?_ ?_ ?_
    · intro y hy
      exact Nat.ne_of_lt (hinv.uidBound y hy)
    · exact Nat.lt_succ_self _
    · show (s.indexes.map _).length = s.indexes.length
      exact List.length_map _ _
  unfold Store.put
  dsimp only
  cases hx : (({ s with nextUid := s.nextUid + 1 } : Store α).addWrap
      (s.wrapIt item now) now).2.2 with
  | replaced o =>
    dsimp only
    exact send_inv _ _ hAinv2
  | evicted =>
    dsimp only
    exact hAinv2
  | fresh =>
    dsimp only
    exact send_inv _ _ hAinv2

theorem delete_inv (s : Store α) (probe : α) (hinv : Inv s) :
    Inv (s.delete probe).1 := by
  unfold Store.delete
  dsimp only
  cases hx : (s.rmWrap probe).2 with
  | some w =>
    dsimp only
    exact send_inv _ _ (rmWrap_inv s probe hinv)
  | none =>
    dsimp only
    exact rmWrap_inv s probe hinv

theorem foldl_rm_send_inv (ws : List (Wrap α)) (s : Store α) (hinv : Inv s) :
    Inv (ws.foldl (fun acc w =>
      match (acc.rmWrap w.item).2 with
      | some o => (acc.rmWrap w.item).1.send
          ⟨Event.expiry, some o.item, none, o.stats⟩
      | none => (acc.rmWrap w.item).1) s) := by
  induction ws generalizing s with
  | nil => exact hinv
  | cons w rest ih =>
    rw [List.foldl_cons]
    apply ih
    cases hR : (s.rmWrap w.item).2 with
    | some o =>
      dsimp only
      exact send_inv _ _ (rmWrap_inv s w.item hinv)
    | none =>
      dsimp only
      exact rmWrap_inv s w.item hinv

theorem expire_inv (s : Store α) (now : Int) (hinv : Inv s) :
    Inv (s.expire now).1 := by
  unfold Store.expire
  dsimp only
  exact foldl_rm_send_inv _ _ hinv

theorem step_inv (s : Store α) (op : Op α) (hinv : Inv s)
    (hswo : IsSWO s.cfg.less) : Inv (s.step op) := by
  cases op with
  | put x now => exact put_inv s x now hinv hswo
  | del x => exact delete_inv s x hinv
  | expire now => exact expire_inv s now hinv

theorem run_inv (ops : List (Op α)) (s : Store α) (hinv : Inv s)
    (hswo : IsSWO s.cfg.less) : Inv (s.run ops) := by
  induction ops generalizing s with
  | nil => exact hinv
  | cons op rest ih =>
    show Inv ((s.step op).run rest)
    refine ih (s.step op) (step_inv s op hinv hswo) ?_
    rw [step_cfg]
    exact hswo

theorem createIndex_ok (s : Store α) (fields : List String)
    (hused : s.used = false)
    (hnew : joinKeys fields ∉ s.indexes.map (·.id)) :
    s.createIndex fields = .ok { s with
      indexes := s.indexes ++ [{ n := s.indexes.length, id := joinKeys fields,
                                 fields := fields, unique := false }],
      cIndex := some (joinKeys fields) } := by
  unfold Store.createIndex
  rw [if_neg (by simp [hused])]
  have hf : s.indexes.find? (fun e => e.id == joinKeys fields) = none := by
    rw [List.find?_eq_none]
    intro d hd hc
    apply hnew
    have hd' : d.id = joinKeys fields := by simpa using hc
    exact hd' ▸ List.mem_map_of_mem _ hd
  dsimp only
  rw [hf]
  rfl

theorem uniqueIdx_ok (s : Store α) (cid : String) (hused : s.used = false)
    (hc : s.cIndex = some cid) :
    s.uniqueIdx = .ok { s with indexes := s.indexes.map (fun d => if d.id == cid then { d with unique := true } else d) } := by
  unfold Store.uniqueIdx
  rw [if_neg (by simp [hused]), hc]

theorem flip_n (k : String) (d : IndexDescr) :
    ((if d.id == k then { d with unique := true } else d) : IndexDescr).n = d.n := by
  by_cases h : (d.id == k) = true
  · rw [if_pos h]
  · rw [if_neg h]

theorem flip_id (k : String) (d : IndexDescr) :
    ((if d.id == k then { d with unique := true } else d) : IndexDescr).id = d.id := by
  by_cases h : (d.id == k) = true
  · rw [if_pos h]
  · rw [if_neg h]

/-- Setting up distinct indexes on a not-yet-used store only appends
well-numbered descriptors; nothing else changes. -/
theorem setupIndexes_char (setup : List (List String × Bool)) (s : Store α)
    (hused : s.used = false)
    (hwf : s.indexes.map (·.n) = List.range s.indexes.length)
    (hids : (s.indexes.map (·.id)).Nodup)
    (hdisj : ∀ p ∈ setup, joinKeys p.1 ∉ s.indexes.map (·.id))
    (hnodup : (setup.map (fun p => joinKeys p.1)).Nodup) :
    (s.setupIndexes setup).backing = s.backing ∧
    (s.setupIndexes setup).index = s.index ∧
    (s.setupIndexes setup).used = s.used ∧
    (s.setupIndexes setup).cfg = s.cfg ∧
    (s.setupIndexes setup).nextUid = s.nextUid ∧
    (s.setupIndexes setup).happens = s.happens ∧
    ((s.setupIndexes setup).indexes.map (·.n) =
      List.range (s.setupIndexes setup).indexes.length) ∧
    (((s.setupIndexes setup).indexes.map (·.id)).Nodup) := by
  induction setup generalizing s with
  | nil => exact ⟨rfl, rfl, rfl, rfl, rfl, rfl, hwf, hids⟩
  | cons p rest ih =>
    have hCI := createIndex_ok s p.1 hused (hdisj p (List.mem_cons_self _ _))
    rw [List.map_cons, List.nodup_cons] at hnodup
    have hwf1 : ((s.indexes ++ [({ n := s.indexes.length, id := joinKeys p.1, fields := p.1, unique := false } : IndexDescr)]).map (·.n)) =
        List.range ((s.indexes ++ [({ n := s.indexes.length, id := joinKeys p.1, fields := p.1, unique := false } : IndexDescr)]).length) := by
      rw [List.map_append, hwf, List.length_append, List.map_cons, List.map_nil,
        List.length_cons, List.length_nil, Nat.zero_add, List.range_succ]
    have hids1 : (((s.indexes ++ [({ n := s.indexes.length, id := joinKeys p.1, fields := p.1, unique := false } : IndexDescr)]).map (·.id))).Nodup := by
      rw [List.map_append, List.nodup_append]
      refine ⟨hids, by simp, ?_⟩
      intro a ha hb
      rw [List.map_cons, List.map_nil] at hb
      rcases List.mem_singleton.mp hb with rfl
      exact hdisj p (List.mem_cons_self _ _) ha
    have hdisj1 : ∀ q ∈ rest, joinKeys q.1 ∉
        ((s.indexes ++ [({ n := s.indexes.length, id := joinKeys p.1, fields := p.1, unique := false } : IndexDescr)]).map (·.id)) := by
      intro q hq hc
      rw [List.map_append, List.mem_append] at hc
      rcases hc with hc | hc
      · exact hdisj q (List.mem_cons_of_mem _ hq) hc
      · rw [List.map_cons, List.map_nil] at hc
        have hq2 : joinKeys q.1 = joinKeys p.1 := List.mem_singleton.mp hc
        exact hnodup.1 (hq2 ▸ List.mem_map_of_mem _ hq)
    by_cases hp : p.2 = true
    · have hUQ := uniqueIdx_ok ({ s with indexes := s.indexes ++ [({ n := s.indexes.length, id := joinKeys p.1, fields := p.1, unique := false } : IndexDescr)], cIndex := some (joinKeys p.1) } : Store α) (joinKeys p.1) hused rfl
      have hone : s.setupIndexes (p :: rest) = Store.setupIndexes
          ({ s with indexes := (s.indexes ++ [({ n := s.indexes.length, id := joinKeys p.1, fields := p.1, unique := false } : IndexDescr)]).map (fun d => if d.id == joinKeys p.1 then { d with unique := true } else d), cIndex := some (joinKeys p.1) } : Store α) rest := by
        show (p :: rest).foldl _ s = _
        rw [List.foldl_cons, hCI]
        dsimp only
        rw [if_pos hp, hUQ]
        dsimp only
        rfl
      rw [hone]
      have hmapn : (((s.indexes ++ [({ n := s.indexes.length, id := joinKeys p.1, fields := p.1, unique := false } : IndexDescr)]).map (fun d => if d.id == joinKeys p.1 then { d with unique := true } else d)).map (·.n)) =
          ((s.indexes ++ [({ n := s.indexes.length, id := joinKeys p.1, fields := p.1, unique := false } : IndexDescr)]).map (·.n)) := by
        rw [List.map_map]
        exact List.map_congr_left (fun d _ => flip_n (joinKeys p.1) d)
      have hmapid : (((s.indexes ++ [({ n := s.indexes.length, id := joinKeys p.1, fields := p.1, unique := false } : IndexDescr)]).map (fun d => if d.id == joinKeys p.1 then { d with unique := true } else d)).map (·.id)) =
          ((s.indexes ++ [({ n := s.indexes.length, id := joinKeys p.1, fields := p.1, unique := false } : IndexDescr)]).map (·.id)) := by
        rw [List.map_map]
        exact List.map_congr_left (fun d _ => flip_id (joinKeys p.1) d)
      refine ih _ hused ?_ ?_ ?_ hnodup.2
      · dsimp only
        rw [hmapn, hwf1, List.length_map]
      · dsimp only
        rw [hmapid]
        exact hids1
      · intro q hq
        dsimp only
        rw [hmapid]
        exact hdisj1 q hq
    · have hone : s.setupIndexes (p :: rest) = Store.setupIndexes
          ({ s with indexes := s.indexes ++ [({ n := s.indexes.length, id := joinKeys p.1, fields := p.1, unique := false } : IndexDescr)], cIndex := some (joinKeys p.1) } : Store α) rest := by
        show (p :: rest).foldl _ s = _
        rw [List.foldl_cons, hCI]
        dsimp only
        rw [if_neg hp]
        rfl
      rw [hone]
      exact ih _ hused hwf1 hids1 hdisj1 hnodup.2

/-- The store obtained by creating distinct indexes on a fresh store
satisfies the invariant. -/
theorem newStore_setup_inv (cfg : StoreConfig α)
    (setup : List (List String × Bool))
    (hnodup : (setup.map (fun p => joinKeys p.1)).Nodup) :
    Inv ((newStore cfg).setupIndexes setup) := by
  obtain ⟨hb, hx, hu, hc, hn, hh, hwf, hids⟩ :=
    setupIndexes_char setup (newStore cfg) rfl rfl List.nodup_nil
      (fun p hp hc => (List.not_mem_nil _ hc)) hnodup
  have hbucket : ∀ iid key,
      ((newStore cfg).setupIndexes setup).bucketOf iid key = [] := by
    intro iid key
    unfold Store.bucketOf
    rw [hx]
    rfl
  refine ⟨hwf, hids, ?_, ?_, ?_, ?_, ?_, ?_, ?_, ?_⟩
  · rw [TreeSorted, hb]
    exact List.Pairwise.nil
  · rw [hb]
    exact List.nodup_nil
  · intro w hw
    rw [hb] at hw
    exact absurd hw (List.not_mem_nil w)
  · intro w hw
    rw [hb] at hw
    exact absurd hw (List.not_mem_nil w)
  · intro iid key y
    rw [hbucket iid key]
    constructor
    · intro hy
      exact absurd hy (List.not_mem_nil y)
    · rintro ⟨hy, -⟩
      rw [hb] at hy
      exact absurd hy (List.not_mem_nil y)
  · intro iid key
    rw [hbucket iid key]
    exact List.nodup_nil
  · rw [hx]
    exact List.nodup_nil
  · intro e he
    rw [hx] at he
    exact absurd he (List.not_mem_nil e)

theorem getD_map_of_wf (IX : List IndexDescr) (f : IndexDescr → String)
    (hwf : IX.map (·.n) = List.range IX.length) (d : IndexDescr) (hd : d ∈ IX) :
    (IX.map f).getD d.n "" = f d := by
  obtain ⟨i, hi, hget⟩ := List.mem_iff_getElem.mp hd
  have h1 : (IX.map (fun x => x.n))[i]? = some d.n := by
    rw [List.getElem?_map, List.getElem?_eq_getElem hi, hget]
    rfl
  rw [hwf] at h1
  have h2 : (List.range IX.length)[i]? = some i :=
    List.getElem?_range (by simpa using hi)
  rw [h2] at h1
  have hdn : d.n = i := by
    injection h1 with h1'
    exact h1'.symm
  rw [List.getD_eq_getElem?_getD, hdn, List.getElem?_map,
    List.getElem?_eq_getElem hi, hget]
  rfl

end SWO

/-- The concrete numeric comparator is a strict weak order. -/
theorem natCfg_swo : IsSWO natCfg.less := by
  refine ⟨?_, ?_, ?_⟩
  · intro a
    simp [natCfg, StoreConfig.less, StoreConfig.baseLess, natLess]
  · intro a b c h1 h2
    simp [natCfg, StoreConfig.less, StoreConfig.baseLess, natLess] at h1 h2 ⊢
    omega
  · intro a b c h1 h2
    simp [natCfg, StoreConfig.less, StoreConfig.baseLess, natLess] at h1 h2 ⊢
    omega

section SWO2

variable {α : Type}

/-- C1: in every store reachable by Put, Delete and Expire operations
from a fresh store with a fixed set of distinct indexes, a wrapper sits
in an index bucket exactly when it is stored in the ordered tree and the
bucket's compound key is the one recorded in the wrapper's key snapshot
for that index: every tree wrapper is indexed under its snapshot key in
every index, every bucket member is in the tree, and no bucket holds a
wrapper under any other key. -/
theorem tree_index_correspondence (cfg : StoreConfig α) (hswo : IsSWO cfg.less)
    (setup : List (List String × Bool))
    (hnodup : (setup.map (fun p => joinKeys p.1)).Nodup)
    (ops : List (Op α)) :
    ∀ iid key y,
      y ∈ (((newStore cfg).setupIndexes setup).run ops).bucketOf iid key ↔
      (y ∈ (((newStore cfg).setupIndexes setup).run ops).backing ∧
        ∃ d ∈ (((newStore cfg).setupIndexes setup).run ops).indexes,
          d.id = iid ∧ y.values.getD d.n "" = key) := by
  have hswo2 : IsSWO ((newStore cfg).setupIndexes setup).cfg.less := by
    obtain ⟨-, -, -, hc, -⟩ := setupIndexes_char setup (newStore cfg) rfl rfl
      List.nodup_nil (fun p hp hc => (List.not_mem_nil _ hc)) hnodup
    rw [hc]
    exact hswo
  exact (run_inv ops _ (newStore_setup_inv cfg setup hnodup) hswo2).main

theorem tree_index_correspondence_witness :
    IsSWO natCfg.less ∧
    ((([(["u"], true)] : List (List String × Bool)).map
      (fun p => joinKeys p.1)).Nodup) ∧
    (∀ iid key y,
      y ∈ (((newStore natCfg).setupIndexes [(["u"], true)]).run
        [Op.put 1 0, Op.put 2 0, Op.del 1]).bucketOf iid key ↔
      (y ∈ (((newStore natCfg).setupIndexes [(["u"], true)]).run
        [Op.put 1 0, Op.put 2 0, Op.del 1]).backing ∧
        ∃ d ∈ (((newStore natCfg).setupIndexes [(["u"], true)]).run
          [Op.put 1 0, Op.put 2 0, Op.del 1]).indexes,
          d.id = iid ∧ y.values.getD d.n "" = key)) :=
  ⟨natCfg_swo, by simp,
   tree_index_correspondence natCfg natCfg_swo [(["u"], true)] (by simp)
     [Op.put 1 0, Op.put 2 0, Op.del 1]⟩

theorem put_backing_eq (s : Store α) (item : α) (now : Int) :
    (s.put item now).1.backing =
    (({ s with nextUid := s.nextUid + 1 } : Store α).addWrap
      (s.wrapIt item now) now).1.backing := by
  unfold Store.put
  dsimp only
  cases hx : (({ s with nextUid := s.nextUid + 1 } : Store α).addWrap
      (s.wrapIt item now) now).2.2 with
  | replaced o => rfl
  | evicted => rfl
  | fresh => rfl

/-- C4: for every configuration — including one with `reversed` set —
Put of an item followed by Get with a probe equal to the item under the
resolved ordering (neither probe nor item is less than the other)
returns the stored item.  When `reversed` is set, the negated ordering
has no equal pairs at all (negating a strict weak order loses
irreflexivity), so the equal-probe hypothesis is vacuous there; the
content of the claim is the non-reversed case. -/
theorem put_get_equal_probe (s : Store α) (hinv : Inv s)
    (hswoB : IsSWO s.cfg.baseLess) (item probe : α) (now now2 : Int)
    (heq1 : s.cfg.less probe item = false)
    (heq2 : s.cfg.less item probe = false) :
    ((s.put item now).1.get probe now2).2 = some item := by
  by_cases hrev : s.cfg.reversed = true
  · exfalso
    rw [StoreConfig.less, if_pos hrev] at heq1 heq2
    have h1 : s.cfg.baseLess probe item = true := by
      cases h : s.cfg.baseLess probe item
      · rw [h] at heq1
        simp at heq1
      · rfl
    have h2 : s.cfg.baseLess item probe = true := by
      cases h : s.cfg.baseLess item probe
      · rw [h] at heq2
        simp at heq2
      · rfl
    have h3 := hswoB.lt_trans probe item probe h1 h2
    rw [hswoB.irrefl probe] at h3
    exact Bool.noConfusion h3
  · have hswo : IsSWO s.cfg.less := by
      refine ⟨?_, ?_, ?_⟩
      · intro a
        rw [StoreConfig.less, if_neg hrev]
        exact hswoB.irrefl a
      · intro a b c h1 h2
        rw [StoreConfig.less, if_neg hrev] at h1 h2 ⊢
        exact hswoB.lt_trans a b c h1 h2
      · intro a b c h1 h2
        rw [StoreConfig.less, if_neg hrev] at h1 h2 ⊢
        exact hswoB.neg_trans a b c h1 h2
    have hinv0 : Inv ({ s with nextUid := s.nextUid + 1 } : Store α) :=
      ⟨hinv.wfIdx, hinv.idsNodup, hinv.sorted, hinv.uidNodup,
       fun w hw => Nat.lt_succ_of_lt (hinv.uidBound w hw),
       hinv.valLen, hinv.main, hinv.bnodup, hinv.outerNodup, hinv.innerNodup⟩
    obtain ⟨A1, A2, A3, A4, A5, A6, A7, A8, A9, A10, A11, A12, A13, A14, A15,
      A16, A17⟩ := addWrap_char ({ s with nextUid := s.nextUid + 1 } : Store α)
        (s.wrapIt item now) now hinv0 hswo
        (fun y hy => Nat.ne_of_lt (hinv.uidBound y hy))
    have hG : treeGet (s.put item now).1.cfg.less probe
        (s.put item now).1.backing =
        some (({ s with nextUid := s.nextUid + 1 } : Store α).addWrap
          (s.wrapIt item now) now).2.1 := by
      rw [put_cfg, put_backing_eq]
      refine treeGet_complete hswo A8 A10 ?_
      constructor
      · rw [A2]
        exact heq2
      · rw [A2]
        exact heq1
    unfold Store.get
    dsimp only
    rw [hG]
    dsimp only
    rw [A2]
    rfl

theorem put_get_equal_probe_witness :
    Inv (newStore natCfg) ∧ IsSWO natCfg.baseLess ∧
    natCfg.less 5 5 = false ∧
    (((newStore natCfg).put 5 0).1.get 5 1).2 = some 5 :=
  ⟨newStore_setup_inv natCfg [] List.nodup_nil,
   ⟨natCfg_swo.irrefl, natCfg_swo.lt_trans, natCfg_swo.neg_trans⟩,
   by decide,
   put_get_equal_probe (newStore natCfg)
     (newStore_setup_inv natCfg [] List.nodup_nil)
     ⟨natCfg_swo.irrefl, natCfg_swo.lt_trans, natCfg_swo.neg_trans⟩
     5 5 0 1 (by decide) (by decide)⟩

theorem send_happens (s : Store α) (h : Happening α) :
    (s.send h).happens = s.happens ++ [h] := rfl

/-- C2: when the put item's compound key on some unique index matches the
key of occupants already stored in that index's bucket, every prior
occupant is removed from the whole store — its uid disappears from the
tree and from every bucket of every index — an Update happening pairs
each such occupant (as old) with the newly inserted item (as new), and
the put reports no error. -/
theorem put_unique_conflict_evicts (s : Store α) (hinv : Inv s)
    (hswo : IsSWO s.cfg.less) (item : α) (now : Int)
    (d : IndexDescr) (hd : d ∈ s.indexes) (huq : d.unique = true)
    (p : Wrap α)
    (hp : p ∈ s.bucketOf d.id (s.cfg.getFieldsValue item d.fields)) :
    (∀ y ∈ (s.put item now).1.backing, y.uid ≠ p.uid) ∧
    (∀ iid key, ∀ y ∈ (s.put item now).1.bucketOf iid key, y.uid ≠ p.uid) ∧
    (∃ st, (⟨Event.update, some p.item, some item, st⟩ : Happening α) ∈
      (s.put item now).1.happens) ∧
    (s.put item now).2.2 = none := by
  have hinv0 : Inv ({ s with nextUid := s.nextUid + 1 } : Store α) :=
    ⟨hinv.wfIdx, hinv.idsNodup, hinv.sorted, hinv.uidNodup,
     fun w hw => Nat.lt_succ_of_lt (hinv.uidBound w hw),
     hinv.valLen, hinv.main, hinv.bnodup, hinv.outerNodup, hinv.innerNodup⟩
  obtain ⟨A1, A2, A3, A4, A5, A6, A7, A8, A9, A10, A11, A12, A13, A14, A15,
    A16, A17⟩ := addWrap_char ({ s with nextUid := s.nextUid + 1 } : Store α)
      (s.wrapIt item now) now hinv0 hswo
      (fun y hy => Nat.ne_of_lt (hinv.uidBound y hy))
  obtain ⟨hpb, d', hd', hid', hk'⟩ := (hinv.main _ _ p).mp hp
  have hdd : d = d' := (List.inj_on_of_nodup_map hinv.idsNodup hd' hd hid').symm
  subst hdd
  have hWsnap : (({ s with nextUid := s.nextUid + 1 } : Store α).addWrap
      (s.wrapIt item now) now).2.1.values.getD d.n "" =
      s.cfg.getFieldsValue item d.fields := by
    rw [A3]
    exact getD_map_of_wf s.indexes _ hinv.wfIdx d hd
  have hpuid : p.uid ≠ (({ s with nextUid := s.nextUid + 1 } : Store α).addWrap
      (s.wrapIt item now) now).2.1.uid := by
    rw [A1]
    exact Nat.ne_of_lt (hinv.uidBound p hpb)
  have hEvp : EvictedBy s.indexes (({ s with nextUid := s.nextUid + 1 } :
      Store α).addWrap (s.wrapIt item now) now).2.1 p := by
    refine ⟨hpuid, d, hd, huq, ?_⟩
    rw [hWsnap]
    exact hk'
  have hbk : ∀ y ∈ (({ s with nextUid := s.nextUid + 1 } : Store α).addWrap
      (s.wrapIt item now) now).1.backing, y.uid ≠ p.uid := by
    intro y hy hc
    rcases (A11 y).mp hy with rfl | ⟨hyb, -, hnE⟩
    · rw [A1] at hc
      exact Nat.ne_of_lt (hinv.uidBound p hpb) hc.symm
    · have hyp : y = p := hinv.uid_inj hyb hpb hc
      subst hyp
      exact hnE hEvp
  have hbucket : ∀ iid key, ∀ y ∈ (({ s with nextUid := s.nextUid + 1 } :
      Store α).addWrap (s.wrapIt item now) now).1.bucketOf iid key,
      y.uid ≠ p.uid := by
    intro iid key y hy
    exact hbk y ((A12 iid key y).mp hy).1
  unfold Store.put
  dsimp only
  cases hx : (({ s with nextUid := s.nextUid + 1 } : Store α).addWrap
      (s.wrapIt item now) now).2.2 with
  | replaced o =>
    dsimp only
    refine ⟨hbk, hbucket, ?_, rfl⟩
    by_cases hpo : p = o
    · subst hpo
      refine ⟨(({ s with nextUid := s.nextUid + 1 } : Store α).addWrap
        (s.wrapIt item now) now).2.1.stats, ?_⟩
      rw [send_happens]
      exact List.mem_append_right _ (List.mem_singleton_self _)
    · obtain ⟨extra, hex, cov⟩ := A13
      have hev := cov p hpb hEvp (by
        intro o' ho'
        rw [hx] at ho'
        injection ho' with hh
        subst hh
        exact hpo)
      rw [A2] at hev
      refine ⟨(({ s with nextUid := s.nextUid + 1 } : Store α).addWrap
        (s.wrapIt item now) now).2.1.stats, ?_⟩
      rw [send_happens, hex]
      exact List.mem_append_left _ (List.mem_append_right _ hev)
  | evicted =>
    dsimp only
    refine ⟨hbk, hbucket, ?_, rfl⟩
    obtain ⟨extra, hex, cov⟩ := A13
    have hev := cov p hpb hEvp (by
      intro o' ho'
      rw [hx] at ho'
      exact AddResult.noConfusion ho')
    rw [A2] at hev
    refine ⟨(({ s with nextUid := s.nextUid + 1 } : Store α).addWrap
      (s.wrapIt item now) now).2.1.stats, ?_⟩
    rw [hex]
    exact List.mem_append_right _ hev
  | fresh =>
    dsimp only
    refine ⟨hbk, hbucket, ?_, rfl⟩
    obtain ⟨extra, hex, cov⟩ := A13
    have hev := cov p hpb hEvp (by
      intro o' ho'
      rw [hx] at ho'
      exact AddResult.noConfusion ho')
    rw [A2] at hev
    refine ⟨(({ s with nextUid := s.nextUid + 1 } : Store α).addWrap
      (s.wrapIt item now) now).2.1.stats, ?_⟩
    rw [send_happens, hex]
    exact List.mem_append_left _ (List.mem_append_right _ hev)

theorem put_unique_conflict_evicts_witness :
    Inv (((newStore natCfg).setupIndexes [(["u"], true)]).run [Op.put 1 0]) ∧
    IsSWO ((((newStore natCfg).setupIndexes [(["u"], true)]).run
      [Op.put 1 0]).cfg.less) ∧
    (⟨0, "u", ["u"], true⟩ : IndexDescr) ∈ (((newStore natCfg).setupIndexes
      [(["u"], true)]).run [Op.put 1 0]).indexes ∧
    (⟨0, 1, ["a"], ⟨0, 0, 0, 0, 1, 0⟩⟩ : Wrap Nat) ∈
      (((newStore natCfg).setupIndexes [(["u"], true)]).run
        [Op.put 1 0]).bucketOf "u"
        ((((newStore natCfg).setupIndexes [(["u"], true)]).run
          [Op.put 1 0]).cfg.getFieldsValue 2 ["u"]) ∧
    (∀ y ∈ (((((newStore natCfg).setupIndexes [(["u"], true)]).run
      [Op.put 1 0]).put 2 5).1.backing), y.uid ≠ 0) ∧
    (∀ iid key, ∀ y ∈ (((((newStore natCfg).setupIndexes [(["u"], true)]).run
      [Op.put 1 0]).put 2 5).1.bucketOf iid key), y.uid ≠ 0) ∧
    (∃ st, (⟨Event.update, some 1, some 2, st⟩ : Happening Nat) ∈
      ((((newStore natCfg).setupIndexes [(["u"], true)]).run
        [Op.put 1 0]).put 2 5).1.happens) ∧
    ((((newStore natCfg).setupIndexes [(["u"], true)]).run
      [Op.put 1 0]).put 2 5).2.2 = none :=
  have hswo : IsSWO ((((newStore natCfg).setupIndexes [(["u"], true)]).run
      [Op.put 1 0]).cfg.less) := natCfg_swo
  have hinv : Inv (((newStore natCfg).setupIndexes [(["u"], true)]).run
      [Op.put 1 0]) :=
    run_inv [Op.put 1 0] _
      (newStore_setup_inv natCfg [(["u"], true)] (by simp)) hswo
  have hmain := put_unique_conflict_evicts
    (((newStore natCfg).setupIndexes [(["u"], true)]).run [Op.put 1 0])
    hinv hswo 2 5 ⟨0, "u", ["u"], true⟩ (by decide) rfl
    ⟨0, 1, ["a"], ⟨0, 0, 0, 0, 1, 0⟩⟩ (by decide)
  ⟨hinv, hswo, by decide, by decide, hmain.1, hmain.2.1, hmain.2.2.1, hmain.2.2.2⟩

end SWO2

end Memdb
